import Mathlib

/-!
# Directory offsets and enumeration of the tmpfs port (`src/fileops.c`, `src/inode.c`)

A shallow embedding of the directory layer: the per-directory offset counter, the list of
children (`_d.subdirs`), the indexed variant (`dir_offsets.mt`), child creation
(`tmpfs_add_sub_dentry`, `shmem_mknod`, ...) and the two `readdir` drivers
(`list_iterate_dir`, `offset_iterate_dir`).

The code is embedded at two levels.

* The functions named as in the source (`tmpfs_add_sub_dentry`, `shmem_mknod`,
  `list_iterate_dir`, ...) compute over the natural numbers and keep, for each node of
  `_d.subdirs`, the dentry it points to by value. They are the code as long as no offset and no
  cursor comes to the end of the machine word and every creation is handed a dentry that no
  list node points to yet. The statements about single operations and about a directory given as
  it is read are made on them.
* The functions with the suffix `_w` or `_m` are the code in the machine. `next_offset`,
  `d_fsdata` and the cursor are words of `w` bits (`uintptr_t`; the declaration of
  `struct offset_ctx` is not part of `src/`, so the width is a parameter) and every increment is
  taken modulo `2 ^ w`. The functions with `_m` work, in addition, on a directory in memory: a
  `mem_dir` keeps the dentries in a memory and its list nodes hold addresses, so a dentry that
  is handed to a creation a second time is seen changed through its earlier node as well. The
  statements about every sequence of creations and about every enumeration are made at this
  level. The lemmas `list_loop_w_eq`, `offset_loop_w_eq`, `tmpfs_add_sub_dentry_m_as_read` and
  `shmem_mknod_m_as_read` say when the two levels agree.

Further conventions.

* An enumeration does not write to the directory, so the enumeration functions of both levels
  take the directory as a walk reads it (`dir_as_read` for a directory in memory).
* `d_lock`/`d_unlock`, the pair `dget_dlock`/`dput` and the `dget` of `shmem_mknod` protect the
  dentry while the consumer runs or keep it in core; they do not influence which dentry is found
  or what is passed to the consumer and are left out of the enumeration functions. The variants
  `list_iterate_dir_pin` and `offset_iterate_dir_pin` carry the reference counts and are shown
  to give the same context and log.
* The `while (true)` loops take a step budget and yield `none` when it does not suffice. Over the
  natural numbers the entry points give them one more step than the directory has children,
  which is shown to be enough. In the machine the budget is an argument of the entry points: a
  call returns when some budget suffices, and it does not return when none does.
* Every call of the consumer callback (`ctx->actor`) is recorded in a log that the enumeration
  functions return next to the context: the entry offered and the callback's answer.
-/

namespace Tmpfs

/-! ## Constants -/

/-- BOGO_DIRENT_SIZE of `inode.c`: every entry counts as this size in the directory's `i_size`. -/
def BOGO_DIRENT_SIZE : Nat := 20

/-- Error number ENOSPC. -/
def ENOSPC : Int := 28

/-- Error number ENOTEMPTY. -/
def ENOTEMPTY : Int := 39

/-- LONG_MAX, the upper limit handed to `mas_find` in `offset_find_next`. -/
def LONG_MAX : Nat := 9223372036854775807

/-- File type mask S_IFMT of `i_mode`. -/
def S_IFMT : Nat := 0o170000

/-- File type bits of a directory. -/
def S_IFDIR : Nat := 0o040000

/-- File type bits of a regular file. -/
def S_IFREG : Nat := 0o100000

/-- File type bits of a symbolic link. -/
def S_IFLNK : Nat := 0o120000

/-- File type bits of a block device. -/
def S_IFBLK : Nat := 0o060000

/-- File type bits of a character device. -/
def S_IFCHR : Nat := 0o020000

/-- File type bits of a FIFO. -/
def S_IFIFO : Nat := 0o010000

/-- Directory type code DT_DIR handed to the consumer for the dot entries. -/
def DT_DIR : Nat := 4

/-- Modelled from the spec: DIR_OFFSET_MIN, the first offset handed out by a fresh directory
("first real offset = 2, reserving 0/1 for dot entries"); its definition is not under `src/`. -/
def DIR_OFFSET_MIN : Nat := 2

/-! ## Data model -/

/-- The tables of file operations an inode can point to (`i_fop`). -/
inductive file_operations where
  | unset
  | shmem_file_operations
  | simple_offset_dir_operations
  | tmpfs_dir_fops
  | special
  deriving DecidableEq, Repr

/-- A directory entry (`struct dentry`) together with the fields of its inode that the
enumeration reads: `d_name`, `d_fsdata` (the offset), liveness as tested by
`simple_positive`, and `d_inode(dentry)->i_ino`, `->i_mode`. -/
structure dentry where
  d_name : String
  d_fsdata : Nat
  positive : Bool
  i_ino : Nat
  i_mode : Nat
  deriving DecidableEq, Repr

/-- The fields of `struct offset_ctx`: the indexed variant `mt` and the counter. The maple
tree is kept as the collection of dentries stored in it, each under its own offset. -/
structure offset_ctx where
  mt : List dentry
  next_offset : Nat
  deriving DecidableEq, Repr

/-- An inode with its `shmem_inode_info`: the `vfs_inode` fields that the code touches, the
offset context and the list of children `_d.subdirs` (in list order, head first). -/
structure shmem_inode_info where
  i_ino : Nat
  i_mode : Nat
  i_size : Nat
  i_nlink : Nat
  i_fop : file_operations
  dir_offsets : offset_ctx
  subdirs : List dentry
  deriving DecidableEq, Repr

/-- What the consumer callback receives for one entry: name, offset, inode number, type. -/
structure dirent where
  name : String
  offset : Nat
  ino : Nat
  dtype : Nat
  deriving DecidableEq, Repr

/-- The enumeration context (`struct dir_context`): the cursor `pos` and the consumer's own
state (the buffer behind the `actor` callback). -/
structure dir_context (σ : Type) where
  pos : Nat
  buf : σ

/-- An open directory (`struct file`): `private_data` as set by the open operation, and the
inode numbers of the directory and of its parent, used for the dot entries. -/
structure file where
  private_data : Nat
  dir_ino : Nat
  parent_ino : Nat
  deriving DecidableEq, Repr

/-! ## Helpers of the VFS that the code calls -/

/-- Liveness test `simple_positive`. -/
def simple_positive (d : dentry) : Bool := d.positive

/-- Store the offset in the dentry (`d_set_fsdata`). -/
def d_set_fsdata (d : dentry) (v : Nat) : dentry := { d with d_fsdata := v }

/-- Attach the inode to the dentry (`d_instantiate`): the dentry becomes positive and shows
the inode's number and mode. -/
def d_instantiate (d : dentry) (inode : shmem_inode_info) : dentry :=
  { d with positive := true, i_ino := inode.i_ino, i_mode := inode.i_mode }

/-- Type code of a mode (`fs_umode_to_dtype`): the file type bits shifted down. -/
def fs_umode_to_dtype (mode : Nat) : Nat := (mode / 4096) % 16

/-- Bump the link count (`inc_nlink`). -/
def inc_nlink (inode : shmem_inode_info) : shmem_inode_info :=
  { inode with i_nlink := inode.i_nlink + 1 }

/-- Modelled from the spec: `simple_offset_init`, not under `src/`: an empty index and the
counter "starting above the reserved values used for `.` and `..`". -/
def simple_offset_init (_octx : offset_ctx) : offset_ctx :=
  { mt := [], next_offset := DIR_OFFSET_MIN }

/-- Apply `f` to the last node of a list: the dentry just linked by `list_add_tail`. -/
def modify_tail (f : dentry → dentry) : List dentry → List dentry
  | [] => []
  | [d] => [f d]
  | d :: e :: rest => d :: modify_tail f (e :: rest)

/-! ## `fileops.c`: creation -/

/-- The offset of a dentry (`dentry2offset`). -/
def dentry2offset (d : dentry) : Nat := d.d_fsdata

/-- Function `tmpfs_inode_init`: both list heads start empty. -/
def tmpfs_inode_init (inode : shmem_inode_info) : shmem_inode_info :=
  { inode with subdirs := [] }

/-- Function `tmpfs_add_sub_dentry` over the natural numbers, the dentry kept by value: the dentry
takes the directory's `next_offset`, the counter is incremented, and the child is linked at the
tail of `_d.subdirs`. Returns the error code (always 0), the directory and the dentry. This is
the code while the counter stays below the end of its word and the dentry is not yet pointed to
by a list node (`tmpfs_add_sub_dentry_m_as_read`); `tmpfs_add_sub_dentry_m` is the function on
the directory in memory with the counter in a word of `w` bits. -/
def tmpfs_add_sub_dentry (dir : shmem_inode_info) (_inode : shmem_inode_info) (d : dentry) :
    Int × shmem_inode_info × dentry :=
  let error : Int := 0
  let octx := dir.dir_offsets
  let d1 := d_set_fsdata d octx.next_offset
  let octx1 := { octx with next_offset := octx.next_offset + 1 }
  (error, { dir with dir_offsets := octx1, subdirs := dir.subdirs ++ [d1] }, d1)

/-! ## `inode.c`: inode allocation and the creation operations -/

/-- Function `__shmem_get_inode`: `new_inode` is the result of the allocator `new_inode(sb)` (`none`
when it returns NULL). A directory gets one more link, the size of two entries, the directory
operations `tmpfs_dir_fops` and an initialised offset context. -/
def __shmem_get_inode (new_inode : Option shmem_inode_info) (mode : Nat) :
    Except Int shmem_inode_info :=
  match new_inode with
  | none => .error (-ENOSPC)
  | some inode =>
    let inode := { inode with i_mode := mode }
    let inode :=
      if mode &&& S_IFMT = S_IFDIR then
        let inode := inc_nlink inode
        { inode with i_size := 2 * BOGO_DIRENT_SIZE, i_fop := file_operations.tmpfs_dir_fops,
                     dir_offsets := simple_offset_init inode.dir_offsets }
      else if mode &&& S_IFMT = S_IFREG then
        { inode with i_fop := file_operations.shmem_file_operations }
      else if mode &&& S_IFMT = S_IFBLK ∨ mode &&& S_IFMT = S_IFCHR ∨
          mode &&& S_IFMT = S_IFIFO then
        { inode with i_fop := file_operations.special }
      else inode
    .ok (tmpfs_inode_init inode)

/-- Function `shmem_get_inode`: a wrapper of `__shmem_get_inode`. -/
def shmem_get_inode (new_inode : Option shmem_inode_info) (mode : Nat) :
    Except Int shmem_inode_info :=
  __shmem_get_inode new_inode mode

/-- Function `shmem_mknod`: allocate the inode; on failure return the error and leave the directory
alone. Otherwise run `tmpfs_add_sub_dentry`, add BOGO_DIRENT_SIZE to the directory's size
and instantiate the dentry (the node just linked at the tail of the list). -/
def shmem_mknod (new_inode : Option shmem_inode_info) (dir : shmem_inode_info) (d : dentry)
    (mode : Nat) : Int × shmem_inode_info :=
  match shmem_get_inode new_inode mode with
  | .error e => (e, dir)
  | .ok inode =>
    let r := tmpfs_add_sub_dentry dir inode d
    if r.1 ≠ 0 then (r.1, r.2.1)
    else
      let dir1 := { r.2.1 with i_size := r.2.1.i_size + BOGO_DIRENT_SIZE }
      (0, { dir1 with subdirs := modify_tail (fun x => d_instantiate x inode) dir1.subdirs })

/-- Function `shmem_mkdir`: `shmem_mknod` with the directory bit, then one more link on the parent. -/
def shmem_mkdir (new_inode : Option shmem_inode_info) (dir : shmem_inode_info) (d : dentry)
    (mode : Nat) : Int × shmem_inode_info :=
  let r := shmem_mknod new_inode dir d (mode ||| S_IFDIR)
  if r.1 ≠ 0 then r else (0, inc_nlink r.2)

/-- Function `shmem_create`: `shmem_mknod` with the regular-file bit. -/
def shmem_create (new_inode : Option shmem_inode_info) (dir : shmem_inode_info) (d : dentry)
    (mode : Nat) : Int × shmem_inode_info :=
  shmem_mknod new_inode dir d (mode ||| S_IFREG)

/-- Function `shmem_symlink`: allocates the inode and adds BOGO_DIRENT_SIZE to the directory's size;
the dentry is instantiated but `tmpfs_add_sub_dentry` is not called, so the list is untouched. -/
def shmem_symlink (new_inode : Option shmem_inode_info) (dir : shmem_inode_info) (_d : dentry) :
    Int × shmem_inode_info :=
  match shmem_get_inode new_inode (S_IFLNK ||| 0o777) with
  | .error e => (e, dir)
  | .ok _ => (0, { dir with i_size := dir.i_size + BOGO_DIRENT_SIZE })

/-- Modelled from the spec: `simple_empty`, not under `src/`: the destination is empty when it
has no live children ("occupied and non-empty (a directory with live children)"). The argument
is the destination dentry's list of children. -/
def simple_empty (children : List dentry) : Bool :=
  children.all (fun c => !simple_positive c)

/-- Function `shmem_rename2`: the local `error` is only assigned when the destination is not empty;
`uninit` stands for the value the uninitialised variable holds otherwise. Neither directory is
written. -/
def shmem_rename2 (uninit : Int) (old_dir : shmem_inode_info) (new_dir : shmem_inode_info)
    (new_dentry_children : List dentry) : Int × shmem_inode_info × shmem_inode_info :=
  let error : Int := if !simple_empty new_dentry_children then -ENOTEMPTY else uninit
  (error, old_dir, new_dir)

/-- An entry turning negative (removal by the VFS collaborator): the `i`-th child of the list
stops being live; nothing else changes. -/
def turn_negative (dir : shmem_inode_info) (i : Nat) : shmem_inode_info :=
  { dir with subdirs := dir.subdirs.modify (fun c => { c with positive := false }) i }

/-! ## The life of a directory -/

/-- The operations that act on a directory: the creation operations of
`shmem_dir_inode_operations`, each with the outcome of the inode allocator, and the removal
of the `i`-th child by the VFS. -/
inductive dir_op where
  | mknod (new_inode : Option shmem_inode_info) (d : dentry) (mode : Nat)
  | mkdir (new_inode : Option shmem_inode_info) (d : dentry) (mode : Nat)
  | create (new_inode : Option shmem_inode_info) (d : dentry) (mode : Nat)
  | symlink (new_inode : Option shmem_inode_info) (d : dentry)
  | removal (i : Nat)

/-- Run one operation on the directory: the return code and the directory afterwards. -/
def apply_op (dir : shmem_inode_info) : dir_op → Int × shmem_inode_info
  | .mknod ni d mode => shmem_mknod ni dir d mode
  | .mkdir ni d mode => shmem_mkdir ni dir d mode
  | .create ni d mode => shmem_create ni dir d mode
  | .symlink ni d => shmem_symlink ni dir d
  | .removal i => (0, turn_negative dir i)

/-- Run a sequence of operations, first to last. -/
def apply_ops (dir : shmem_inode_info) : List dir_op → shmem_inode_info
  | [] => dir
  | op :: ops => apply_ops (apply_op dir op).2 ops

/-- The offsets of the children that one operation linked into the list: the nodes of the list
after the operation that were not there before. -/
def linked_offsets (before after : shmem_inode_info) : List Nat :=
  (after.subdirs.drop before.subdirs.length).map dentry2offset

/-- The offsets assigned to the entries created by a sequence of operations, in the order of
creation. -/
def assigned_offsets (dir : shmem_inode_info) : List dir_op → List Nat
  | [] => []
  | op :: ops =>
    linked_offsets dir (apply_op dir op).2 ++ assigned_offsets (apply_op dir op).2 ops

/-- The directory states of this filesystem: a directory inode as `__shmem_get_inode` makes it,
followed by any sequence of operations. -/
inductive Reachable : shmem_inode_info → Prop where
  | fresh (raw : shmem_inode_info) (mode : Nat) (dir : shmem_inode_info) :
      mode &&& S_IFMT = S_IFDIR → __shmem_get_inode (some raw) mode = .ok dir → Reachable dir
  | step (dir : shmem_inode_info) (op : dir_op) : Reachable dir → Reachable (apply_op dir op).2

/-! ## `fileops.c`: enumeration -/

/-- The consumer callback (`ctx->actor`): from its state and the entry offered, its new state
and whether it accepts the entry. -/
abbrev actor_t (σ : Type) := σ → dirent → σ × Bool

/-- The log of one or more enumeration calls: every entry offered to the consumer with the
consumer's answer. -/
abbrev emit_log := List (dirent × Bool)

/-- The entries of a log that the consumer accepted. -/
def accepted (log : emit_log) : List dirent := (log.filter (fun e => e.2)).map (fun e => e.1)

/-- Call the consumer on one entry: the answer, the context with the consumer's new state, and
the log of this call. -/
def call_actor {σ : Type} (actor : actor_t σ) (ctx : dir_context σ) (de : dirent) :
    Bool × dir_context σ × emit_log :=
  let r := actor ctx.buf de
  (r.2, { ctx with buf := r.1 }, [(de, r.2)])

/-- What `offset_dir_emit` passes to the consumer for a dentry. -/
def dirent_of (d : dentry) : dirent :=
  { name := d.d_name, offset := dentry2offset d, ino := d.i_ino,
    dtype := fs_umode_to_dtype d.i_mode }

/-- Function `offset_dir_emit`: offer the dentry to the consumer. -/
def offset_dir_emit {σ : Type} (actor : actor_t σ) (ctx : dir_context σ) (d : dentry) :
    Bool × dir_context σ × emit_log :=
  call_actor actor ctx (dirent_of d)

/-- Modelled from the spec: `mas_find` on the indexed variant, not under `src/`:
"returns the entry with the smallest offset ≥ the argument, or none", restricted to offsets up
to `max`; among entries of equal offset the first stored wins. -/
def mas_find : List dentry → Nat → Nat → Option dentry
  | [], _, _ => none
  | c :: rest, index, max =>
    match mas_find rest index max with
    | none => if index ≤ c.d_fsdata ∧ c.d_fsdata ≤ max then some c else none
    | some b => if index ≤ c.d_fsdata ∧ c.d_fsdata ≤ b.d_fsdata then some c else some b

/-- Function `offset_find_next`: the first entry of the index at or after `offset`; it is returned
only when it is live. -/
def offset_find_next (octx : offset_ctx) (offset : Nat) : Option dentry :=
  match mas_find octx.mt offset LONG_MAX with
  | none => none
  | some child => if simple_positive child then some child else none

/-- The loop of `offset_iterate_dir`, with a step budget, the cursor a natural number. The entries
it finds are at most LONG_MAX, so for words of 64 bits or more this is the loop with the cursor
in a machine word (`offset_loop_w_eq`, `offset_iterate_dir_loop_w`). -/
def offset_iterate_dir_loop {σ : Type} (actor : actor_t σ) (octx : offset_ctx)
    (last_index : Nat) : Nat → dir_context σ → Option (dir_context σ × emit_log)
  | 0, _ => none
  | n + 1, ctx =>
    match offset_find_next octx ctx.pos with
    | none => some (ctx, [])
    | some d =>
      if last_index ≤ dentry2offset d then some (ctx, [])
      else
        let r := offset_dir_emit actor ctx d
        if !r.1 then some (r.2.1, r.2.2)
        else
          match offset_iterate_dir_loop actor octx last_index n
              { r.2.1 with pos := dentry2offset d + 1 } with
          | none => none
          | some (c, log) => some (c, r.2.2 ++ log)

/-- Function `offset_iterate_dir`: the loop over the index of the inode. -/
def offset_iterate_dir {σ : Type} (actor : actor_t σ) (inode : shmem_inode_info)
    (ctx : dir_context σ) (last_index : Nat) : Option (dir_context σ × emit_log) :=
  offset_iterate_dir_loop actor inode.dir_offsets last_index (inode.dir_offsets.mt.length + 1) ctx

/-- Modelled from the spec: `dir_emit_dots`, not under `src/`: "emit synthetic `.` and `..`
entries at reserved low offsets if the caller's provided cursor has not yet passed them; a
caller that declines even these stops the call immediately". Returns whether to go on. -/
def dir_emit_dots {σ : Type} (actor : actor_t σ) (f : file) (ctx : dir_context σ) :
    Bool × dir_context σ × emit_log :=
  let s1 : Bool × dir_context σ × emit_log :=
    if ctx.pos = 0 then
      let r := call_actor actor ctx { name := ".", offset := ctx.pos, ino := f.dir_ino,
                                      dtype := DT_DIR }
      if !r.1 then r else (true, { r.2.1 with pos := 1 }, r.2.2)
    else (true, ctx, [])
  if !s1.1 then s1
  else if s1.2.1.pos = 1 then
    let r := call_actor actor s1.2.1 { name := "..", offset := s1.2.1.pos, ino := f.parent_ino,
                                       dtype := DT_DIR }
    if !r.1 then (false, r.2.1, s1.2.2 ++ r.2.2)
    else (true, { r.2.1 with pos := 2 }, s1.2.2 ++ r.2.2)
  else s1

/-- Function `offset_readdir`: the dot entries, then the loop bounded by the handle's
`private_data`. -/
def offset_readdir {σ : Type} (actor : actor_t σ) (dir : shmem_inode_info) (f : file)
    (ctx : dir_context σ) : Option (dir_context σ × emit_log) :=
  let last_index := f.private_data
  let s := dir_emit_dots actor f ctx
  if !s.1 then some (s.2.1, s.2.2)
  else
    match offset_iterate_dir actor dir s.2.1 last_index with
    | none => none
    | some (c, log) => some (c, s.2.2 ++ log)

/-- Function `offset_dir_open`: the handle's `private_data` takes the directory's `next_offset`. -/
def offset_dir_open (inode : shmem_inode_info) (f : file) : Int × file :=
  let ctx := inode.dir_offsets
  (0, { f with private_data := ctx.next_offset })

/-- The scan of `list_find_next` over the list of children: it stops at the first child whose
offset is at or after `last_index` and returns it only when it is live. -/
def list_find_next_scan : List dentry → Nat → Option dentry
  | [], _ => none
  | child :: rest, last_index =>
    if last_index ≤ child.d_fsdata then
      (if simple_positive child then some child else none)
    else list_find_next_scan rest last_index

/-- Function `list_find_next` on the children of a directory. -/
def list_find_next (dir_info : shmem_inode_info) (last_index : Nat) : Option dentry :=
  list_find_next_scan dir_info.subdirs last_index

/-- The loop of `list_iterate_dir`, with a step budget, the cursor a natural number. This is the
code while no child has the greatest offset of the machine word (`list_loop_w_eq`);
`list_iterate_dir_loop_w` is the loop with the cursor in a word of `w` bits. -/
def list_iterate_dir_loop {σ : Type} (actor : actor_t σ) (dir_info : shmem_inode_info) :
    Nat → dir_context σ → Option (dir_context σ × emit_log)
  | 0, _ => none
  | n + 1, ctx =>
    match list_find_next dir_info ctx.pos with
    | none => some (ctx, [])
    | some d =>
      let r := offset_dir_emit actor ctx d
      if !r.1 then some (r.2.1, r.2.2)
      else
        match list_iterate_dir_loop actor dir_info n { r.2.1 with pos := dentry2offset d + 1 } with
        | none => none
        | some (c, log) => some (c, r.2.2 ++ log)

/-- Function `list_iterate_dir`: the loop over the children of the inode; `last_index` is received
and not used. -/
def list_iterate_dir {σ : Type} (actor : actor_t σ) (inode : shmem_inode_info)
    (ctx : dir_context σ) (_last_index : Nat) : Option (dir_context σ × emit_log) :=
  list_iterate_dir_loop actor inode (inode.subdirs.length + 1) ctx

/-- Function `list_dir_open`: the offset context is looked up and `private_data` is set to 2. -/
def list_dir_open (inode : shmem_inode_info) (f : file) : Int × file :=
  let _ctx := inode.dir_offsets
  (0, { f with private_data := 2 })

/-- Function `list_readdir`: the dot entries, then `list_iterate_dir`. -/
def list_readdir {σ : Type} (actor : actor_t σ) (dir : shmem_inode_info) (f : file)
    (ctx : dir_context σ) : Option (dir_context σ × emit_log) :=
  let last_index := f.private_data
  let s := dir_emit_dots actor f ctx
  if !s.1 then some (s.2.1, s.2.2)
  else
    match list_iterate_dir actor dir s.2.1 last_index with
    | none => none
    | some (c, log) => some (c, s.2.2 ++ log)

/-- The open operation of a directory, selected by its `i_fop`. -/
def dir_open (inode : shmem_inode_info) (f : file) : Option (Int × file) :=
  match inode.i_fop with
  | .tmpfs_dir_fops => some (list_dir_open inode f)
  | .simple_offset_dir_operations => some (offset_dir_open inode f)
  | _ => none

/-- The `iterate_shared` operation of a directory, selected by its `i_fop`. -/
def dir_readdir {σ : Type} (actor : actor_t σ) (inode : shmem_inode_info) (f : file)
    (ctx : dir_context σ) : Option (dir_context σ × emit_log) :=
  match inode.i_fop with
  | .tmpfs_dir_fops => list_readdir actor inode f ctx
  | .simple_offset_dir_operations => offset_readdir actor inode f ctx
  | _ => none

/-! ## Sequences of calls on one handle -/

/-- Successive calls of a `readdir` operation on one handle: each call starts from the context
that the call before it left behind. Returns the last context and the logs of the calls, first
to last. -/
def readdir_calls {σ : Type} (rd : dir_context σ → Option (dir_context σ × emit_log)) :
    Nat → dir_context σ → Option (dir_context σ × List emit_log)
  | 0, ctx => some (ctx, [])
  | n + 1, ctx =>
    match rd ctx with
    | none => none
    | some (c, log) =>
      match readdir_calls rd n c with
      | none => none
      | some (c2, logs) => some (c2, log :: logs)

/-- The entries accepted over all the calls of a session, in the order they were accepted. -/
def session_accepted (calls : List (Nat × emit_log)) : List dirent :=
  accepted (calls.map (fun c => c.2)).flatten

/-- The children among a list of entries: those at or after DIR_OFFSET_MIN, the dot entries
being at 0 and 1. -/
def children_only (l : List dirent) : List dirent :=
  l.filter (fun e => decide (DIR_OFFSET_MIN ≤ e.offset))

/-- The names and offsets of the accepted entries of a log. -/
def accepted_names (log : emit_log) : List (String × Nat) :=
  (accepted log).map (fun e => (e.name, e.offset))

/-! ## Notions used in the statements and their proofs -/

/-- The offsets of the children, in list order. -/
def child_offsets (dir : shmem_inode_info) : List Nat := dir.subdirs.map dentry2offset

/-- The entry `.` as `dir_emit_dots` offers it. -/
def dot_entry (f : file) : dirent := { name := ".", offset := 0, ino := f.dir_ino, dtype := DT_DIR }

/-- The entry `..` as `dir_emit_dots` offers it. -/
def dotdot_entry (f : file) : dirent :=
  { name := "..", offset := 1, ino := f.parent_ino, dtype := DT_DIR }

/-- The entry offered at cursor `p` by a `readdir` whose loop offers `next_child`: a dot entry
while the cursor is below 2. -/
def with_dots (f : file) (next_child : Nat → Option dirent) (p : Nat) : Option dirent :=
  if p = 0 then some (dot_entry f)
  else if p = 1 then some (dotdot_entry f)
  else next_child p

/-- The entry offered by the loop of `list_iterate_dir` at a cursor: the child that
`list_find_next` returns. -/
def list_loop_next (dir : shmem_inode_info) (p : Nat) : Option dirent :=
  (list_find_next dir p).map dirent_of

/-- The entry offered by the loop of `offset_iterate_dir` at a cursor: the child that
`offset_find_next` returns, unless its offset has reached the bound. -/
def offset_loop_next (octx : offset_ctx) (last_index : Nat) (p : Nat) : Option dirent :=
  match offset_find_next octx p with
  | none => none
  | some d => if last_index ≤ dentry2offset d then none else some (dirent_of d)

/-- The entry that `list_readdir` offers next when the cursor is `p`, if any. -/
def list_next (dir : shmem_inode_info) (f : file) : Nat → Option dirent :=
  with_dots f (list_loop_next dir)

/-- The entry that `offset_readdir` offers next when the cursor is `p`, if any. -/
def offset_next (dir : shmem_inode_info) (f : file) : Nat → Option dirent :=
  with_dots f (offset_loop_next dir.dir_offsets f.private_data)

/-- One enumeration call as a relation, over the function `next` that gives the entry offered
at a cursor: the call ends when nothing is offered or when the consumer refuses (cursor
unchanged); after an accepted entry the cursor is the entry's offset plus one. -/
inductive Run {σ : Type} (next : Nat → Option dirent) (actor : actor_t σ) :
    dir_context σ → dir_context σ → emit_log → Prop where
  | done (ctx : dir_context σ) : next ctx.pos = none → Run next actor ctx ctx []
  | refused (ctx : dir_context σ) (e : dirent) : next ctx.pos = some e →
      (actor ctx.buf e).2 = false →
      Run next actor ctx { ctx with buf := (actor ctx.buf e).1 } [(e, false)]
  | accepted (ctx ctx1 : dir_context σ) (e : dirent) (log : emit_log) : next ctx.pos = some e →
      (actor ctx.buf e).2 = true →
      Run next actor { pos := e.offset + 1, buf := (actor ctx.buf e).1 } ctx1 log →
      Run next actor ctx ctx1 ((e, true) :: log)

/-- The cursor after a call that started at `p` and had the entries `l` accepted: one past the
last accepted entry, or `p` when none was accepted. -/
def cursor_after (p : Nat) (l : List dirent) : Nat :=
  match l.getLast? with
  | none => p
  | some e => e.offset + 1

/-- An offered entry is never below the cursor. -/
def progress (next : Nat → Option dirent) : Prop := ∀ p e, next p = some e → p ≤ e.offset

/-- The number of entries of a list with offset at or after `p`. -/
def pending (l : List dentry) (p : Nat) : Nat := l.countP (fun c => decide (p ≤ c.d_fsdata))

/-! ## The counter in a machine word -/

/-- Function `tmpfs_add_sub_dentry` with `next_offset` held in an unsigned word of `w` bits: the
increment `octx->next_offset++` is taken modulo `2 ^ w`. The width is a parameter, the
declaration of `struct offset_ctx` not being under `src/`. -/
def tmpfs_add_sub_dentry_w (w : Nat) (dir : shmem_inode_info) (_inode : shmem_inode_info)
    (d : dentry) : Int × shmem_inode_info × dentry :=
  let error : Int := 0
  let octx := dir.dir_offsets
  let d1 := d_set_fsdata d octx.next_offset
  let octx1 := { octx with next_offset := (octx.next_offset + 1) % 2 ^ w }
  (error, { dir with dir_offsets := octx1, subdirs := dir.subdirs ++ [d1] }, d1)

/-- Function `shmem_mknod` over `tmpfs_add_sub_dentry_w`: the same steps with the counter in a
word of `w` bits. -/
def shmem_mknod_w (w : Nat) (new_inode : Option shmem_inode_info) (dir : shmem_inode_info)
    (d : dentry) (mode : Nat) : Int × shmem_inode_info :=
  match shmem_get_inode new_inode mode with
  | .error e => (e, dir)
  | .ok inode =>
    let r := tmpfs_add_sub_dentry_w w dir inode d
    if r.1 ≠ 0 then (r.1, r.2.1)
    else
      let dir1 := { r.2.1 with i_size := r.2.1.i_size + BOGO_DIRENT_SIZE }
      (0, { dir1 with subdirs := modify_tail (fun x => d_instantiate x inode) dir1.subdirs })

/-! ## Enumeration with the reference counts -/

/-- The loop of `list_iterate_dir` with the cursor in a word of `w` bits: `ctx->pos` is handed to
`list_find_next` as a `uintptr_t`, and `dentry2offset(dentry) + 1` is computed in `uintptr_t`,
that is modulo `2 ^ w`. The loop `while (true)` has no bound of its own; `fuel` is the number of
iterations allowed, and `none` means that they did not suffice. -/
def list_iterate_dir_loop_w {σ : Type} (w : Nat) (actor : actor_t σ)
    (dir_info : shmem_inode_info) : Nat → dir_context σ → Option (dir_context σ × emit_log)
  | 0, _ => none
  | n + 1, ctx =>
    match list_find_next dir_info (ctx.pos % 2 ^ w) with
    | none => some (ctx, [])
    | some d =>
      let r := offset_dir_emit actor ctx d
      if !r.1 then some (r.2.1, r.2.2)
      else
        match list_iterate_dir_loop_w w actor dir_info n
            { r.2.1 with pos := (dentry2offset d + 1) % 2 ^ w } with
        | none => none
        | some (c, log) => some (c, r.2.2 ++ log)

/-- Function `list_iterate_dir` with the cursor in a word of `w` bits; `last_index` is received
and not used. -/
def list_iterate_dir_w {σ : Type} (w : Nat) (actor : actor_t σ) (inode : shmem_inode_info)
    (fuel : Nat) (ctx : dir_context σ) (_last_index : Nat) :
    Option (dir_context σ × emit_log) :=
  list_iterate_dir_loop_w w actor inode fuel ctx

/-- Function `list_readdir` with the cursor in a word of `w` bits: the dot entries, then
`list_iterate_dir`. -/
def list_readdir_w {σ : Type} (w : Nat) (actor : actor_t σ) (dir : shmem_inode_info) (f : file)
    (fuel : Nat) (ctx : dir_context σ) : Option (dir_context σ × emit_log) :=
  let last_index := f.private_data
  let s := dir_emit_dots actor f ctx
  if !s.1 then some (s.2.1, s.2.2)
  else
    match list_iterate_dir_w w actor dir fuel s.2.1 last_index with
    | none => none
    | some (c, log) => some (c, s.2.2 ++ log)

/-- The loop of `offset_iterate_dir` with the cursor in a word of `w` bits: `ctx->pos` becomes
the index of the maple state, and `dentry2offset(dentry) + 1` is computed in `uintptr_t`. -/
def offset_iterate_dir_loop_w {σ : Type} (w : Nat) (actor : actor_t σ) (octx : offset_ctx)
    (last_index : Nat) : Nat → dir_context σ → Option (dir_context σ × emit_log)
  | 0, _ => none
  | n + 1, ctx =>
    match offset_find_next octx (ctx.pos % 2 ^ w) with
    | none => some (ctx, [])
    | some d =>
      if last_index ≤ dentry2offset d then some (ctx, [])
      else
        let r := offset_dir_emit actor ctx d
        if !r.1 then some (r.2.1, r.2.2)
        else
          match offset_iterate_dir_loop_w w actor octx last_index n
              { r.2.1 with pos := (dentry2offset d + 1) % 2 ^ w } with
          | none => none
          | some (c, log) => some (c, r.2.2 ++ log)

/-- Function `offset_iterate_dir` with the cursor in a word of `w` bits. -/
def offset_iterate_dir_w {σ : Type} (w : Nat) (actor : actor_t σ) (inode : shmem_inode_info)
    (fuel : Nat) (ctx : dir_context σ) (last_index : Nat) :
    Option (dir_context σ × emit_log) :=
  offset_iterate_dir_loop_w w actor inode.dir_offsets last_index fuel ctx

/-- Function `offset_readdir` with the cursor in a word of `w` bits: the dot entries, then the
loop bounded by the handle's `private_data`. -/
def offset_readdir_w {σ : Type} (w : Nat) (actor : actor_t σ) (dir : shmem_inode_info)
    (f : file) (fuel : Nat) (ctx : dir_context σ) : Option (dir_context σ × emit_log) :=
  let last_index := f.private_data
  let s := dir_emit_dots actor f ctx
  if !s.1 then some (s.2.1, s.2.2)
  else
    match offset_iterate_dir_w w actor dir fuel s.2.1 last_index with
    | none => none
    | some (c, log) => some (c, s.2.2 ++ log)

/-! ## The directory in memory: dentries by address, the counter in a machine word -/

/-- A directory as it lies in memory. A node of `_d.subdirs` is the `shmem_inode_info` of a
child, whose `ma_root` holds the address of the child's dentry: the list keeps that address for
each node, in list order, and `dentries` is the memory the addresses point into. Two nodes may
hold the same address. `next_offset` is a word of `w` bits, the width being given to the
functions that compute with it. -/
structure mem_dir where
  i_ino : Nat
  i_mode : Nat
  i_size : Nat
  i_nlink : Nat
  i_fop : file_operations
  next_offset : Nat
  mt : List Nat
  subdirs : List Nat
  dentries : Nat → dentry

/-- A directory inode without children, laid out in memory next to the dentries `dentries`. -/
def mem_dir_of (dir : shmem_inode_info) (dentries : Nat → dentry) : mem_dir :=
  { i_ino := dir.i_ino, i_mode := dir.i_mode, i_size := dir.i_size, i_nlink := dir.i_nlink,
    i_fop := dir.i_fop, next_offset := dir.dir_offsets.next_offset, mt := [], subdirs := [],
    dentries := dentries }

/-- What a walk over the directory reads: for each node the dentry its address points to, as it
is in memory now. -/
def dir_as_read (dir : mem_dir) : shmem_inode_info :=
  { i_ino := dir.i_ino, i_mode := dir.i_mode, i_size := dir.i_size, i_nlink := dir.i_nlink,
    i_fop := dir.i_fop,
    dir_offsets := { mt := dir.mt.map dir.dentries, next_offset := dir.next_offset },
    subdirs := dir.subdirs.map dir.dentries }

/-- Function `tmpfs_add_sub_dentry` on the directory in memory: `d_set_fsdata` writes the
directory's `next_offset` into the dentry at address `dentry`, `octx->next_offset++` is taken
modulo `2 ^ w`, and the new node, pointing to that dentry, is linked at the tail of
`_d.subdirs`. Returns the error code, which is always 0. -/
def tmpfs_add_sub_dentry_m (w : Nat) (dir : mem_dir) (_inode : shmem_inode_info)
    (dentry : Nat) : Int × mem_dir :=
  let error : Int := 0
  let d1 := d_set_fsdata (dir.dentries dentry) dir.next_offset
  (error, { dir with dentries := Function.update dir.dentries dentry d1,
                     next_offset := (dir.next_offset + 1) % 2 ^ w,
                     subdirs := dir.subdirs ++ [dentry] })

/-- Function `shmem_mknod` on the directory in memory: allocate the inode; on failure return the
error and leave the directory alone. Otherwise run `tmpfs_add_sub_dentry`, add BOGO_DIRENT_SIZE
to the directory's size and instantiate the dentry at address `dentry`. -/
def shmem_mknod_m (w : Nat) (new_inode : Option shmem_inode_info) (dir : mem_dir) (dentry : Nat)
    (mode : Nat) : Int × mem_dir :=
  match shmem_get_inode new_inode mode with
  | .error e => (e, dir)
  | .ok inode =>
    let r := tmpfs_add_sub_dentry_m w dir inode dentry
    if r.1 ≠ 0 then (r.1, r.2)
    else
      let dir1 := { r.2 with i_size := r.2.i_size + BOGO_DIRENT_SIZE }
      (0, { dir1 with dentries :=
              Function.update dir1.dentries dentry (d_instantiate (dir1.dentries dentry) inode) })

/-- Function `shmem_mkdir` on the directory in memory. -/
def shmem_mkdir_m (w : Nat) (new_inode : Option shmem_inode_info) (dir : mem_dir) (dentry : Nat)
    (mode : Nat) : Int × mem_dir :=
  let r := shmem_mknod_m w new_inode dir dentry (mode ||| S_IFDIR)
  if r.1 ≠ 0 then r else (0, { r.2 with i_nlink := r.2.i_nlink + 1 })

/-- Function `shmem_create` on the directory in memory. -/
def shmem_create_m (w : Nat) (new_inode : Option shmem_inode_info) (dir : mem_dir)
    (dentry : Nat) (mode : Nat) : Int × mem_dir :=
  shmem_mknod_m w new_inode dir dentry (mode ||| S_IFREG)

/-- Function `shmem_symlink` on the directory in memory: the directory's size grows and the dentry
at address `dentry` is instantiated; `tmpfs_add_sub_dentry` is not called, so the dentry gets no
offset and no node is linked. -/
def shmem_symlink_m (new_inode : Option shmem_inode_info) (dir : mem_dir) (dentry : Nat) :
    Int × mem_dir :=
  match shmem_get_inode new_inode (S_IFLNK ||| 0o777) with
  | .error e => (e, dir)
  | .ok inode =>
    (0, { dir with i_size := dir.i_size + BOGO_DIRENT_SIZE,
                   dentries := Function.update dir.dentries dentry
                     (d_instantiate (dir.dentries dentry) inode) })

/-- The dentry at address `dentry` turns negative (removal by the VFS); its node stays in the
list and nothing else changes. -/
def turn_negative_m (dir : mem_dir) (dentry : Nat) : mem_dir :=
  { dir with dentries :=
      Function.update dir.dentries dentry { dir.dentries dentry with positive := false } }

/-- The operations on a directory in memory: the creation operations, each with the outcome of
the inode allocator and the address of the dentry that name lookup hands over, and the removal
of the dentry at an address. A creation may receive the address of a dentry that turned negative
earlier: name lookup hands a cached negative dentry out again. -/
inductive mem_op where
  | mknod (new_inode : Option shmem_inode_info) (dentry : Nat) (mode : Nat)
  | mkdir (new_inode : Option shmem_inode_info) (dentry : Nat) (mode : Nat)
  | create (new_inode : Option shmem_inode_info) (dentry : Nat) (mode : Nat)
  | symlink (new_inode : Option shmem_inode_info) (dentry : Nat)
  | removal (dentry : Nat)

/-- Run one operation on the directory in memory: the return code and the directory
afterwards. -/
def apply_mem_op (w : Nat) (dir : mem_dir) : mem_op → Int × mem_dir
  | .mknod ni a mode => shmem_mknod_m w ni dir a mode
  | .mkdir ni a mode => shmem_mkdir_m w ni dir a mode
  | .create ni a mode => shmem_create_m w ni dir a mode
  | .symlink ni a => shmem_symlink_m ni dir a
  | .removal a => (0, turn_negative_m dir a)

/-- Run a sequence of operations on the directory in memory, first to last. -/
def apply_mem_ops (w : Nat) (dir : mem_dir) : List mem_op → mem_dir
  | [] => dir
  | op :: ops => apply_mem_ops w (apply_mem_op w dir op).2 ops

/-- The dentry that an operation passes through `shmem_mknod` to `tmpfs_add_sub_dentry`, if it
is such an operation. -/
def mknod_dentry : mem_op → Option Nat
  | .mknod _ a _ => some a
  | .mkdir _ a _ => some a
  | .create _ a _ => some a
  | .symlink _ _ => none
  | .removal _ => none

/-- The entry that an operation created through `shmem_mknod`: when the operation is one of
`shmem_mknod`, `shmem_mkdir`, `shmem_create` and returned 0, the name and the offset
(`dentry2offset`) found in its dentry after the call. -/
def created_entry (w : Nat) (dir : mem_dir) (op : mem_op) : List (String × Nat) :=
  match mknod_dentry op with
  | none => []
  | some a =>
    if (apply_mem_op w dir op).1 = 0 then
      [(((apply_mem_op w dir op).2.dentries a).d_name,
        dentry2offset ((apply_mem_op w dir op).2.dentries a))]
    else []

/-- The entries created through `shmem_mknod` by a sequence of operations, in the order of
creation, each with the offset it was given. -/
def creation_history (w : Nat) (dir : mem_dir) : List mem_op → List (String × Nat)
  | [] => []
  | op :: ops => created_entry w dir op ++ creation_history w (apply_mem_op w dir op).2 ops

/-- The offsets assigned by a sequence of operations, in the order of creation. -/
def assigned_offsets_m (w : Nat) (dir : mem_dir) (ops : List mem_op) : List Nat :=
  (creation_history w dir ops).map (fun e => e.2)

/-- Whether an operation goes through `shmem_mknod` with an inode allocation that succeeds. -/
def creates : mem_op → Bool
  | .mknod (some _) _ _ => true
  | .mkdir (some _) _ _ => true
  | .create (some _) _ _ => true
  | _ => false

/-- The number of operations of a sequence that go through `shmem_mknod` with an inode
allocation that succeeds. -/
def creations (ops : List mem_op) : Nat := (ops.filter creates).length

/-- What happens around an open handle on a directory in memory: a `readdir` call on it, or an
operation on the directory. -/
inductive mem_step where
  | readdir
  | op (o : mem_op)

/-- The operations among the steps of a handle's life, in order. -/
def steps_ops : List mem_step → List mem_op
  | [] => []
  | .readdir :: rest => steps_ops rest
  | .op o :: rest => o :: steps_ops rest

/-- The life of one handle on a directory in memory, read through `list_readdir`: the steps are
run in order, each `readdir` call gets `fuel` iterations and walks the directory as it is in
memory at that time; the cursor is only changed by the `readdir` calls. Returns the directory
and the context at the end and, for each `readdir` call, the cursor it started at with its
log. -/
def mem_session {σ : Type} (w : Nat) (actor : actor_t σ) (f : file) (fuel : Nat) :
    mem_dir → dir_context σ → List mem_step →
    Option (mem_dir × dir_context σ × List (Nat × emit_log))
  | dir, ctx, [] => some (dir, ctx, [])
  | dir, ctx, mem_step.readdir :: rest =>
    match list_readdir_w w actor (dir_as_read dir) f fuel ctx with
    | none => none
    | some (c, log) =>
      match mem_session w actor f fuel dir c rest with
      | none => none
      | some (dir2, c2, calls) => some (dir2, c2, (ctx.pos, log) :: calls)
  | dir, ctx, mem_step.op o :: rest =>
    mem_session w actor f fuel (apply_mem_op w dir o).2 ctx rest

/-- The names and offsets of the children among a list of entries handed to the consumer. -/
def child_names (l : List dirent) : List (String × Nat) :=
  (children_only l).map (fun e => (e.name, e.offset))

/-- One call of a scanning loop in the machine as a relation, over the function `next` that
gives the entry offered at a cursor: the cursor is read as a word of `w` bits; the call ends
when nothing is offered or when the consumer refuses (cursor unchanged); after an accepted
entry the cursor is the entry's offset plus one modulo `2 ^ w`. -/
inductive Run_w {σ : Type} (w : Nat) (next : Nat → Option dirent) (actor : actor_t σ) :
    dir_context σ → dir_context σ → emit_log → Prop where
  | done (ctx : dir_context σ) : next (ctx.pos % 2 ^ w) = none → Run_w w next actor ctx ctx []
  | refused (ctx : dir_context σ) (e : dirent) : next (ctx.pos % 2 ^ w) = some e →
      (actor ctx.buf e).2 = false →
      Run_w w next actor ctx { ctx with buf := (actor ctx.buf e).1 } [(e, false)]
  | accepted (ctx ctx1 : dir_context σ) (e : dirent) (log : emit_log) :
      next (ctx.pos % 2 ^ w) = some e → (actor ctx.buf e).2 = true →
      Run_w w next actor { pos := (e.offset + 1) % 2 ^ w, buf := (actor ctx.buf e).1 } ctx1 log →
      Run_w w next actor ctx ctx1 ((e, true) :: log)

/-- The cursor in the machine after a call that started at `p` and had the entries `l`
accepted: one past the last accepted entry modulo `2 ^ w`, or `p` when none was accepted. -/
def cursor_after_w (w : Nat) (p : Nat) (l : List dirent) : Nat :=
  match l.getLast? with
  | none => p
  | some e => (e.offset + 1) % 2 ^ w

/-! ## Sample values -/

/-- A consumer that accepts every entry and keeps what it was given. -/
def accept_all : actor_t (List dirent) := fun buf de => (buf ++ [de], true)

/-- A consumer with room for a number of entries: it accepts while room is left. -/
def accept_upto : actor_t Nat := fun room _ => if room = 0 then (0, false) else (room - 1, true)

/-- A consumer that counts the entries offered to it and refuses every third one. -/
def refuse_every_third : actor_t Nat := fun k _ => (k + 1, decide (k % 3 ≠ 2))

/-- A sample inode as the allocator returns it: number `ino`, one link, nothing else set. -/
def ex_raw (ino : Nat) : shmem_inode_info :=
  { i_ino := ino, i_mode := 0, i_size := 0, i_nlink := 1, i_fop := file_operations.unset,
    dir_offsets := { mt := [], next_offset := 0 }, subdirs := [] }

/-- A sample negative dentry with a name, as name lookup hands it to a creation operation. -/
def ex_dentry (name : String) : dentry :=
  { d_name := name, d_fsdata := 0, positive := false, i_ino := 0, i_mode := 0 }

/-- A sample directory: inode 1 as `__shmem_get_inode` makes it for mode `S_IFDIR | 0755`. -/
def ex_root : shmem_inode_info :=
  { i_ino := 1, i_mode := 0o040755, i_size := 40, i_nlink := 2,
    i_fop := file_operations.tmpfs_dir_fops,
    dir_offsets := { mt := [], next_offset := 2 }, subdirs := [] }

/-- The creation of the regular files `a`, `b`, `c`, in that order. -/
def ex_create_abc : List dir_op :=
  [dir_op.create (some (ex_raw 10)) (ex_dentry "a") 0o644,
   dir_op.create (some (ex_raw 11)) (ex_dentry "b") 0o644,
   dir_op.create (some (ex_raw 12)) (ex_dentry "c") 0o644]

/-- The sample directory after the creation of `a`, `b`, `c`. -/
def ex_abc : shmem_inode_info := apply_ops ex_root ex_create_abc

/-- A sample handle before its open operation has run. -/
def ex_file : file := { private_data := 0, dir_ino := 1, parent_ino := 1 }

/-- The sample directory after the creation of `a` only. -/
def ex_a : shmem_inode_info :=
  apply_ops ex_root [dir_op.create (some (ex_raw 10)) (ex_dentry "a") 0o644]

/-- The sample directory with `a`, to which `b` is added after a handle was opened. -/
def ex_a_then_b : shmem_inode_info :=
  apply_ops ex_a [dir_op.create (some (ex_raw 11)) (ex_dentry "b") 0o644]

/-- The sample directory with `a`, `b`, `c` after `b` (the child at list position 1) has turned
negative. -/
def ex_abc_b_removed : shmem_inode_info := apply_ops ex_abc [dir_op.removal 1]

/-- The same children `a`, `b` (negative), `c` held in the indexed variant of a directory. -/
def ex_indexed_b_removed : shmem_inode_info :=
  { ex_root with dir_offsets := { mt := ex_abc_b_removed.subdirs, next_offset := 5 } }

/-- The entry handed to the consumer for the sample child `b`. -/
def ex_dirent_b : dirent := { name := "b", offset := 3, ino := 11, dtype := 8 }

/-- The sample directory with `a`, `b`, `c`, holding the same three children in the indexed
variant as well. -/
def ex_abc_indexed : shmem_inode_info :=
  { ex_abc with dir_offsets := { mt := ex_abc.subdirs, next_offset := 5 } }

/-- The creation of a symbolic link `s` through `shmem_symlink`. -/
def ex_symlink_s : dir_op := dir_op.symlink (some (ex_raw 13)) (ex_dentry "s")

/-- The sample directory at the end of its counter's range for a word of 64 bits. -/
def ex_exhausted : shmem_inode_info :=
  { ex_abc with dir_offsets := { mt := [], next_offset := 18446744073709551615 } }

/-- The names of the sample dentries by address: `a` at 100, `b` at 101, `c` at 102, and so
on. -/
def ex_name (a : Nat) : String :=
  if a = 100 then "a" else if a = 101 then "b" else if a = 102 then "c" else
  if a = 103 then "d" else if a = 104 then "e" else if a = 105 then "f" else "z"

/-- A sample memory: at every address a negative dentry with its name, as name lookup leaves
it. -/
def ex_memory : Nat → dentry := fun a => ex_dentry (ex_name a)

/-- The sample directory without children, in memory. -/
def ex_mem_root : mem_dir := mem_dir_of ex_root ex_memory

/-- The creation of a regular file through `shmem_create` with the dentry at address `a`. -/
def ex_mem_create (ino a : Nat) : mem_op := mem_op.create (some (ex_raw ino)) a 0o644

/-- The sample directory in memory after the creation of `a`, `b`, `c`, with words of 64
bits. -/
def ex_mem_abc : mem_dir :=
  apply_mem_ops 64 ex_mem_root [ex_mem_create 10 100, ex_mem_create 11 101, ex_mem_create 12 102]

/-- The sample directory in memory with `a`, `b`, `c` and its counter at the greatest value of a
word of 64 bits. -/
def ex_mem_exhausted : mem_dir := { ex_mem_abc with next_offset := 18446744073709551615 }

/-- The sample directory whose counter was at the greatest value of a word of 64 bits, after the
creation of one more child `z`: the children are `a` (2), `b` (3), `c` (4) and `z`
(18446744073709551615). -/
def ex_wrapped : shmem_inode_info :=
  (shmem_mknod_w 64 (some (ex_raw 14)) ex_exhausted (ex_dentry "z") 0o100644).2

/-! ## Lemmas on creation -/

theorem modify_tail_append (f : dentry → dentry) (l : List dentry) (d : dentry) :
    modify_tail f (l ++ [d]) = l ++ [f d] := by
  induction l with
  | nil => rfl
  | cons a t ih =>
    cases t with
    | nil => rfl
    | cons b t => simpa [modify_tail] using ih

theorem shmem_mknod_none (dir : shmem_inode_info) (d : dentry) (mode : Nat) :
    shmem_mknod none dir d mode = (-ENOSPC, dir) := rfl

theorem shmem_mknod_some (raw dir : shmem_inode_info) (d : dentry) (mode : Nat) :
    ∃ inode, shmem_get_inode (some raw) mode = .ok inode ∧ inode.i_ino = raw.i_ino ∧
      inode.i_mode = mode ∧
      shmem_mknod (some raw) dir d mode =
        (0, { dir with
                dir_offsets := { dir.dir_offsets with
                                  next_offset := dir.dir_offsets.next_offset + 1 },
                i_size := dir.i_size + BOGO_DIRENT_SIZE,
                subdirs := dir.subdirs ++
                  [d_instantiate (d_set_fsdata d dir.dir_offsets.next_offset) inode] }) := by
  refine ⟨_, rfl, ?_, ?_, ?_⟩
  · simp only [tmpfs_inode_init, inc_nlink]; split_ifs <;> rfl
  · simp only [tmpfs_inode_init, inc_nlink]; split_ifs <;> rfl
  · simp [shmem_mknod, shmem_get_inode, __shmem_get_inode, tmpfs_add_sub_dentry,
      modify_tail_append]

theorem get_inode_dir (raw : shmem_inode_info) (mode : Nat) (dir : shmem_inode_info)
    (hm : mode &&& S_IFMT = S_IFDIR) (h : __shmem_get_inode (some raw) mode = .ok dir) :
    dir.subdirs = [] ∧ dir.dir_offsets = { mt := [], next_offset := DIR_OFFSET_MIN } ∧
      dir.i_fop = file_operations.tmpfs_dir_fops ∧ dir.i_size = 2 * BOGO_DIRENT_SIZE ∧
      dir.i_nlink = raw.i_nlink + 1 ∧ dir.i_ino = raw.i_ino ∧ dir.i_mode = mode := by
  simp only [__shmem_get_inode, hm, if_true] at h
  injection h with h
  subst h
  simp [tmpfs_inode_init, inc_nlink, simple_offset_init]

theorem list_find_next_scan_append (l : List dentry) (e : dentry) (x : Nat)
    (h : ∀ c ∈ l, c.d_fsdata < x) :
    list_find_next_scan (l ++ [e]) x =
      if x ≤ e.d_fsdata then (if simple_positive e then some e else none) else none := by
  induction l with
  | nil => simp [list_find_next_scan]
  | cons a t ih =>
    have ha : ¬ x ≤ a.d_fsdata := by
      have := h a (List.mem_cons_self _ _); omega
    simp only [List.cons_append, list_find_next_scan, ha, if_false]
    exact ih (fun c hc => h c (List.mem_cons_of_mem _ hc))

/-! ## Lemmas on enumeration -/

theorem list_loop_run {σ : Type} (actor : actor_t σ) (dir : shmem_inode_info) (n : Nat) :
    ∀ (ctx ctx1 : dir_context σ) (log : emit_log),
      list_iterate_dir_loop actor dir n ctx = some (ctx1, log) →
      Run (list_loop_next dir) actor ctx ctx1 log := by
  induction n with
  | zero => intro ctx ctx1 log h; simp [list_iterate_dir_loop] at h
  | succ n ih =>
    intro ctx ctx1 log h
    unfold list_iterate_dir_loop at h
    cases hf : list_find_next dir ctx.pos with
    | none =>
      simp only [hf] at h
      injection h with h; injection h with h1 h2
      subst h1; subst h2
      exact Run.done ctx (by simp [list_loop_next, hf])
    | some d =>
      simp only [hf, offset_dir_emit, call_actor] at h
      cases ha : (actor ctx.buf (dirent_of d)).2 with
      | false =>
        simp only [ha, Bool.not_false, if_true] at h
        injection h with h; injection h with h1 h2
        subst h1; subst h2
        exact Run.refused ctx (dirent_of d) (by simp [list_loop_next, hf]) ha
      | true =>
        simp only [ha, Bool.not_true, Bool.false_eq_true, if_false] at h
        cases hr : list_iterate_dir_loop actor dir n
            { pos := dentry2offset d + 1, buf := (actor ctx.buf (dirent_of d)).1 } with
        | none => simp [hr] at h
        | some r =>
          obtain ⟨c, l⟩ := r
          simp only [hr] at h
          injection h with h; injection h with h1 h2
          subst h1; subst h2
          exact Run.accepted ctx c (dirent_of d) l (by simp [list_loop_next, hf]) ha (ih _ _ _ hr)

theorem offset_loop_run {σ : Type} (actor : actor_t σ) (octx : offset_ctx) (last : Nat)
    (n : Nat) : ∀ (ctx ctx1 : dir_context σ) (log : emit_log),
      offset_iterate_dir_loop actor octx last n ctx = some (ctx1, log) →
      Run (offset_loop_next octx last) actor ctx ctx1 log := by
  induction n with
  | zero => intro ctx ctx1 log h; simp [offset_iterate_dir_loop] at h
  | succ n ih =>
    intro ctx ctx1 log h
    unfold offset_iterate_dir_loop at h
    cases hf : offset_find_next octx ctx.pos with
    | none =>
      simp only [hf] at h
      injection h with h; injection h with h1 h2
      subst h1; subst h2
      exact Run.done ctx (by simp [offset_loop_next, hf])
    | some d =>
      simp only [hf, offset_dir_emit, call_actor] at h
      by_cases hb : last ≤ dentry2offset d
      · simp only [hb, if_true] at h
        injection h with h; injection h with h1 h2
        subst h1; subst h2
        exact Run.done ctx (by simp [offset_loop_next, hf, hb])
      · simp only [hb, if_false] at h
        have hnx : offset_loop_next octx last ctx.pos = some (dirent_of d) := by
          simp [offset_loop_next, hf, hb]
        cases ha : (actor ctx.buf (dirent_of d)).2 with
        | false =>
          simp only [ha, Bool.not_false, if_true] at h
          injection h with h; injection h with h1 h2
          subst h1; subst h2
          exact Run.refused ctx (dirent_of d) hnx ha
        | true =>
          simp only [ha, Bool.not_true, Bool.false_eq_true, if_false] at h
          cases hr : offset_iterate_dir_loop actor octx last n
              { pos := dentry2offset d + 1, buf := (actor ctx.buf (dirent_of d)).1 } with
          | none => simp [hr] at h
          | some r =>
            obtain ⟨c, l⟩ := r
            simp only [hr] at h
            injection h with h; injection h with h1 h2
            subst h1; subst h2
            exact Run.accepted ctx c (dirent_of d) l hnx ha (ih _ _ _ hr)

theorem Run_congr {σ : Type} (next1 next2 : Nat → Option dirent) (actor : actor_t σ)
    (hp : progress next1) (ctx ctx1 : dir_context σ) (log : emit_log)
    (h : Run next1 actor ctx ctx1 log) :
    (∀ p, ctx.pos ≤ p → next1 p = next2 p) → Run next2 actor ctx ctx1 log := by
  induction h with
  | done ctx hn => intro he; exact Run.done ctx (by rw [← he _ le_rfl]; exact hn)
  | refused ctx e hn ha => intro he; exact Run.refused ctx e (by rw [← he _ le_rfl]; exact hn) ha
  | accepted ctx ctx1 e log hn ha _ ih =>
    intro he
    refine Run.accepted ctx ctx1 e log (by rw [← he _ le_rfl]; exact hn) ha (ih ?_)
    intro p hpp
    have := hp _ _ hn
    exact he p (by simp only at hpp; omega)

theorem list_find_next_scan_spec (l : List dentry) (x : Nat) (d : dentry)
    (h : list_find_next_scan l x = some d) :
    d ∈ l ∧ x ≤ d.d_fsdata ∧ d.positive = true := by
  induction l with
  | nil => simp [list_find_next_scan] at h
  | cons a t ih =>
    unfold list_find_next_scan at h
    by_cases hx : x ≤ a.d_fsdata
    · simp only [hx, if_true, simple_positive] at h
      by_cases hpos : a.positive = true
      · simp only [hpos, if_true] at h
        injection h with h; subst h
        exact ⟨List.mem_cons_self _ _, hx, hpos⟩
      · simp [hpos] at h
    · simp only [hx, if_false] at h
      obtain ⟨h1, h2, h3⟩ := ih h
      exact ⟨List.mem_cons_of_mem _ h1, h2, h3⟩

theorem mas_find_spec (l : List dentry) (x m : Nat) (d : dentry) (h : mas_find l x m = some d) :
    d ∈ l ∧ x ≤ d.d_fsdata ∧ d.d_fsdata ≤ m ∧ ∀ c ∈ l, x ≤ c.d_fsdata → c.d_fsdata ≤ m →
      d.d_fsdata ≤ c.d_fsdata := by
  induction l generalizing d with
  | nil => simp [mas_find] at h
  | cons a t ih =>
    unfold mas_find at h
    cases hr : mas_find t x m with
    | none =>
      have hnone : ∀ c ∈ t, x ≤ c.d_fsdata → ¬ c.d_fsdata ≤ m := by
        clear ih h
        induction t with
        | nil => simp
        | cons b t iht =>
          unfold mas_find at hr
          cases hr2 : mas_find t x m with
          | none =>
            simp only [hr2] at hr
            intro c hc
            rcases List.mem_cons.1 hc with rfl | hc
            · intro h1 h2
              simp [h1, h2] at hr
            · exact iht hr2 c hc
          | some b2 =>
            simp only [hr2] at hr
            split_ifs at hr
      simp only [hr] at h
      split_ifs at h with hc
      injection h with h; subst h
      refine ⟨List.mem_cons_self _ _, hc.1, hc.2, ?_⟩
      intro c hcm h1 h2
      rcases List.mem_cons.1 hcm with rfl | hcm
      · exact le_rfl
      · exact absurd h2 (hnone c hcm h1)
    | some b =>
      obtain ⟨hb1, hb2, hb3, hb4⟩ := ih b hr
      simp only [hr] at h
      split_ifs at h with hc
      · injection h with h; subst h
        refine ⟨List.mem_cons_self _ _, hc.1, by omega, ?_⟩
        intro c hcm h1 h2
        rcases List.mem_cons.1 hcm with rfl | hcm
        · exact le_rfl
        · have := hb4 c hcm h1 h2; omega
      · injection h with h; subst h
        refine ⟨List.mem_cons_of_mem _ hb1, hb2, hb3, ?_⟩
        intro c hcm h1 h2
        rcases List.mem_cons.1 hcm with rfl | hcm
        · rw [not_and_or] at hc
          rcases hc with hc | hc
          · exact absurd h1 hc
          · omega
        · exact hb4 c hcm h1 h2

theorem pending_le_length (l : List dentry) (p : Nat) : pending l p ≤ l.length :=
  List.countP_le_length _

theorem pending_lt (l : List dentry) (p q : Nat) (d : dentry) (hd : d ∈ l)
    (h1 : p ≤ d.d_fsdata) (h2 : d.d_fsdata < q) : pending l q < pending l p := by
  induction l with
  | nil => simp at hd
  | cons a t ih =>
    have hmono : pending t q ≤ pending t p := by
      unfold pending
      apply List.countP_mono_left
      intro x _ hx
      simp only [decide_eq_true_eq] at hx ⊢
      omega
    simp only [pending, List.countP_cons] at hmono ih ⊢
    rcases List.mem_cons.1 hd with rfl | hd
    · have e1 : decide (q ≤ d.d_fsdata) = false := by simp; omega
      have e2 : decide (p ≤ d.d_fsdata) = true := by simp; omega
      simp only [e1, e2, if_true]
      simp
      omega
    · have := ih hd
      by_cases hq : q ≤ a.d_fsdata
      · have hp : p ≤ a.d_fsdata := by omega
        simp [hq, hp]; omega
      · by_cases hp : p ≤ a.d_fsdata
        · simp [hq, hp]; omega
        · simp [hq, hp]; omega

theorem list_loop_total {σ : Type} (actor : actor_t σ) (dir : shmem_inode_info) (n : Nat) :
    ∀ ctx : dir_context σ, pending dir.subdirs ctx.pos < n →
      ∃ r, list_iterate_dir_loop actor dir n ctx = some r := by
  induction n with
  | zero => intro ctx h; omega
  | succ n ih =>
    intro ctx h
    unfold list_iterate_dir_loop
    cases hf : list_find_next dir ctx.pos with
    | none => exact ⟨_, rfl⟩
    | some d =>
      obtain ⟨hm, hx, -⟩ := list_find_next_scan_spec _ _ _ hf
      simp only [offset_dir_emit, call_actor]
      cases ha : (actor ctx.buf (dirent_of d)).2 with
      | false => exact ⟨_, rfl⟩
      | true =>
        simp only [Bool.not_true, Bool.false_eq_true, if_false]
        have hlt := pending_lt dir.subdirs ctx.pos (dentry2offset d + 1) d hm hx
          (by simp [dentry2offset])
        obtain ⟨r, hr⟩ := ih
          { pos := dentry2offset d + 1, buf := (actor ctx.buf (dirent_of d)).1 }
          (by simp only; omega)
        rw [hr]
        exact ⟨_, rfl⟩

theorem offset_find_next_spec (octx : offset_ctx) (x : Nat) (d : dentry)
    (h : offset_find_next octx x = some d) :
    d ∈ octx.mt ∧ x ≤ d.d_fsdata ∧ d.d_fsdata ≤ LONG_MAX ∧ d.positive = true ∧
      mas_find octx.mt x LONG_MAX = some d := by
  unfold offset_find_next at h
  cases hm : mas_find octx.mt x LONG_MAX with
  | none => simp [hm] at h
  | some c =>
    simp only [hm, simple_positive] at h
    split_ifs at h with hp
    injection h with h; subst h
    obtain ⟨h1, h2, h3, -⟩ := mas_find_spec _ _ _ _ hm
    exact ⟨h1, h2, h3, hp, rfl⟩

theorem offset_loop_total {σ : Type} (actor : actor_t σ) (octx : offset_ctx) (last : Nat)
    (n : Nat) : ∀ ctx : dir_context σ, pending octx.mt ctx.pos < n →
      ∃ r, offset_iterate_dir_loop actor octx last n ctx = some r := by
  induction n with
  | zero => intro ctx h; omega
  | succ n ih =>
    intro ctx h
    unfold offset_iterate_dir_loop
    cases hf : offset_find_next octx ctx.pos with
    | none => exact ⟨_, rfl⟩
    | some d =>
      obtain ⟨hm, hx, -⟩ := offset_find_next_spec _ _ _ hf
      simp only [offset_dir_emit, call_actor]
      by_cases hb : last ≤ dentry2offset d
      · simp only [hb, if_true]; exact ⟨_, rfl⟩
      · simp only [hb, if_false]
        cases ha : (actor ctx.buf (dirent_of d)).2 with
        | false => exact ⟨_, rfl⟩
        | true =>
          simp only [Bool.not_true, Bool.false_eq_true, if_false]
          have hlt := pending_lt octx.mt ctx.pos (dentry2offset d + 1) d hm hx
            (by simp [dentry2offset])
          obtain ⟨r, hr⟩ := ih
            { pos := dentry2offset d + 1, buf := (actor ctx.buf (dirent_of d)).1 }
            (by simp only; omega)
          rw [hr]
          exact ⟨_, rfl⟩

theorem list_iterate_dir_total {σ : Type} (actor : actor_t σ) (dir : shmem_inode_info)
    (ctx : dir_context σ) (last : Nat) : ∃ r, list_iterate_dir actor dir ctx last = some r :=
  list_loop_total actor dir _ ctx (Nat.lt_succ_of_le (pending_le_length _ _))

theorem offset_iterate_dir_total {σ : Type} (actor : actor_t σ) (dir : shmem_inode_info)
    (ctx : dir_context σ) (last : Nat) : ∃ r, offset_iterate_dir actor dir ctx last = some r :=
  offset_loop_total actor dir.dir_offsets last _ ctx (Nat.lt_succ_of_le (pending_le_length _ _))

theorem list_readdir_total {σ : Type} (actor : actor_t σ) (dir : shmem_inode_info) (f : file)
    (ctx : dir_context σ) : ∃ r, list_readdir actor dir f ctx = some r := by
  unfold list_readdir
  simp only
  split_ifs
  · exact ⟨_, rfl⟩
  · obtain ⟨r, hr⟩ := list_iterate_dir_total actor dir (dir_emit_dots actor f ctx).2.1
      f.private_data
    rw [hr]; exact ⟨_, rfl⟩

theorem offset_readdir_total {σ : Type} (actor : actor_t σ) (dir : shmem_inode_info) (f : file)
    (ctx : dir_context σ) : ∃ r, offset_readdir actor dir f ctx = some r := by
  unfold offset_readdir
  simp only
  split_ifs
  · exact ⟨_, rfl⟩
  · obtain ⟨r, hr⟩ := offset_iterate_dir_total actor dir (dir_emit_dots actor f ctx).2.1
      f.private_data
    rw [hr]; exact ⟨_, rfl⟩

theorem progress_list_loop_next (dir : shmem_inode_info) : progress (list_loop_next dir) := by
  intro p e h
  unfold list_loop_next at h
  cases hf : list_find_next dir p with
  | none => simp [hf] at h
  | some d =>
    simp only [hf, Option.map_some'] at h
    injection h with h; subst h
    exact (list_find_next_scan_spec _ _ _ hf).2.1

theorem progress_offset_loop_next (octx : offset_ctx) (last : Nat) :
    progress (offset_loop_next octx last) := by
  intro p e h
  unfold offset_loop_next at h
  cases hf : offset_find_next octx p with
  | none => simp [hf] at h
  | some d =>
    simp only [hf] at h
    split_ifs at h
    injection h with h; subst h
    exact (offset_find_next_spec _ _ _ hf).2.1

theorem progress_with_dots (f : file) (next : Nat → Option dirent) (h : progress next) :
    progress (with_dots f next) := by
  intro p e he
  unfold with_dots at he
  split_ifs at he with h0 h1
  · injection he with he; subst he; simp [dot_entry, h0]
  · injection he with he; subst he; simp [dotdot_entry, h1]
  · exact h p e he

theorem dots_run {σ : Type} (actor : actor_t σ) (f : file) (next : Nat → Option dirent)
    (hp : progress next) (ctx : dir_context σ) :
    ((dir_emit_dots actor f ctx).1 = false →
      Run (with_dots f next) actor ctx (dir_emit_dots actor f ctx).2.1
        (dir_emit_dots actor f ctx).2.2) ∧
    ((dir_emit_dots actor f ctx).1 = true → ∀ c log,
      Run next actor (dir_emit_dots actor f ctx).2.1 c log →
      Run (with_dots f next) actor ctx c ((dir_emit_dots actor f ctx).2.2 ++ log)) := by
  have hcongr : ∀ (c0 c : dir_context σ) (log : emit_log), 2 ≤ c0.pos →
      Run next actor c0 c log → Run (with_dots f next) actor c0 c log := by
    intro c0 c log h2 hr
    refine Run_congr next _ actor hp c0 c log hr ?_
    intro p hpp
    have h0 : p ≠ 0 := by omega
    have h1 : p ≠ 1 := by omega
    simp [with_dots, h0, h1]
  obtain ⟨pos, buf⟩ := ctx
  by_cases h0 : pos = 0
  · subst h0
    have hd : with_dots f next 0 = some (dot_entry f) := by simp [with_dots]
    have hdd : with_dots f next 1 = some (dotdot_entry f) := by simp [with_dots]
    cases ha : (actor buf (dot_entry f)).2 with
    | false =>
      have e : dir_emit_dots actor f ⟨0, buf⟩ =
          (false, ⟨0, (actor buf (dot_entry f)).1⟩, [(dot_entry f, false)]) := by
        simp [dir_emit_dots, call_actor, dot_entry] at ha ⊢
        simp [ha]
      rw [e]
      refine ⟨fun _ => ?_, fun h => by simp at h⟩
      exact Run.refused ⟨0, buf⟩ (dot_entry f) hd ha
    | true =>
      cases hb : (actor (actor buf (dot_entry f)).1 (dotdot_entry f)).2 with
      | false =>
        have e : dir_emit_dots actor f ⟨0, buf⟩ =
            (false, ⟨1, (actor (actor buf (dot_entry f)).1 (dotdot_entry f)).1⟩,
              [(dot_entry f, true), (dotdot_entry f, false)]) := by
          simp [dir_emit_dots, call_actor, dot_entry, dotdot_entry] at ha hb ⊢
          simp [ha, hb]
        rw [e]
        refine ⟨fun _ => ?_, fun h => by simp at h⟩
        refine Run.accepted _ _ (dot_entry f) _ hd ha ?_
        exact Run.refused ⟨1, (actor buf (dot_entry f)).1⟩ (dotdot_entry f) hdd hb
      | true =>
        have e : dir_emit_dots actor f ⟨0, buf⟩ =
            (true, ⟨2, (actor (actor buf (dot_entry f)).1 (dotdot_entry f)).1⟩,
              [(dot_entry f, true), (dotdot_entry f, true)]) := by
          simp [dir_emit_dots, call_actor, dot_entry, dotdot_entry] at ha hb ⊢
          simp [ha, hb]
        rw [e]
        refine ⟨fun h => by simp at h, fun _ c log hr => ?_⟩
        refine Run.accepted _ _ (dot_entry f) _ hd ha ?_
        refine Run.accepted ⟨1, (actor buf (dot_entry f)).1⟩ _ (dotdot_entry f) _ hdd hb ?_
        exact hcongr _ _ _ (by simp [dotdot_entry]) hr
  · by_cases h1 : pos = 1
    · subst h1
      have hdd : with_dots f next 1 = some (dotdot_entry f) := by simp [with_dots]
      cases hb : (actor buf (dotdot_entry f)).2 with
      | false =>
        have e : dir_emit_dots actor f ⟨1, buf⟩ =
            (false, ⟨1, (actor buf (dotdot_entry f)).1⟩, [(dotdot_entry f, false)]) := by
          simp [dir_emit_dots, call_actor, dotdot_entry] at hb ⊢
          simp [hb]
        rw [e]
        refine ⟨fun _ => ?_, fun h => by simp at h⟩
        exact Run.refused ⟨1, buf⟩ (dotdot_entry f) hdd hb
      | true =>
        have e : dir_emit_dots actor f ⟨1, buf⟩ =
            (true, ⟨2, (actor buf (dotdot_entry f)).1⟩, [(dotdot_entry f, true)]) := by
          simp [dir_emit_dots, call_actor, dotdot_entry] at hb ⊢
          simp [hb]
        rw [e]
        refine ⟨fun h => by simp at h, fun _ c log hr => ?_⟩
        refine Run.accepted ⟨1, buf⟩ _ (dotdot_entry f) _ hdd hb ?_
        exact hcongr _ _ _ (by simp [dotdot_entry]) hr
    · have e : dir_emit_dots actor f ⟨pos, buf⟩ = (true, ⟨pos, buf⟩, []) := by
        simp [dir_emit_dots, h0, h1]
      rw [e]
      refine ⟨fun h => by simp at h, fun _ c log hr => ?_⟩
      exact hcongr _ _ _ (by simp only; omega) hr

theorem list_readdir_run {σ : Type} (actor : actor_t σ) (dir : shmem_inode_info) (f : file)
    (ctx c : dir_context σ) (log : emit_log) (h : list_readdir actor dir f ctx = some (c, log)) :
    Run (list_next dir f) actor ctx c log := by
  obtain ⟨h1, h2⟩ := dots_run actor f (list_loop_next dir) (progress_list_loop_next dir) ctx
  unfold list_readdir at h
  simp only at h
  cases hd : (dir_emit_dots actor f ctx).1 with
  | false =>
    simp only [hd, Bool.not_false, if_true] at h
    injection h with h; injection h with e1 e2
    subst e1; subst e2
    exact h1 hd
  | true =>
    simp only [hd, Bool.not_true, Bool.false_eq_true, if_false] at h
    cases hr : list_iterate_dir actor dir (dir_emit_dots actor f ctx).2.1 f.private_data with
    | none => simp [hr] at h
    | some r =>
      obtain ⟨c1, l1⟩ := r
      simp only [hr] at h
      injection h with h; injection h with e1 e2
      subst e1; subst e2
      exact h2 hd _ _ (list_loop_run actor dir _ _ _ _ hr)

theorem offset_readdir_run {σ : Type} (actor : actor_t σ) (dir : shmem_inode_info) (f : file)
    (ctx c : dir_context σ) (log : emit_log)
    (h : offset_readdir actor dir f ctx = some (c, log)) :
    Run (offset_next dir f) actor ctx c log := by
  obtain ⟨h1, h2⟩ := dots_run actor f (offset_loop_next dir.dir_offsets f.private_data)
    (progress_offset_loop_next _ _) ctx
  unfold offset_readdir at h
  simp only at h
  cases hd : (dir_emit_dots actor f ctx).1 with
  | false =>
    simp only [hd, Bool.not_false, if_true] at h
    injection h with h; injection h with e1 e2
    subst e1; subst e2
    exact h1 hd
  | true =>
    simp only [hd, Bool.not_true, Bool.false_eq_true, if_false] at h
    cases hr : offset_iterate_dir actor dir (dir_emit_dots actor f ctx).2.1 f.private_data with
    | none => simp [hr] at h
    | some r =>
      obtain ⟨c1, l1⟩ := r
      simp only [hr] at h
      injection h with h; injection h with e1 e2
      subst e1; subst e2
      exact h2 hd _ _ (offset_loop_run actor dir.dir_offsets _ _ _ _ _ hr)

theorem accepted_cons_true (e : dirent) (log : emit_log) :
    accepted ((e, true) :: log) = e :: accepted log := by
  simp [accepted]

theorem accepted_cons_false (e : dirent) (log : emit_log) :
    accepted ((e, false) :: log) = accepted log := by
  simp [accepted]

theorem accepted_append (l1 l2 : emit_log) : accepted (l1 ++ l2) = accepted l1 ++ accepted l2 := by
  simp [accepted]

theorem cursor_after_cons (p : Nat) (e : dirent) (l : List dirent) :
    cursor_after p (e :: l) = cursor_after (e.offset + 1) l := by
  cases l with
  | nil => simp [cursor_after]
  | cons a t =>
    have h : (e :: a :: t).getLast? = (a :: t).getLast? := List.getLast?_cons_cons
    have h2 : (a :: t).getLast? = some ((a :: t).getLast (List.cons_ne_nil _ _)) :=
      List.getLast?_eq_getLast _ _
    simp only [cursor_after, h]
    rw [h2]

theorem Run_cursor {σ : Type} (next : Nat → Option dirent) (actor : actor_t σ)
    (ctx c : dir_context σ) (log : emit_log) (h : Run next actor ctx c log) :
    c.pos = cursor_after ctx.pos (accepted log) := by
  induction h with
  | done ctx _ => simp [accepted, cursor_after]
  | refused ctx e _ _ => simp [accepted, cursor_after]
  | accepted ctx c e log _ _ _ ih => rw [accepted_cons_true, cursor_after_cons]; exact ih

theorem Run_shape {σ : Type} (next : Nat → Option dirent) (actor : actor_t σ)
    (ctx c : dir_context σ) (log : emit_log) (h : Run next actor ctx c log) :
    log = (accepted log).map (fun e => (e, true)) ∨
      ∃ e, log = (accepted log).map (fun e => (e, true)) ++ [(e, false)] := by
  induction h with
  | done ctx _ => left; simp [accepted]
  | refused ctx e _ _ => right; exact ⟨e, by simp [accepted]⟩
  | accepted ctx c e log _ _ _ ih =>
    rw [accepted_cons_true]
    rcases ih with ih | ⟨x, ih⟩
    · left; simp only [List.map_cons]; rw [← ih]
    · right; refine ⟨x, ?_⟩; simp only [List.map_cons, List.cons_append]; rw [← ih]

theorem Run_order {σ : Type} (next : Nat → Option dirent) (actor : actor_t σ)
    (hp : progress next) (ctx c : dir_context σ) (log : emit_log)
    (h : Run next actor ctx c log) :
    (log.map (fun e => e.1.offset)).Pairwise (· < ·) ∧ ∀ e ∈ log, ctx.pos ≤ e.1.offset := by
  induction h with
  | done ctx _ => simp
  | refused ctx e hn _ => simpa using hp _ _ hn
  | accepted ctx c e log hn _ _ ih =>
    obtain ⟨ih1, ih2⟩ := ih
    have hpe := hp _ _ hn
    refine ⟨?_, ?_⟩
    · simp only [List.map_cons, List.pairwise_cons]
      refine ⟨?_, ih1⟩
      intro o ho
      obtain ⟨x, hx, rfl⟩ := List.mem_map.1 ho
      have := ih2 x hx
      simp only at this
      omega
    · intro x hx
      rcases List.mem_cons.1 hx with rfl | hx
      · exact hpe
      · have := ih2 x hx
        simp only at this
        omega

theorem Run_offered {σ : Type} (next : Nat → Option dirent) (actor : actor_t σ)
    (hp : progress next) (ctx c : dir_context σ) (log : emit_log)
    (h : Run next actor ctx c log) :
    ∀ e ∈ log, ∃ p, ctx.pos ≤ p ∧ next p = some e.1 := by
  induction h with
  | done ctx _ => simp
  | refused ctx e hn _ =>
    intro x hx
    simp only [List.mem_singleton] at hx
    subst hx
    exact ⟨ctx.pos, le_rfl, hn⟩
  | accepted ctx c e log hn _ _ ih =>
    intro x hx
    rcases List.mem_cons.1 hx with rfl | hx
    · exact ⟨ctx.pos, le_rfl, hn⟩
    · obtain ⟨p, h1, h2⟩ := ih x hx
      have := hp _ _ hn
      exact ⟨p, by simp only at h1; omega, h2⟩

theorem Run_reoffer {σ : Type} (next : Nat → Option dirent) (actor : actor_t σ)
    (ctx c : dir_context σ) (log : emit_log) (h : Run next actor ctx c log) :
    ∀ pre e, log = pre ++ [(e, false)] → next c.pos = some e := by
  induction h with
  | done ctx _ => intro pre e h; simp at h
  | refused ctx e hn _ =>
    intro pre x h
    cases pre with
    | nil => simp at h; rw [← h]; exact hn
    | cons a t => simp at h
  | accepted ctx c e log hn _ _ ih =>
    intro pre x h
    cases pre with
    | nil => simp at h
    | cons a t =>
      simp only [List.cons_append, List.cons.injEq] at h
      exact ih t x h.2

theorem Run_first {σ : Type} (next : Nat → Option dirent) (actor : actor_t σ)
    (ctx c : dir_context σ) (log : emit_log) (h : Run next actor ctx c log) (e : dirent)
    (hn : next ctx.pos = some e) : ∃ rest, log = (e, (actor ctx.buf e).2) :: rest := by
  cases h with
  | done _ hd => rw [hn] at hd; cases hd
  | refused _ x hx ha =>
    rw [hn] at hx; injection hx with hx; subst hx
    exact ⟨[], by rw [ha]⟩
  | accepted _ _ x log hx ha hr =>
    rw [hn] at hx; injection hx with hx; subst hx
    exact ⟨log, by rw [ha]⟩

theorem Run_det {σ : Type} (next : Nat → Option dirent) (actor : actor_t σ)
    (ctx c : dir_context σ) (log : emit_log) (h : Run next actor ctx c log) :
    ∀ c2 log2, Run next actor ctx c2 log2 → c = c2 ∧ log = log2 := by
  induction h with
  | done ctx hn =>
    intro c2 log2 h2
    cases h2 with
    | done _ _ => exact ⟨rfl, rfl⟩
    | refused _ x hx _ => rw [hn] at hx; cases hx
    | accepted _ _ x l hx _ _ => rw [hn] at hx; cases hx
  | refused ctx e hn ha =>
    intro c2 log2 h2
    cases h2 with
    | done _ hd => rw [hn] at hd; cases hd
    | refused _ x hx _ => rw [hn] at hx; injection hx with hx; subst hx; exact ⟨rfl, rfl⟩
    | accepted _ _ x l hx hb _ =>
      rw [hn] at hx; injection hx with hx; subst hx
      rw [ha] at hb; cases hb
  | accepted ctx c e log hn ha _ ih =>
    intro c2 log2 h2
    cases h2 with
    | done _ hd => rw [hn] at hd; cases hd
    | refused _ x hx hb =>
      rw [hn] at hx; injection hx with hx; subst hx
      rw [ha] at hb; cases hb
    | accepted _ _ x l hx _ hr =>
      rw [hn] at hx; injection hx with hx; subst hx
      obtain ⟨h1, h2⟩ := ih _ _ hr
      exact ⟨h1, by rw [h2]⟩

theorem Run_resume {σ τ : Type} (next : Nat → Option dirent) (actor : actor_t σ)
    (always : actor_t τ) (hal : ∀ s e, (always s e).2 = true)
    (ctx c : dir_context σ) (log : emit_log) (h : Run next actor ctx c log) :
    ∀ (c0 c0r : dir_context τ) (full : emit_log), c0.pos = ctx.pos →
      Run next always c0 c0r full →
      ∃ (c1 c1r : dir_context τ) (rest : emit_log), c1.pos = c.pos ∧
        Run next always c1 c1r rest ∧ accepted log ++ accepted rest = accepted full ∧
        ((∀ e ∈ log, e.2 = true) → rest = []) := by
  induction h with
  | done ctx hn =>
    intro c0 c0r full hpos hf
    refine ⟨c0, c0r, full, hpos, hf, by simp [accepted], fun _ => ?_⟩
    cases hf with
    | done _ _ => rfl
    | refused _ x hx _ => rw [hpos, hn] at hx; cases hx
    | accepted _ _ x l hx _ _ => rw [hpos, hn] at hx; cases hx
  | refused ctx e hn ha =>
    intro c0 c0r full hpos hf
    exact ⟨c0, c0r, full, hpos, hf, by simp [accepted], fun hall => by simp at hall⟩
  | accepted ctx c e log hn ha _ ih =>
    intro c0 c0r full hpos hf
    cases hf with
    | done _ hd => rw [hpos, hn] at hd; cases hd
    | refused _ x hx hb => rw [hal] at hb; cases hb
    | accepted _ _ x l hx hb hr =>
      rw [hpos, hn] at hx; injection hx with hx; subst hx
      obtain ⟨c1, c1r, rest, h1, h2, h3, h4⟩ := ih _ _ _ rfl hr
      refine ⟨c1, c1r, rest, h1, h2, ?_, fun hall => h4 (fun x hx => hall x ?_)⟩
      · rw [accepted_cons_true, accepted_cons_true, List.cons_append, h3]
      · exact List.mem_cons_of_mem _ hx

theorem ex_root_reachable : Reachable ex_root :=
  Reachable.fresh (ex_raw 1) 0o040755 ex_root (by decide) rfl

theorem reachable_apply_ops (ops : List dir_op) : ∀ dir : shmem_inode_info,
    Reachable dir → Reachable (apply_ops dir ops) := by
  induction ops with
  | nil => intro dir h; exact h
  | cons op ops ih => intro dir h; exact ih _ (Reachable.step dir op h)

theorem list_find_next_scan_min (l : List dentry) (x : Nat) (e : dentry)
    (hs : (l.map dentry2offset).Pairwise (· < ·)) (he : e ∈ l) (hx : x ≤ e.d_fsdata)
    (hmin : ∀ c ∈ l, x ≤ c.d_fsdata → e.d_fsdata ≤ c.d_fsdata) :
    list_find_next_scan l x = if simple_positive e then some e else none := by
  induction l with
  | nil => simp at he
  | cons a t ih =>
    simp only [List.map_cons, List.pairwise_cons] at hs
    unfold list_find_next_scan
    by_cases ha : x ≤ a.d_fsdata
    · simp only [ha, if_true]
      rcases List.mem_cons.1 he with rfl | het
      · rfl
      · have h1 := hs.1 _ (List.mem_map_of_mem dentry2offset het)
        have h2 := hmin a (List.mem_cons_self _ _) ha
        simp only [dentry2offset] at h1
        omega
    · simp only [ha, if_false]
      rcases List.mem_cons.1 he with rfl | het
      · exact absurd hx ha
      · exact ih hs.2 het (fun c hc => hmin c (List.mem_cons_of_mem _ hc))

theorem eq_of_offset_eq (l : List dentry) (hn : (l.map dentry2offset).Nodup) (a b : dentry)
    (ha : a ∈ l) (hb : b ∈ l) (h : a.d_fsdata = b.d_fsdata) : a = b :=
  List.inj_on_of_nodup_map hn ha hb h

theorem offset_find_next_negative (octx : offset_ctx) (x : Nat) (e : dentry)
    (hn : (octx.mt.map dentry2offset).Nodup) (he : e ∈ octx.mt) (hx : x ≤ e.d_fsdata)
    (hmin : ∀ c ∈ octx.mt, x ≤ c.d_fsdata → e.d_fsdata ≤ c.d_fsdata)
    (hneg : e.positive = false) : offset_find_next octx x = none := by
  cases hf : offset_find_next octx x with
  | none => rfl
  | some d =>
    obtain ⟨h1, h2, h3, h4, h5⟩ := offset_find_next_spec _ _ _ hf
    obtain ⟨-, -, -, hm⟩ := mas_find_spec _ _ _ _ h5
    have hed : e.d_fsdata ≤ d.d_fsdata := hmin d h1 h2
    have hde : d.d_fsdata ≤ e.d_fsdata := hm e he hx (by omega)
    have : d = e := eq_of_offset_eq _ hn d e h1 he (by omega)
    subst this
    rw [hneg] at h4
    cases h4

theorem shmem_mknod_ok (raw dir : shmem_inode_info) (d : dentry) (mode : Nat) :
    shmem_mknod (some raw) dir d mode =
      (0, { dir with
              dir_offsets := { dir.dir_offsets with
                                next_offset := dir.dir_offsets.next_offset + 1 },
              i_size := dir.i_size + BOGO_DIRENT_SIZE,
              subdirs := dir.subdirs ++
                [{ d_name := d.d_name, d_fsdata := dir.dir_offsets.next_offset, positive := true,
                   i_ino := raw.i_ino, i_mode := mode }] }) := by
  obtain ⟨inode, -, h1, h2, h⟩ := shmem_mknod_some raw dir d mode
  rw [h]
  simp [d_instantiate, d_set_fsdata, h1, h2]

theorem Run_mono {σ : Type} (next : Nat → Option dirent) (actor : actor_t σ)
    (hp : progress next) (ctx c : dir_context σ) (log : emit_log)
    (h : Run next actor ctx c log) : ctx.pos ≤ c.pos := by
  induction h with
  | done ctx _ => exact le_rfl
  | refused ctx e _ _ => exact le_rfl
  | accepted ctx c e log hn _ _ ih =>
    have := hp _ _ hn
    simp only at ih
    omega

theorem Run_accepted_lt {σ : Type} (next : Nat → Option dirent) (actor : actor_t σ)
    (hp : progress next) (ctx c : dir_context σ) (log : emit_log)
    (h : Run next actor ctx c log) : ∀ e ∈ accepted log, e.offset < c.pos := by
  induction h with
  | done ctx _ => simp [accepted]
  | refused ctx e _ _ => simp [accepted]
  | accepted ctx c e log hn _ hr ih =>
    intro x hx
    rw [accepted_cons_true] at hx
    rcases List.mem_cons.1 hx with rfl | hx
    · have := Run_mono next actor hp _ _ _ hr
      simp only at this
      omega
    · exact ih x hx

theorem Run_always {σ : Type} (next : Nat → Option dirent) (always : actor_t σ)
    (hal : ∀ s e, (always s e).2 = true) (ctx c : dir_context σ) (log : emit_log)
    (h : Run next always ctx c log) : ∀ e ∈ log, e.2 = true := by
  induction h with
  | done ctx _ => simp
  | refused ctx e _ ha => rw [hal] at ha; cases ha
  | accepted ctx c e log _ _ _ ih =>
    intro x hx
    rcases List.mem_cons.1 hx with rfl | hx
    · rfl
    · exact ih x hx

theorem accepted_offsets_sorted {σ : Type} (next : Nat → Option dirent) (actor : actor_t σ)
    (hp : progress next) (ctx c : dir_context σ) (log : emit_log)
    (h : Run next actor ctx c log) :
    ((accepted log).map (fun e => e.offset)).Pairwise (· < ·) := by
  have h1 := (Run_order next actor hp ctx c log h).1
  have hsub : ((accepted log).map (fun e => e.offset)).Sublist
      (log.map (fun e => e.1.offset)) := by
    have : (accepted log).map (fun e => e.offset)
        = (log.filter (fun e => e.2)).map (fun e => e.1.offset) := by
      simp [accepted, List.map_map, Function.comp_def]
    rw [this]
    exact (List.filter_sublist _).map _
  exact h1.sublist hsub

theorem calls_resume {σ τ : Type} (next : Nat → Option dirent) (actor : actor_t σ)
    (always : actor_t τ) (hal : ∀ s e, (always s e).2 = true)
    (rd : dir_context σ → Option (dir_context σ × emit_log))
    (rd0 : dir_context τ → Option (dir_context τ × emit_log))
    (hrd : ∀ ctx c log, rd ctx = some (c, log) → Run next actor ctx c log)
    (hrd0 : ∀ ctx c log, rd0 ctx = some (c, log) → Run next always ctx c log)
    (trd : ∀ ctx, ∃ r, rd ctx = some r) (trd0 : ∀ ctx, ∃ r, rd0 ctx = some r) (n : Nat) :
    ∀ (ctx : dir_context σ) (b0 : τ), ∃ c logs cf full b1 c1 rest,
      readdir_calls rd n ctx = some (c, logs) ∧
      rd0 { pos := ctx.pos, buf := b0 } = some (cf, full) ∧
      rd0 { pos := c.pos, buf := b1 } = some (c1, rest) ∧
      accepted logs.flatten ++ accepted rest = accepted full ∧
      (∀ l, logs.getLast? = some l → (∀ e ∈ l, e.2 = true) →
        accepted logs.flatten = accepted full) := by
  induction n with
  | zero =>
    intro ctx b0
    obtain ⟨⟨cf, full⟩, hfull⟩ := trd0 { pos := ctx.pos, buf := b0 }
    exact ⟨ctx, [], cf, full, b0, cf, full, rfl, hfull, hfull, by simp [accepted],
      by simp⟩
  | succ n ih =>
    intro ctx b0
    obtain ⟨⟨c1, log⟩, h1⟩ := trd ctx
    obtain ⟨⟨cf, full⟩, hfull⟩ := trd0 { pos := ctx.pos, buf := b0 }
    obtain ⟨k, kr, rest1, hk, hkr, hacc, hall⟩ :=
      Run_resume next actor always hal ctx c1 log (hrd _ _ _ h1) _ _ _ rfl (hrd0 _ _ _ hfull)
    obtain ⟨c, logs, cf2, full2, b1, c2, rest, hc, hf2, hrest, hsum, hlast⟩ := ih c1 k.buf
    have hkeq : ({ pos := c1.pos, buf := k.buf } : dir_context τ) = k := by
      cases k; simp only at hk; subst hk; rfl
    rw [hkeq] at hf2
    have hdet := (Run_det next always k kr rest1 hkr _ _ (hrd0 _ _ _ hf2)).2
    subst hdet
    refine ⟨c, log :: logs, cf, full, b1, c2, rest, ?_, hfull, hrest, ?_, ?_⟩
    · simp [readdir_calls, h1, hc]
    · simp only [List.flatten_cons, accepted_append, List.append_assoc]
      rw [← accepted_append, accepted_append, hsum, hacc]
    · intro l hl hlt
      simp only [List.flatten_cons, accepted_append]
      cases logs with
      | nil =>
        simp only [List.getLast?_singleton, Option.some.injEq] at hl
        subst hl
        have := hall hlt
        subst this
        simpa [accepted] using hacc
      | cons a t =>
        rw [List.getLast?_cons_cons] at hl
        rw [hlast l hl hlt, hacc]

theorem list_next_child (dir : shmem_inode_info) (f : file) (p : Nat) (e : dirent)
    (h : list_next dir f p = some e) (h2 : DIR_OFFSET_MIN ≤ e.offset) :
    e ∈ dir.subdirs.map dirent_of := by
  unfold list_next with_dots at h
  split_ifs at h with h0 h1
  · injection h with h; subst h; simp [dot_entry, DIR_OFFSET_MIN] at h2
  · injection h with h; subst h; simp [dotdot_entry, DIR_OFFSET_MIN] at h2
  · unfold list_loop_next at h
    cases hf : list_find_next dir p with
    | none => simp [hf] at h
    | some d =>
      simp only [hf, Option.map_some'] at h
      injection h with h; subst h
      exact List.mem_map_of_mem _ (list_find_next_scan_spec _ _ _ hf).1

theorem Run_always_log {σ τ : Type} (next : Nat → Option dirent) (a1 : actor_t σ)
    (a2 : actor_t τ) (h1 : ∀ s e, (a1 s e).2 = true) (h2 : ∀ s e, (a2 s e).2 = true)
    (c1 c1r : dir_context σ) (l1 : emit_log) (hr : Run next a1 c1 c1r l1) :
    ∀ (c2 c2r : dir_context τ) (l2 : emit_log), c2.pos = c1.pos → Run next a2 c2 c2r l2 →
      l1 = l2 ∧ c1r.pos = c2r.pos := by
  induction hr with
  | done ctx hn =>
    intro c2 c2r l2 hpos hr2
    cases hr2 with
    | done _ _ => exact ⟨rfl, hpos.symm⟩
    | refused _ x hx hb => rw [h2] at hb; cases hb
    | accepted _ _ x l hx _ _ => rw [hpos, hn] at hx; cases hx
  | refused ctx e hn ha => rw [h1] at ha; cases ha
  | accepted ctx c e log hn ha _ ih =>
    intro c2 c2r l2 hpos hr2
    cases hr2 with
    | done _ hd => rw [hpos, hn] at hd; cases hd
    | refused _ x hx hb => rw [h2] at hb; cases hb
    | accepted _ _ x l hx _ hr =>
      rw [hpos, hn] at hx; injection hx with hx; subst hx
      obtain ⟨e1, e2⟩ := ih _ _ _ rfl hr
      exact ⟨by rw [e1], e2⟩

theorem pending_pos (l : List dentry) (p : Nat) (d : dentry) (hd : d ∈ l)
    (h : p ≤ d.d_fsdata) : 0 < pending l p := by
  have := pending_lt l p (d.d_fsdata + 1) d hd h (Nat.lt_succ_self _)
  omega

theorem Run_length {σ : Type} (next : Nat → Option dirent) (actor : actor_t σ)
    (l : List dentry)
    (hnext : ∀ p e, next p = some e → ∃ d ∈ l, e.offset = d.d_fsdata ∧ p ≤ d.d_fsdata)
    (ctx c : dir_context σ) (log : emit_log) (h : Run next actor ctx c log) :
    log.length ≤ pending l ctx.pos := by
  induction h with
  | done ctx _ => simp
  | refused ctx e hn _ =>
    obtain ⟨d, hd, -, hp⟩ := hnext _ _ hn
    have := pending_pos l ctx.pos d hd hp
    simpa using this
  | accepted ctx c e log hn _ _ ih =>
    obtain ⟨d, hd, he, hp⟩ := hnext _ _ hn
    have := pending_lt l ctx.pos (d.d_fsdata + 1) d hd hp (Nat.lt_succ_self _)
    simp only [he] at ih
    simp only [List.length_cons]
    omega

theorem list_loop_next_mem (dir : shmem_inode_info) (p : Nat) (e : dirent)
    (h : list_loop_next dir p = some e) :
    ∃ d ∈ dir.subdirs, e = dirent_of d ∧ d.positive = true ∧ p ≤ d.d_fsdata := by
  unfold list_loop_next at h
  cases hf : list_find_next dir p with
  | none => simp [hf] at h
  | some d =>
    simp only [hf, Option.map_some'] at h
    injection h with h
    obtain ⟨h1, h2, h3⟩ := list_find_next_scan_spec _ _ _ hf
    exact ⟨d, h1, h.symm, h3, h2⟩

theorem offset_loop_next_mem (octx : offset_ctx) (last p : Nat) (e : dirent)
    (h : offset_loop_next octx last p = some e) :
    ∃ d ∈ octx.mt, e = dirent_of d ∧ d.positive = true ∧ p ≤ d.d_fsdata ∧
      d.d_fsdata < last ∧ d.d_fsdata ≤ LONG_MAX := by
  unfold offset_loop_next at h
  cases hf : offset_find_next octx p with
  | none => simp [hf] at h
  | some d =>
    simp only [hf] at h
    split_ifs at h with hb
    injection h with h
    obtain ⟨h1, h2, h3, h4, -⟩ := offset_find_next_spec _ _ _ hf
    simp only [dentry2offset, not_le] at hb
    exact ⟨d, h1, h.symm, h4, h2, hb, h3⟩

theorem shmem_mknod_w_ok (w : Nat) (raw dir : shmem_inode_info) (d : dentry) (mode : Nat) :
    shmem_mknod_w w (some raw) dir d mode =
      (0, { dir with
              dir_offsets := { dir.dir_offsets with
                                next_offset := (dir.dir_offsets.next_offset + 1) % 2 ^ w },
              i_size := dir.i_size + BOGO_DIRENT_SIZE,
              subdirs := dir.subdirs ++
                [{ d_name := d.d_name, d_fsdata := dir.dir_offsets.next_offset, positive := true,
                   i_ino := raw.i_ino, i_mode := mode }] }) := by
  obtain ⟨inode, hg, h1, h2, -⟩ := shmem_mknod_some raw dir d mode
  simp only [shmem_mknod_w, hg, tmpfs_add_sub_dentry_w, ne_eq, not_true_eq_false, if_false,
    modify_tail_append]
  simp [d_instantiate, d_set_fsdata, h1, h2]

theorem list_loop_w_eq {σ : Type} (w : Nat) (actor : actor_t σ) (dir : shmem_inode_info)
    (hno : ∀ c ∈ dir.subdirs, c.d_fsdata + 1 < 2 ^ w) (n : Nat) :
    ∀ ctx : dir_context σ, ctx.pos < 2 ^ w →
      list_iterate_dir_loop_w w actor dir n ctx = list_iterate_dir_loop actor dir n ctx := by
  induction n with
  | zero => intro ctx _; rfl
  | succ n ih =>
    intro ctx hpos
    unfold list_iterate_dir_loop_w list_iterate_dir_loop
    rw [Nat.mod_eq_of_lt hpos]
    cases hf : list_find_next dir ctx.pos with
    | none => rfl
    | some d =>
      have hlt := hno d (list_find_next_scan_spec _ _ _ hf).1
      simp only [dentry2offset, Nat.mod_eq_of_lt hlt]
      rw [ih _ hlt]

theorem offset_loop_w_eq {σ : Type} (w : Nat) (hw : 64 ≤ w) (actor : actor_t σ)
    (octx : offset_ctx) (last : Nat) (n : Nat) :
    ∀ ctx : dir_context σ, ctx.pos < 2 ^ w →
      offset_iterate_dir_loop_w w actor octx last n ctx
        = offset_iterate_dir_loop actor octx last n ctx := by
  have h64 : 2 ^ 64 ≤ 2 ^ w := Nat.pow_le_pow_right (by decide) hw
  induction n with
  | zero => intro ctx _; rfl
  | succ n ih =>
    intro ctx hpos
    unfold offset_iterate_dir_loop_w offset_iterate_dir_loop
    rw [Nat.mod_eq_of_lt hpos]
    cases hf : offset_find_next octx ctx.pos with
    | none => rfl
    | some d =>
      have hle := (offset_find_next_spec _ _ _ hf).2.2.1
      have hlt : d.d_fsdata + 1 < 2 ^ w := by
        have : LONG_MAX + 1 < 2 ^ 64 := by decide
        omega
      simp only [dentry2offset, Nat.mod_eq_of_lt hlt]
      rw [ih _ hlt]

theorem list_loop_fuel {σ : Type} (actor : actor_t σ) (dir : shmem_inode_info) (n m : Nat)
    (ctx : dir_context σ) (hn : pending dir.subdirs ctx.pos < n)
    (hm : pending dir.subdirs ctx.pos < m) :
    list_iterate_dir_loop actor dir n ctx = list_iterate_dir_loop actor dir m ctx := by
  obtain ⟨⟨c1, l1⟩, h1⟩ := list_loop_total actor dir n ctx hn
  obtain ⟨⟨c2, l2⟩, h2⟩ := list_loop_total actor dir m ctx hm
  obtain ⟨e1, e2⟩ := Run_det _ actor _ _ _ (list_loop_run actor dir n ctx c1 l1 h1) _ _
    (list_loop_run actor dir m ctx c2 l2 h2)
  rw [h1, h2, e1, e2]

theorem offset_loop_fuel {σ : Type} (actor : actor_t σ) (octx : offset_ctx) (last : Nat)
    (n m : Nat) (ctx : dir_context σ) (hn : pending octx.mt ctx.pos < n)
    (hm : pending octx.mt ctx.pos < m) :
    offset_iterate_dir_loop actor octx last n ctx
      = offset_iterate_dir_loop actor octx last m ctx := by
  obtain ⟨⟨c1, l1⟩, h1⟩ := offset_loop_total actor octx last n ctx hn
  obtain ⟨⟨c2, l2⟩, h2⟩ := offset_loop_total actor octx last m ctx hm
  obtain ⟨e1, e2⟩ := Run_det _ actor _ _ _ (offset_loop_run actor octx last n ctx c1 l1 h1) _ _
    (offset_loop_run actor octx last m ctx c2 l2 h2)
  rw [h1, h2, e1, e2]

theorem dots_pos {σ : Type} (actor : actor_t σ) (f : file) (ctx : dir_context σ) :
    (dir_emit_dots actor f ctx).2.1.pos = ctx.pos ∨ (dir_emit_dots actor f ctx).2.1.pos = 1 ∨
      (dir_emit_dots actor f ctx).2.1.pos = 2 := by
  simp only [dir_emit_dots, call_actor]
  split_ifs <;> simp_all

theorem two_lt_pow (w : Nat) (hw : 2 ≤ w) : 2 < 2 ^ w := by
  have : 2 ^ 2 ≤ 2 ^ w := Nat.pow_le_pow_right (by decide) hw
  omega

theorem dots_pos_lt {σ : Type} (w : Nat) (hw : 2 ≤ w) (actor : actor_t σ) (f : file)
    (ctx : dir_context σ) (hpos : ctx.pos < 2 ^ w) :
    (dir_emit_dots actor f ctx).2.1.pos < 2 ^ w := by
  have := two_lt_pow w hw
  rcases dots_pos actor f ctx with h | h | h <;> omega

theorem list_readdir_w_eq {σ : Type} (w : Nat) (hw : 2 ≤ w) (actor : actor_t σ)
    (dir : shmem_inode_info) (hno : ∀ c ∈ dir.subdirs, c.d_fsdata + 1 < 2 ^ w) (f : file)
    (fuel : Nat) (hfuel : dir.subdirs.length < fuel) (ctx : dir_context σ)
    (hpos : ctx.pos < 2 ^ w) :
    list_readdir_w w actor dir f fuel ctx = list_readdir actor dir f ctx := by
  unfold list_readdir_w list_readdir list_iterate_dir_w list_iterate_dir
  simp only
  rw [list_loop_w_eq w actor dir hno fuel _ (dots_pos_lt w hw actor f ctx hpos),
    list_loop_fuel actor dir fuel (dir.subdirs.length + 1) _
      (lt_of_le_of_lt (pending_le_length _ _) hfuel)
      (Nat.lt_succ_of_le (pending_le_length _ _))]

theorem offset_readdir_w_eq {σ : Type} (w : Nat) (hw : 64 ≤ w) (actor : actor_t σ)
    (dir : shmem_inode_info) (f : file)
    (fuel : Nat) (hfuel : dir.dir_offsets.mt.length < fuel) (ctx : dir_context σ)
    (hpos : ctx.pos < 2 ^ w) :
    offset_readdir_w w actor dir f fuel ctx = offset_readdir actor dir f ctx := by
  unfold offset_readdir_w offset_readdir offset_iterate_dir_w offset_iterate_dir
  simp only
  rw [offset_loop_w_eq w hw actor _ _ fuel _ (dots_pos_lt w (by omega) actor f ctx hpos),
    offset_loop_fuel actor _ _ fuel (dir.dir_offsets.mt.length + 1) _
      (lt_of_le_of_lt (pending_le_length _ _) hfuel)
      (Nat.lt_succ_of_le (pending_le_length _ _))]

theorem Run_pos_lt {σ : Type} (next : Nat → Option dirent) (actor : actor_t σ) (B : Nat)
    (hnext : ∀ p e, next p = some e → e.offset + 1 < B)
    (ctx c : dir_context σ) (log : emit_log) (h : Run next actor ctx c log) :
    ctx.pos < B → c.pos < B := by
  induction h with
  | done _ _ => exact id
  | refused _ _ _ _ => exact id
  | accepted _ _ e _ hn _ _ ih => intro _; exact ih (hnext _ _ hn)

theorem list_next_offset_lt (w : Nat) (hw : 2 ≤ w) (dir : shmem_inode_info)
    (hno : ∀ c ∈ dir.subdirs, c.d_fsdata + 1 < 2 ^ w) (f : file) (p : Nat) (e : dirent)
    (h : list_next dir f p = some e) : e.offset + 1 < 2 ^ w := by
  have h2 := two_lt_pow w hw
  unfold list_next with_dots at h
  split_ifs at h with h0 h1
  · injection h with h; subst h; simp only [dot_entry]; omega
  · injection h with h; subst h; simp only [dotdot_entry]; omega
  · obtain ⟨d, hd, he, -, -⟩ := list_loop_next_mem dir p e h
    rw [he]
    exact hno d hd

theorem offset_next_offset_lt (w : Nat) (hw : 64 ≤ w) (dir : shmem_inode_info) (f : file)
    (p : Nat) (e : dirent) (h : offset_next dir f p = some e) : e.offset + 1 < 2 ^ w := by
  have h2 := two_lt_pow w (by omega)
  have h64 : 2 ^ 64 ≤ 2 ^ w := Nat.pow_le_pow_right (by decide) hw
  unfold offset_next with_dots at h
  split_ifs at h with h0 h1
  · injection h with h; subst h; simp only [dot_entry]; omega
  · injection h with h; subst h; simp only [dotdot_entry]; omega
  · obtain ⟨d, hd, he, -, -, -, hm⟩ := offset_loop_next_mem _ _ p e h
    rw [he]
    have : LONG_MAX + 1 < 2 ^ 64 := by decide
    simp only [dirent_of, dentry2offset]
    omega

theorem readdir_calls_congr {σ : Type} (P : dir_context σ → Prop)
    (rd1 rd2 : dir_context σ → Option (dir_context σ × emit_log))
    (heq : ∀ ctx, P ctx → rd1 ctx = rd2 ctx)
    (hP : ∀ ctx c log, P ctx → rd2 ctx = some (c, log) → P c) (n : Nat) :
    ∀ ctx, P ctx → readdir_calls rd1 n ctx = readdir_calls rd2 n ctx ∧
      ∀ c logs, readdir_calls rd2 n ctx = some (c, logs) → P c := by
  induction n with
  | zero =>
    intro ctx h
    refine ⟨rfl, ?_⟩
    intro c logs hc
    simp only [readdir_calls, Option.some.injEq, Prod.mk.injEq] at hc
    rw [← hc.1]; exact h
  | succ n ih =>
    intro ctx h
    unfold readdir_calls
    rw [heq ctx h]
    cases hr : rd2 ctx with
    | none => exact ⟨rfl, by intro c logs hc; simp at hc⟩
    | some r =>
      obtain ⟨c1, log⟩ := r
      have hc1 := hP ctx c1 log h hr
      obtain ⟨e, hn⟩ := ih c1 hc1
      simp only [e, true_and]
      intro c logs hc
      cases hq : readdir_calls rd2 n c1 with
      | none => simp [hq] at hc
      | some q =>
        obtain ⟨c2, logs2⟩ := q
        simp only [hq, Option.some.injEq, Prod.mk.injEq] at hc
        rw [← hc.1]
        exact hn c2 logs2 hq

theorem list_loop_w_diverges {σ : Type} (w : Nat) (actor : actor_t σ) (dir : shmem_inode_info)
    (hfind : ∀ p, p < 2 ^ w → ∃ d, list_find_next dir p = some d)
    (hal : ∀ s e, (actor s e).2 = true) (n : Nat) :
    ∀ ctx : dir_context σ, list_iterate_dir_loop_w w actor dir n ctx = none := by
  induction n with
  | zero => intro ctx; rfl
  | succ n ih =>
    intro ctx
    obtain ⟨d, hd⟩ := hfind (ctx.pos % 2 ^ w) (Nat.mod_lt _ (Nat.two_pow_pos w))
    unfold list_iterate_dir_loop_w
    simp only [hd, offset_dir_emit, call_actor, hal, Bool.not_true, Bool.false_eq_true, if_false,
      ih]

theorem ex_wrapped_subdirs : ex_wrapped.subdirs =
    [{ d_name := "a", d_fsdata := 2, positive := true, i_ino := 10, i_mode := 0o100644 },
     { d_name := "b", d_fsdata := 3, positive := true, i_ino := 11, i_mode := 0o100644 },
     { d_name := "c", d_fsdata := 4, positive := true, i_ino := 12, i_mode := 0o100644 },
     { d_name := "z", d_fsdata := 18446744073709551615, positive := true, i_ino := 14,
       i_mode := 0o100644 }] := by
  decide

theorem ex_wrapped_find (p : Nat) (hp : p < 2 ^ 64) : ∃ d, list_find_next ex_wrapped p = some d := by
  unfold list_find_next
  rw [ex_wrapped_subdirs]
  simp only [list_find_next_scan, simple_positive, if_true]
  split_ifs
  · exact ⟨_, rfl⟩
  · exact ⟨_, rfl⟩
  · exact ⟨_, rfl⟩
  · exact ⟨_, rfl⟩
  · omega

theorem shmem_mknod_m_none (w : Nat) (dir : mem_dir) (a mode : Nat) :
    shmem_mknod_m w none dir a mode = (-ENOSPC, dir) := rfl

theorem shmem_mknod_m_ok (w : Nat) (raw : shmem_inode_info) (dir : mem_dir) (a mode : Nat) :
    shmem_mknod_m w (some raw) dir a mode =
      (0, { dir with
              i_size := dir.i_size + BOGO_DIRENT_SIZE,
              next_offset := (dir.next_offset + 1) % 2 ^ w,
              subdirs := dir.subdirs ++ [a],
              dentries := Function.update dir.dentries a
                { d_name := (dir.dentries a).d_name, d_fsdata := dir.next_offset,
                  positive := true, i_ino := raw.i_ino, i_mode := mode } }) := by
  obtain ⟨inode, hi, h1, h2, -⟩ := shmem_mknod_some raw (dir_as_read dir) (dir.dentries a) mode
  simp only [shmem_mknod_m, hi, tmpfs_add_sub_dentry_m, ne_eq, not_true_eq_false, if_false,
    Function.update_same, Function.update_idem, d_instantiate, d_set_fsdata, h1, h2]

theorem creations_cons (op : mem_op) (ops : List mem_op) :
    creations (op :: ops) = (if creates op then 1 else 0) + creations ops := by
  unfold creations
  rw [List.filter_cons]
  split_ifs <;> simp [Nat.add_comm]

theorem apply_mem_op_keeps (w : Nat) (dir : mem_dir) (op : mem_op) (h : creates op = false) :
    created_entry w dir op = [] ∧
    (apply_mem_op w dir op).2.next_offset = dir.next_offset ∧
    (apply_mem_op w dir op).2.subdirs = dir.subdirs ∧
    ∀ b, ((apply_mem_op w dir op).2.dentries b).d_name = (dir.dentries b).d_name ∧
      ((apply_mem_op w dir op).2.dentries b).d_fsdata = (dir.dentries b).d_fsdata := by
  have hup : ∀ (a b : Nat) (v : dentry), v.d_name = (dir.dentries a).d_name →
      v.d_fsdata = (dir.dentries a).d_fsdata →
      (Function.update dir.dentries a v b).d_name = (dir.dentries b).d_name ∧
      (Function.update dir.dentries a v b).d_fsdata = (dir.dentries b).d_fsdata := by
    intro a b v h1 h2
    by_cases hb : b = a
    · subst hb; simp [h1, h2]
    · simp [Function.update_noteq hb]
  cases op with
  | mknod ni a mode =>
    cases ni with
    | none => exact ⟨by simp [created_entry, mknod_dentry, apply_mem_op, shmem_mknod_m_none, ENOSPC],
        rfl, rfl, fun _ => ⟨rfl, rfl⟩⟩
    | some raw => simp [creates] at h
  | mkdir ni a mode =>
    cases ni with
    | none => exact ⟨by simp [created_entry, mknod_dentry, apply_mem_op, shmem_mkdir_m,
        shmem_mknod_m_none, ENOSPC], rfl, rfl, fun _ => ⟨rfl, rfl⟩⟩
    | some raw => simp [creates] at h
  | create ni a mode =>
    cases ni with
    | none => exact ⟨by simp [created_entry, mknod_dentry, apply_mem_op, shmem_create_m,
        shmem_mknod_m_none, ENOSPC], rfl, rfl, fun _ => ⟨rfl, rfl⟩⟩
    | some raw => simp [creates] at h
  | symlink ni a =>
    cases ni with
    | none => exact ⟨rfl, rfl, rfl, fun _ => ⟨rfl, rfl⟩⟩
    | some raw =>
      refine ⟨rfl, rfl, rfl, fun b => ?_⟩
      exact hup a b _ rfl rfl
  | removal a =>
    refine ⟨rfl, rfl, rfl, fun b => ?_⟩
    exact hup a b _ rfl rfl

theorem apply_mem_op_creates (w : Nat) (dir : mem_dir) (op : mem_op) (h : creates op = true) :
    ∃ a, mknod_dentry op = some a ∧ (apply_mem_op w dir op).1 = 0 ∧
      created_entry w dir op = [((dir.dentries a).d_name, dir.next_offset)] ∧
      (apply_mem_op w dir op).2.next_offset = (dir.next_offset + 1) % 2 ^ w ∧
      (apply_mem_op w dir op).2.subdirs = dir.subdirs ++ [a] ∧
      ((apply_mem_op w dir op).2.dentries a).d_name = (dir.dentries a).d_name ∧
      ((apply_mem_op w dir op).2.dentries a).d_fsdata = dir.next_offset ∧
      ((apply_mem_op w dir op).2.dentries a).positive = true ∧
      ∀ b, b ≠ a → (apply_mem_op w dir op).2.dentries b = dir.dentries b := by
  cases op with
  | mknod ni a mode =>
    cases ni with
    | none => simp [creates] at h
    | some raw =>
      refine ⟨a, rfl, ?_⟩
      simp only [created_entry, mknod_dentry, apply_mem_op, shmem_mknod_m_ok, if_true,
        Function.update_same, dentry2offset, true_and]
      exact fun b hb => Function.update_noteq hb _ _
  | mkdir ni a mode =>
    cases ni with
    | none => simp [creates] at h
    | some raw =>
      refine ⟨a, rfl, ?_⟩
      simp only [created_entry, mknod_dentry, apply_mem_op, shmem_mkdir_m, shmem_mknod_m_ok,
        ne_eq, not_true_eq_false, if_false, if_true, Function.update_same, dentry2offset,
        true_and]
      exact fun b hb => Function.update_noteq hb _ _
  | create ni a mode =>
    cases ni with
    | none => simp [creates] at h
    | some raw =>
      refine ⟨a, rfl, ?_⟩
      simp only [created_entry, mknod_dentry, apply_mem_op, shmem_create_m, shmem_mknod_m_ok,
        if_true, Function.update_same, dentry2offset, true_and]
      exact fun b hb => Function.update_noteq hb _ _
  | symlink ni a => simp [creates] at h
  | removal a => simp [creates] at h

theorem creation_history_offsets (w : Nat) (ops : List mem_op) : ∀ dir : mem_dir,
    dir.next_offset + creations ops ≤ 2 ^ w →
    assigned_offsets_m w dir ops = List.range' dir.next_offset (creations ops) := by
  induction ops with
  | nil => intro dir _; rfl
  | cons op ops ih =>
    intro dir h
    rw [creations_cons] at h ⊢
    unfold assigned_offsets_m at ih ⊢
    cases hc : creates op with
    | false =>
      obtain ⟨h1, h2, -, -⟩ := apply_mem_op_keeps w dir op hc
      simp only [hc, Bool.false_eq_true, if_false, Nat.zero_add] at h ⊢
      simp only [creation_history, h1, List.nil_append]
      rw [ih _ (by rw [h2]; exact h), h2]
    | true =>
      obtain ⟨a, -, -, h1, h2, -⟩ := apply_mem_op_creates w dir op hc
      simp only [hc, if_true] at h ⊢
      simp only [creation_history, h1, List.singleton_append, List.map_cons]
      have hpos : 0 < 2 ^ w := Nat.two_pow_pos w
      have hlt : (dir.next_offset + 1) % 2 ^ w < 2 ^ w := Nat.mod_lt _ hpos
      rw [Nat.add_comm 1, List.range'_succ]
      rcases Nat.eq_zero_or_pos (creations ops) with h0 | h0
      · rw [ih _ (by rw [h2, h0]; omega), h0]
        rfl
      · have hm : (dir.next_offset + 1) % 2 ^ w = dir.next_offset + 1 :=
          Nat.mod_eq_of_lt (by omega)
        rw [ih _ (by rw [h2, hm]; omega), h2, hm]

theorem sublist_of_sorted_subset_key {α : Type} (key : α → Nat) (l1 : List α) :
    ∀ l2 : List α, (l1.map key).Pairwise (· < ·) → (l2.map key).Pairwise (· < ·) →
      (∀ e ∈ l1, e ∈ l2) → l1.Sublist l2 := by
  intro l2
  induction l2 generalizing l1 with
  | nil =>
    intro _ _ hsub
    cases l1 with
    | nil => exact List.Sublist.refl _
    | cons a s => exact absurd (hsub a (List.mem_cons_self _ _)) (List.not_mem_nil _)
  | cons b t ih =>
    intro h1 h2 hsub
    simp only [List.map_cons, List.pairwise_cons] at h2
    cases l1 with
    | nil => exact List.nil_sublist _
    | cons a s =>
      simp only [List.map_cons, List.pairwise_cons] at h1
      have hgt : ∀ x ∈ s, key a < key x := fun x hx => h1.1 _ (List.mem_map_of_mem key hx)
      have hbt : ∀ x ∈ t, key b < key x := fun x hx => h2.1 _ (List.mem_map_of_mem key hx)
      by_cases hab : a = b
      · subst hab
        refine List.Sublist.cons₂ _ (ih s h1.2 h2.2 ?_)
        intro x hx
        rcases List.mem_cons.1 (hsub x (List.mem_cons_of_mem _ hx)) with rfl | hxt
        · exact absurd (hgt _ hx) (lt_irrefl _)
        · exact hxt
      · have hat : a ∈ t := by
          rcases List.mem_cons.1 (hsub a (List.mem_cons_self _ _)) with h | h
          · exact absurd h hab
          · exact h
        refine List.Sublist.cons _ (ih (a :: s) ?_ h2.2 ?_)
        · simp only [List.map_cons, List.pairwise_cons]; exact h1
        · intro x hx
          rcases List.mem_cons.1 (hsub x hx) with rfl | hxt
          · rcases List.mem_cons.1 hx with rfl | hxs
            · exact hat
            · have := hgt _ hxs
              have := hbt _ hat
              omega
          · exact hxt

theorem accepted_subset_log (log : emit_log) (e : dirent) (he : e ∈ accepted log) :
    e ∈ log.map (fun x => x.1) := by
  simp only [accepted, List.mem_map, List.mem_filter] at he
  obtain ⟨x, ⟨hx, -⟩, rfl⟩ := he
  exact List.mem_map_of_mem _ hx

theorem mem_session_ok {σ : Type} (w : Nat) (actor : actor_t σ) (f : file) (fuel : Nat)
    (steps : List mem_step) :
    ∀ (dir : mem_dir) (ctx : dir_context σ) (h0 : List (String × Nat)),
      DIR_OFFSET_MIN ≤ dir.next_offset →
      dir.next_offset + creations (steps_ops steps) < 2 ^ w →
      dir.subdirs.length + creations (steps_ops steps) < fuel →
      (∀ a ∈ dir.subdirs, ((dir.dentries a).d_name, (dir.dentries a).d_fsdata) ∈ h0) →
      (∀ x ∈ h0, x.2 < dir.next_offset) →
      ctx.pos < 2 ^ w →
      ∃ dir2 c calls, mem_session w actor f fuel dir ctx steps = some (dir2, c, calls) ∧
        ((session_accepted calls).map (fun e => e.offset)).Pairwise (· < ·) ∧
        (∀ e ∈ session_accepted calls, ctx.pos ≤ e.offset) ∧
        (∀ call ∈ calls, ∀ e ∈ call.2, call.1 ≤ e.1.offset) ∧
        (∀ e ∈ session_accepted calls, DIR_OFFSET_MIN ≤ e.offset →
          (e.name, e.offset) ∈ h0 ++ creation_history w dir (steps_ops steps)) := by
  induction steps with
  | nil =>
    intro dir ctx h0 _ _ _ _ _ _
    exact ⟨dir, ctx, [], rfl, by simp [session_accepted, accepted],
      by simp [session_accepted, accepted], by simp, by simp [session_accepted, accepted]⟩
  | cons s rest ih =>
    intro dir ctx h0 hmin hw hfuel hmem hlt hpos
    cases s with
    | readdir =>
      simp only [steps_ops] at hw hfuel ⊢
      have h2 : 2 ≤ w := by
        by_contra hcon
        have : w = 0 ∨ w = 1 := by omega
        rcases this with rfl | rfl <;> simp [DIR_OFFSET_MIN] at hmin hw <;> omega
      have hno : ∀ c ∈ (dir_as_read dir).subdirs, c.d_fsdata + 1 < 2 ^ w := by
        intro c hc
        simp only [dir_as_read, List.mem_map] at hc
        obtain ⟨a, ha, rfl⟩ := hc
        have := hlt _ (hmem a ha)
        simp only at this
        omega
      have hlen : (dir_as_read dir).subdirs.length < fuel := by
        simp only [dir_as_read, List.length_map]; omega
      have heq := list_readdir_w_eq w h2 actor (dir_as_read dir) hno f fuel hlen ctx hpos
      obtain ⟨⟨c1, log⟩, h1⟩ := list_readdir_total actor (dir_as_read dir) f ctx
      have hp := progress_with_dots f _ (progress_list_loop_next (dir_as_read dir))
      have hrun := list_readdir_run actor (dir_as_read dir) f ctx c1 log h1
      have hc1 : c1.pos < 2 ^ w := Run_pos_lt _ actor (2 ^ w)
        (list_next_offset_lt w h2 (dir_as_read dir) hno f) _ _ _ hrun hpos
      obtain ⟨dir2, c, calls, hs, hsort, hge, hcall, hin⟩ :=
        ih dir c1 h0 hmin hw hfuel hmem hlt hc1
      have hmono := Run_mono _ actor hp _ _ _ hrun
      have hlt2 := Run_accepted_lt _ actor hp _ _ _ hrun
      have hord := Run_order _ actor hp _ _ _ hrun
      have hacc : session_accepted ((ctx.pos, log) :: calls)
          = accepted log ++ session_accepted calls := by
        simp [session_accepted, accepted_append]
      refine ⟨dir2, c, (ctx.pos, log) :: calls, by simp [mem_session, heq, h1, hs],
        ?_, ?_, ?_, ?_⟩
      · rw [hacc, List.map_append, List.pairwise_append]
        refine ⟨accepted_offsets_sorted _ actor hp _ _ _ hrun, hsort, ?_⟩
        intro a ha b hb
        obtain ⟨x, hx, rfl⟩ := List.mem_map.1 ha
        obtain ⟨y, hy, rfl⟩ := List.mem_map.1 hb
        have := hlt2 x hx
        have := hge y hy
        omega
      · intro e he
        rw [hacc, List.mem_append] at he
        rcases he with he | he
        · obtain ⟨x, hx, rfl⟩ := List.mem_map.1 (accepted_subset_log log e he)
          exact hord.2 x hx
        · have := hge e he; omega
      · intro call hc e he
        rcases List.mem_cons.1 hc with rfl | hc
        · exact hord.2 e he
        · exact hcall call hc e he
      · intro e he hmin2
        rw [hacc, List.mem_append] at he
        rcases he with he | he
        · obtain ⟨x, hx, rfl⟩ := List.mem_map.1 (accepted_subset_log log e he)
          obtain ⟨p, -, hn⟩ := Run_offered _ actor hp _ _ _ hrun x hx
          have hch := list_next_child (dir_as_read dir) f p x.1 hn hmin2
          simp only [dir_as_read, List.map_map, List.mem_map, Function.comp] at hch
          obtain ⟨a, ha, hxa⟩ := hch
          rw [← hxa]
          exact List.mem_append_left _ (hmem a ha)
        · exact hin e he hmin2
    | op o =>
      simp only [steps_ops] at hw hfuel ⊢
      rw [creations_cons] at hw hfuel
      cases hc : creates o with
      | false =>
        obtain ⟨k1, k2, k3, k4⟩ := apply_mem_op_keeps w dir o hc
        simp only [hc, Bool.false_eq_true, if_false, Nat.zero_add] at hw hfuel
        obtain ⟨dir2, c, calls, hs, hsort, hge, hcall, hin⟩ :=
          ih (apply_mem_op w dir o).2 ctx h0 (by rw [k2]; exact hmin) (by rw [k2]; exact hw)
            (by rw [k3]; exact hfuel)
            (by intro a ha; rw [k3] at ha; rw [(k4 a).1, (k4 a).2]; exact hmem a ha)
            (by rw [k2]; exact hlt) hpos
        refine ⟨dir2, c, calls, by simp [mem_session, hs], hsort, hge, hcall, ?_⟩
        simp only [creation_history, k1, List.nil_append]
        exact hin
      | true =>
        obtain ⟨a, -, -, k1, k2, k3, k4, k5, -, k6⟩ := apply_mem_op_creates w dir o hc
        simp only [hc, if_true] at hw hfuel
        have hm : (dir.next_offset + 1) % 2 ^ w = dir.next_offset + 1 :=
          Nat.mod_eq_of_lt (by omega)
        rw [hm] at k2
        obtain ⟨dir2, c, calls, hs, hsort, hge, hcall, hin⟩ :=
          ih (apply_mem_op w dir o).2 ctx (h0 ++ [((dir.dentries a).d_name, dir.next_offset)])
            (by rw [k2]; omega) (by rw [k2]; omega)
            (by rw [k3, List.length_append]; simp only [List.length_singleton]; omega)
            (by
              intro b hb
              rw [k3, List.mem_append, List.mem_singleton] at hb
              by_cases hba : b = a
              · subst hba
                rw [k4, k5]
                exact List.mem_append_right _ (List.mem_singleton_self _)
              · rcases hb with hb | hb
                · rw [k6 b hba]
                  exact List.mem_append_left _ (hmem b hb)
                · exact absurd hb hba)
            (by
              intro x hx
              rw [List.mem_append, List.mem_singleton] at hx
              rw [k2]
              rcases hx with hx | hx
              · have := hlt x hx; omega
              · rw [hx]; exact Nat.lt_succ_self _)
            hpos
        refine ⟨dir2, c, calls, by simp [mem_session, hs], hsort, hge, hcall, ?_⟩
        simp only [creation_history, k1]
        intro e he hmin2
        have := hin e he hmin2
        rwa [List.append_assoc] at this

theorem map_update_of_not_mem (f : Nat → dentry) (a : Nat) (v : dentry) (l : List Nat)
    (h : a ∉ l) : l.map (Function.update f a v) = l.map f := by
  apply List.map_congr_left
  intro b hb
  have hne : b ≠ a := fun e => h (by rw [← e]; exact hb)
  exact Function.update_noteq hne _ _

theorem tmpfs_add_sub_dentry_m_as_read (w : Nat) (inode : shmem_inode_info) (dir : mem_dir)
    (a : Nat) (hs : a ∉ dir.subdirs) (hm : a ∉ dir.mt) (hn : dir.next_offset + 1 < 2 ^ w) :
    (tmpfs_add_sub_dentry_m w dir inode a).1
      = (tmpfs_add_sub_dentry (dir_as_read dir) inode (dir.dentries a)).1 ∧
    dir_as_read (tmpfs_add_sub_dentry_m w dir inode a).2
      = (tmpfs_add_sub_dentry (dir_as_read dir) inode (dir.dentries a)).2.1 := by
  simp [tmpfs_add_sub_dentry_m, tmpfs_add_sub_dentry, dir_as_read, map_update_of_not_mem, hs, hm,
    Nat.mod_eq_of_lt hn]

theorem shmem_mknod_m_as_read (w : Nat) (raw : shmem_inode_info) (dir : mem_dir) (a mode : Nat)
    (hs : a ∉ dir.subdirs) (hm : a ∉ dir.mt) (hn : dir.next_offset + 1 < 2 ^ w) :
    (shmem_mknod_m w (some raw) dir a mode).1
      = (shmem_mknod (some raw) (dir_as_read dir) (dir.dentries a) mode).1 ∧
    dir_as_read (shmem_mknod_m w (some raw) dir a mode).2
      = (shmem_mknod (some raw) (dir_as_read dir) (dir.dentries a) mode).2 := by
  rw [shmem_mknod_m_ok, shmem_mknod_ok]
  simp [dir_as_read, map_update_of_not_mem, hs, hm, Nat.mod_eq_of_lt hn]

theorem ex_wrapped_never_returns (fuel : Nat) (ctx : dir_context (List dirent)) :
    list_iterate_dir_loop_w 64 accept_all ex_wrapped fuel ctx = none :=
  list_loop_w_diverges 64 accept_all ex_wrapped ex_wrapped_find (fun _ _ => rfl) fuel ctx

theorem list_loop_w_run {σ : Type} (w : Nat) (actor : actor_t σ) (dir : shmem_inode_info)
    (n : Nat) : ∀ (ctx ctx1 : dir_context σ) (log : emit_log),
      list_iterate_dir_loop_w w actor dir n ctx = some (ctx1, log) →
      Run_w w (list_loop_next dir) actor ctx ctx1 log := by
  induction n with
  | zero => intro ctx ctx1 log h; simp [list_iterate_dir_loop_w] at h
  | succ n ih =>
    intro ctx ctx1 log h
    unfold list_iterate_dir_loop_w at h
    cases hf : list_find_next dir (ctx.pos % 2 ^ w) with
    | none =>
      simp only [hf] at h
      injection h with h; injection h with h1 h2
      subst h1; subst h2
      exact Run_w.done ctx (by simp [list_loop_next, hf])
    | some d =>
      simp only [hf, offset_dir_emit, call_actor] at h
      cases ha : (actor ctx.buf (dirent_of d)).2 with
      | false =>
        simp only [ha, Bool.not_false, if_true] at h
        injection h with h; injection h with h1 h2
        subst h1; subst h2
        exact Run_w.refused ctx (dirent_of d) (by simp [list_loop_next, hf]) ha
      | true =>
        simp only [ha, Bool.not_true, Bool.false_eq_true, if_false] at h
        cases hr : list_iterate_dir_loop_w w actor dir n
            { pos := (dentry2offset d + 1) % 2 ^ w, buf := (actor ctx.buf (dirent_of d)).1 } with
        | none => simp [hr] at h
        | some r =>
          obtain ⟨c, l⟩ := r
          simp only [hr] at h
          injection h with h; injection h with h1 h2
          subst h1; subst h2
          exact Run_w.accepted ctx c (dirent_of d) l (by simp [list_loop_next, hf]) ha
            (ih _ _ _ hr)

theorem offset_loop_w_run {σ : Type} (w : Nat) (actor : actor_t σ) (octx : offset_ctx)
    (last : Nat) (n : Nat) : ∀ (ctx ctx1 : dir_context σ) (log : emit_log),
      offset_iterate_dir_loop_w w actor octx last n ctx = some (ctx1, log) →
      Run_w w (offset_loop_next octx last) actor ctx ctx1 log := by
  induction n with
  | zero => intro ctx ctx1 log h; simp [offset_iterate_dir_loop_w] at h
  | succ n ih =>
    intro ctx ctx1 log h
    unfold offset_iterate_dir_loop_w at h
    cases hf : offset_find_next octx (ctx.pos % 2 ^ w) with
    | none =>
      simp only [hf] at h
      injection h with h; injection h with h1 h2
      subst h1; subst h2
      exact Run_w.done ctx (by simp [offset_loop_next, hf])
    | some d =>
      simp only [hf, offset_dir_emit, call_actor] at h
      by_cases hb : last ≤ dentry2offset d
      · simp only [hb, if_true] at h
        injection h with h; injection h with h1 h2
        subst h1; subst h2
        exact Run_w.done ctx (by simp [offset_loop_next, hf, hb])
      · simp only [hb, if_false] at h
        have hnx : offset_loop_next octx last (ctx.pos % 2 ^ w) = some (dirent_of d) := by
          simp [offset_loop_next, hf, hb]
        cases ha : (actor ctx.buf (dirent_of d)).2 with
        | false =>
          simp only [ha, Bool.not_false, if_true] at h
          injection h with h; injection h with h1 h2
          subst h1; subst h2
          exact Run_w.refused ctx (dirent_of d) hnx ha
        | true =>
          simp only [ha, Bool.not_true, Bool.false_eq_true, if_false] at h
          cases hr : offset_iterate_dir_loop_w w actor octx last n
              { pos := (dentry2offset d + 1) % 2 ^ w,
                buf := (actor ctx.buf (dirent_of d)).1 } with
          | none => simp [hr] at h
          | some r =>
            obtain ⟨c, l⟩ := r
            simp only [hr] at h
            injection h with h; injection h with h1 h2
            subst h1; subst h2
            exact Run_w.accepted ctx c (dirent_of d) l hnx ha (ih _ _ _ hr)

theorem cursor_after_w_cons (w p : Nat) (e : dirent) (l : List dirent) :
    cursor_after_w w p (e :: l) = cursor_after_w w ((e.offset + 1) % 2 ^ w) l := by
  cases l with
  | nil => simp [cursor_after_w]
  | cons a t =>
    have h : (e :: a :: t).getLast? = (a :: t).getLast? := List.getLast?_cons_cons
    have h2 : (a :: t).getLast? = some ((a :: t).getLast (List.cons_ne_nil _ _)) :=
      List.getLast?_eq_getLast _ _
    simp only [cursor_after_w, h]
    rw [h2]

theorem Run_w_cursor {σ : Type} (w : Nat) (next : Nat → Option dirent) (actor : actor_t σ)
    (ctx c : dir_context σ) (log : emit_log) (h : Run_w w next actor ctx c log) :
    c.pos = cursor_after_w w ctx.pos (accepted log) := by
  induction h with
  | done ctx _ => simp [accepted, cursor_after_w]
  | refused ctx e _ _ => simp [accepted, cursor_after_w]
  | accepted ctx c e log _ _ _ ih => rw [accepted_cons_true, cursor_after_w_cons]; exact ih

theorem Run_w_shape {σ : Type} (w : Nat) (next : Nat → Option dirent) (actor : actor_t σ)
    (ctx c : dir_context σ) (log : emit_log) (h : Run_w w next actor ctx c log) :
    log = (accepted log).map (fun e => (e, true)) ∨
      ∃ e, log = (accepted log).map (fun e => (e, true)) ++ [(e, false)] := by
  induction h with
  | done ctx _ => left; simp [accepted]
  | refused ctx e _ _ => right; exact ⟨e, by simp [accepted]⟩
  | accepted ctx c e log _ _ _ ih =>
    rw [accepted_cons_true]
    rcases ih with ih | ⟨x, ih⟩
    · left; simp only [List.map_cons]; rw [← ih]
    · right; refine ⟨x, ?_⟩; simp only [List.map_cons, List.cons_append]; rw [← ih]

theorem Run_w_reoffer {σ : Type} (w : Nat) (next : Nat → Option dirent) (actor : actor_t σ)
    (ctx c : dir_context σ) (log : emit_log) (h : Run_w w next actor ctx c log) :
    ∀ pre e, log = pre ++ [(e, false)] → next (c.pos % 2 ^ w) = some e := by
  induction h with
  | done ctx _ => intro pre e h; simp at h
  | refused ctx e hn _ =>
    intro pre x h
    cases pre with
    | nil => simp at h; rw [← h]; exact hn
    | cons a t => simp at h
  | accepted ctx c e log hn _ _ ih =>
    intro pre x h
    cases pre with
    | nil => simp at h
    | cons a t =>
      simp only [List.cons_append, List.cons.injEq] at h
      exact ih t x h.2

theorem Run_w_first {σ : Type} (w : Nat) (next : Nat → Option dirent) (actor : actor_t σ)
    (ctx c : dir_context σ) (log : emit_log) (h : Run_w w next actor ctx c log) (e : dirent)
    (hn : next (ctx.pos % 2 ^ w) = some e) : ∃ rest, log = (e, (actor ctx.buf e).2) :: rest := by
  cases h with
  | done _ hd => rw [hn] at hd; cases hd
  | refused _ x hx ha =>
    rw [hn] at hx; injection hx with hx; subst hx
    exact ⟨[], by rw [ha]⟩
  | accepted _ _ x log hx ha hr =>
    rw [hn] at hx; injection hx with hx; subst hx
    exact ⟨log, by rw [ha]⟩

theorem Run_w_accepted_last {σ : Type} (w : Nat) (next : Nat → Option dirent)
    (actor : actor_t σ) (ctx c : dir_context σ) (log : emit_log)
    (h : Run_w w next actor ctx c log) (pre : emit_log) (e : dirent)
    (hlog : log = pre ++ [(e, false)]) : pre = (accepted log).map (fun x => (x, true)) := by
  rcases Run_w_shape w next actor ctx c log h with hs | ⟨x, hs⟩
  · have hmem : (e, false) ∈ log := by rw [hlog]; simp
    rw [hs] at hmem
    simp at hmem
  · rw [hlog] at hs
    exact (List.append_inj' hs rfl).1.trans (by rw [← hlog])

/-- Pause and resume for the functions over the natural numbers: what successive calls accepted,
followed by what a never-refusing run from the stored cursor yields, is what a single
never-refusing run yields, and no entry is accepted twice. -/
theorem pause_resume_nat {σ τ : Type} (actor : actor_t σ) (always : actor_t τ)
    (hal : ∀ s e, (always s e).2 = true) (dir : shmem_inode_info) (f : file) (n : Nat)
    (ctx : dir_context σ) (b0 : τ) :
    (∃ c logs cf full,
      readdir_calls (list_readdir actor dir f) n ctx = some (c, logs) ∧
      list_readdir always dir f { pos := ctx.pos, buf := b0 } = some (cf, full) ∧
      (∀ e ∈ full, e.2 = true) ∧
      (∀ b1 : τ, ∃ c1 rest,
        list_readdir always dir f { pos := c.pos, buf := b1 } = some (c1, rest) ∧
        accepted logs.flatten ++ accepted rest = accepted full) ∧
      (∀ l, logs.getLast? = some l → (∀ e ∈ l, e.2 = true) →
        accepted logs.flatten = accepted full) ∧
      (accepted logs.flatten).Nodup) ∧
    (∃ c logs cf full,
      readdir_calls (offset_readdir actor dir f) n ctx = some (c, logs) ∧
      offset_readdir always dir f { pos := ctx.pos, buf := b0 } = some (cf, full) ∧
      (∀ e ∈ full, e.2 = true) ∧
      (∀ b1 : τ, ∃ c1 rest,
        offset_readdir always dir f { pos := c.pos, buf := b1 } = some (c1, rest) ∧
        accepted logs.flatten ++ accepted rest = accepted full) ∧
      (∀ l, logs.getLast? = some l → (∀ e ∈ l, e.2 = true) →
        accepted logs.flatten = accepted full) ∧
      (accepted logs.flatten).Nodup) := by
  have key : ∀ (next : Nat → Option dirent) (_ : progress next)
      (rd : dir_context σ → Option (dir_context σ × emit_log))
      (rd0 : dir_context τ → Option (dir_context τ × emit_log))
      (_ : ∀ ctx c log, rd ctx = some (c, log) → Run next actor ctx c log)
      (_ : ∀ ctx c log, rd0 ctx = some (c, log) → Run next always ctx c log)
      (_ : ∀ ctx, ∃ r, rd ctx = some r) (_ : ∀ ctx, ∃ r, rd0 ctx = some r),
      ∃ c logs cf full,
        readdir_calls rd n ctx = some (c, logs) ∧
        rd0 { pos := ctx.pos, buf := b0 } = some (cf, full) ∧
        (∀ e ∈ full, e.2 = true) ∧
        (∀ b1 : τ, ∃ c1 rest, rd0 { pos := c.pos, buf := b1 } = some (c1, rest) ∧
          accepted logs.flatten ++ accepted rest = accepted full) ∧
        (∀ l, logs.getLast? = some l → (∀ e ∈ l, e.2 = true) →
          accepted logs.flatten = accepted full) ∧
        (accepted logs.flatten).Nodup := by
    intro next hp rd rd0 hrd hrd0 trd trd0
    obtain ⟨c, logs, cf, full, b1, c1, rest, h1, h2, h3, h4, h5⟩ :=
      calls_resume next actor always hal rd rd0 hrd hrd0 trd trd0 n ctx b0
    refine ⟨c, logs, cf, full, h1, h2, Run_always next always hal _ _ _ (hrd0 _ _ _ h2),
      ?_, h5, ?_⟩
    · intro b2
      obtain ⟨⟨c2, rest2⟩, hr2⟩ := trd0 { pos := c.pos, buf := b2 }
      have := (Run_always_log next always always hal hal _ _ _ (hrd0 _ _ _ h3)
        { pos := c.pos, buf := b2 } c2 rest2 rfl (hrd0 _ _ _ hr2)).1
      exact ⟨c2, rest2, hr2, by rw [← this]; exact h4⟩
    · have hs := accepted_offsets_sorted next always hp _ _ _ (hrd0 _ _ _ h2)
      rw [← h4, List.map_append] at hs
      have hs1 := (List.pairwise_append.1 hs).1
      have hnd : ((accepted logs.flatten).map (fun e => e.offset)).Nodup :=
        hs1.imp (fun h => Nat.ne_of_lt h)
      exact List.Nodup.of_map _ hnd
  exact ⟨key (list_next dir f) (progress_with_dots f _ (progress_list_loop_next dir))
      _ _ (list_readdir_run actor dir f) (list_readdir_run always dir f)
      (list_readdir_total actor dir f) (list_readdir_total always dir f),
    key (offset_next dir f) (progress_with_dots f _ (progress_offset_loop_next _ _))
      _ _ (offset_readdir_run actor dir f) (offset_readdir_run always dir f)
      (offset_readdir_total actor dir f) (offset_readdir_total always dir f)⟩

/-- The cursor after a call of the functions over the natural numbers: one past the last entry
accepted, or unchanged; an entry refused is the first one offered by the next call. -/
theorem refusal_keeps_cursor_nat {σ : Type} (actor : actor_t σ) (dir : shmem_inode_info) (f : file)
    (ctx : dir_context σ) :
    (∃ c log, list_readdir actor dir f ctx = some (c, log) ∧
      (accepted log = [] → c.pos = ctx.pos) ∧
      (∀ e, (accepted log).getLast? = some e → c.pos = e.offset + 1) ∧
      (∀ pre e, log = pre ++ [(e, false)] →
        pre = (accepted log).map (fun x => (x, true)) ∧ c.pos ≤ e.offset ∧
        ∀ (τ : Type) (actor2 : actor_t τ) (buf2 : τ), ∃ c2 rest,
          list_readdir actor2 dir f { pos := c.pos, buf := buf2 }
            = some (c2, (e, (actor2 buf2 e).2) :: rest))) ∧
    (∃ c log, offset_readdir actor dir f ctx = some (c, log) ∧
      (accepted log = [] → c.pos = ctx.pos) ∧
      (∀ e, (accepted log).getLast? = some e → c.pos = e.offset + 1) ∧
      (∀ pre e, log = pre ++ [(e, false)] →
        pre = (accepted log).map (fun x => (x, true)) ∧ c.pos ≤ e.offset ∧
        ∀ (τ : Type) (actor2 : actor_t τ) (buf2 : τ), ∃ c2 rest,
          offset_readdir actor2 dir f { pos := c.pos, buf := buf2 }
            = some (c2, (e, (actor2 buf2 e).2) :: rest))) := by
  have key : ∀ (next : Nat → Option dirent) (_ : progress next)
      (rd : ∀ (ρ : Type), actor_t ρ → dir_context ρ → Option (dir_context ρ × emit_log))
      (_ : ∀ ρ (a : actor_t ρ) c0 c log, rd ρ a c0 = some (c, log) → Run next a c0 c log)
      (_ : ∀ ρ (a : actor_t ρ) c0, ∃ r, rd ρ a c0 = some r),
      ∃ c log, rd σ actor ctx = some (c, log) ∧
        (accepted log = [] → c.pos = ctx.pos) ∧
        (∀ e, (accepted log).getLast? = some e → c.pos = e.offset + 1) ∧
        (∀ pre e, log = pre ++ [(e, false)] →
          pre = (accepted log).map (fun x => (x, true)) ∧ c.pos ≤ e.offset ∧
          ∀ (τ : Type) (actor2 : actor_t τ) (buf2 : τ), ∃ c2 rest,
            rd τ actor2 { pos := c.pos, buf := buf2 }
              = some (c2, (e, (actor2 buf2 e).2) :: rest)) := by
    intro next hp rd hrun htot
    obtain ⟨⟨c, log⟩, h⟩ := htot σ actor ctx
    have hr := hrun _ _ _ _ _ h
    have hc := Run_cursor next actor ctx c log hr
    refine ⟨c, log, h, ?_, ?_, ?_⟩
    · intro h0; rw [hc, h0]; rfl
    · intro e he; rw [hc]; simp [cursor_after, he]
    · intro pre e hlog
      have hn := Run_reoffer next actor ctx c log hr pre e hlog
      refine ⟨?_, hp _ _ hn, ?_⟩
      · rcases Run_shape next actor ctx c log hr with hs | ⟨x, hs⟩
        · have hmem : (e, false) ∈ log := by rw [hlog]; simp
          rw [hs] at hmem
          simp at hmem
        · rw [hlog] at hs
          exact (List.append_inj' hs rfl).1.trans (by rw [← hlog])
      · intro τ actor2 buf2
        obtain ⟨⟨c2, log2⟩, h2⟩ := htot τ actor2 { pos := c.pos, buf := buf2 }
        obtain ⟨rest, hrest⟩ := Run_first next actor2 _ _ _ (hrun _ _ _ _ _ h2) e hn
        exact ⟨c2, rest, by rw [h2, hrest]⟩
  exact ⟨key (list_next dir f) (progress_with_dots f _ (progress_list_loop_next dir))
      (fun ρ a c0 => list_readdir a dir f c0)
      (fun ρ a c0 c log h => list_readdir_run a dir f c0 c log h)
      (fun ρ a c0 => list_readdir_total a dir f c0),
    key (offset_next dir f) (progress_with_dots f _ (progress_offset_loop_next _ _))
      (fun ρ a c0 => offset_readdir a dir f c0)
      (fun ρ a c0 c log h => offset_readdir_run a dir f c0 c log h)
      (fun ρ a c0 => offset_readdir_total a dir f c0)⟩

/-- The loops over the natural numbers return with every budget above the number of entries at or
after the cursor, offer at most that many entries and never move the cursor back. -/
theorem enumeration_terminates_nat {σ : Type} (actor : actor_t σ) (dir : shmem_inode_info)
    (ctx : dir_context σ) (last_index : Nat) :
    (∃ c log, list_iterate_dir actor dir ctx last_index = some (c, log) ∧
      (∀ n, pending dir.subdirs ctx.pos < n →
        list_iterate_dir_loop actor dir n ctx = some (c, log)) ∧
      log.length ≤ pending dir.subdirs ctx.pos ∧ ctx.pos ≤ c.pos ∧
      (∀ e ∈ accepted log, ctx.pos ≤ e.offset ∧ e.offset < c.pos)) ∧
    (∃ c log, offset_iterate_dir actor dir ctx last_index = some (c, log) ∧
      (∀ n, pending dir.dir_offsets.mt ctx.pos < n →
        offset_iterate_dir_loop actor dir.dir_offsets last_index n ctx = some (c, log)) ∧
      log.length ≤ pending dir.dir_offsets.mt ctx.pos ∧ ctx.pos ≤ c.pos ∧
      (∀ e ∈ accepted log, ctx.pos ≤ e.offset ∧ e.offset < c.pos)) := by
  have hacc : ∀ (log : emit_log) (e : dirent), e ∈ accepted log → (e, true) ∈ log := by
    intro log e he
    simp only [accepted, List.mem_map, List.mem_filter] at he
    obtain ⟨x, ⟨hx, hx2⟩, rfl⟩ := he
    have : x = (x.1, true) := by rw [← hx2]
    rw [← this]; exact hx
  constructor
  · obtain ⟨⟨c, log⟩, h⟩ := list_iterate_dir_total actor dir ctx last_index
    have hp := progress_list_loop_next dir
    have hr := list_loop_run actor dir _ ctx c log h
    refine ⟨c, log, h, ?_, ?_, Run_mono _ actor hp _ _ _ hr, ?_⟩
    · intro n hn
      obtain ⟨⟨c2, log2⟩, h2⟩ := list_loop_total actor dir n ctx hn
      obtain ⟨e1, e2⟩ := Run_det _ actor _ _ _ hr _ _ (list_loop_run actor dir n ctx c2 log2 h2)
      rw [h2, e1, e2]
    · apply Run_length _ actor dir.subdirs _ _ _ _ hr
      intro p e hn
      obtain ⟨d, hd, he, -, hpd⟩ := list_loop_next_mem dir p e hn
      exact ⟨d, hd, by rw [he]; rfl, hpd⟩
    · intro e he
      exact ⟨(Run_order _ actor hp _ _ _ hr).2 _ (hacc log e he),
        Run_accepted_lt _ actor hp _ _ _ hr e he⟩
  · obtain ⟨⟨c, log⟩, h⟩ := offset_iterate_dir_total actor dir ctx last_index
    have hp := progress_offset_loop_next dir.dir_offsets last_index
    have hr := offset_loop_run actor dir.dir_offsets last_index _ ctx c log h
    refine ⟨c, log, h, ?_, ?_, Run_mono _ actor hp _ _ _ hr, ?_⟩
    · intro n hn
      obtain ⟨⟨c2, log2⟩, h2⟩ := offset_loop_total actor dir.dir_offsets last_index n ctx hn
      obtain ⟨e1, e2⟩ := Run_det _ actor _ _ _ hr _ _
        (offset_loop_run actor dir.dir_offsets last_index n ctx c2 log2 h2)
      rw [h2, e1, e2]
    · apply Run_length _ actor dir.dir_offsets.mt _ _ _ _ hr
      intro p e hn
      obtain ⟨d, hd, he, -, hpd, -⟩ := offset_loop_next_mem _ _ p e hn
      exact ⟨d, hd, by rw [he]; rfl, hpd⟩
    · intro e he
      exact ⟨(Run_order _ actor hp _ _ _ hr).2 _ (hacc log e he),
        Run_accepted_lt _ actor hp _ _ _ hr e he⟩

/-! ## The claims -/

/-- C1 (counterexample): the sample directory in memory holds `a` (2), `b` (3), `c` (4) and its
counter stands at the greatest value of a word of 64 bits. Four more creations succeed and are
given the offsets 18446744073709551615, 0, 1 and 2: they do not increase, and the offset 2 is
given a second time in that directory, which then holds two live children with it. -/
theorem offsets_repeat_after_wrap :
    (dir_as_read ex_mem_exhausted).subdirs.map (fun d => (d.d_name, d.d_fsdata))
      = [("a", 2), ("b", 3), ("c", 4)] ∧
    ex_mem_exhausted.next_offset = 2 ^ 64 - 1 ∧
    creation_history 64 ex_mem_exhausted
        [ex_mem_create 13 103, ex_mem_create 14 104, ex_mem_create 15 105, ex_mem_create 16 106]
      = [("d", 18446744073709551615), ("e", 0), ("f", 1), ("z", 2)] ∧
    (dir_as_read (apply_mem_ops 64 ex_mem_exhausted
        [ex_mem_create 13 103, ex_mem_create 14 104, ex_mem_create 15 105,
         ex_mem_create 16 106])).subdirs.map (fun d => (d.d_name, d.d_fsdata, d.positive))
      = [("a", 2, true), ("b", 3, true), ("c", 4, true), ("d", 18446744073709551615, true),
         ("e", 0, true), ("f", 1, true), ("z", 2, true)] := by
  decide

/-- C1 (amended): with the counter in a word of `w` bits, for every directory in memory and
every sequence of operations on it (creations that succeed or fail, removals, creations with a
dentry used before) during which the counter does not pass the greatest value of the word, that
is `next_offset` plus the number of successful creations is at most `2 ^ w`: the offsets found
in the dentries right after their creation are `next_offset`, `next_offset + 1`, ... in the
order of creation, hence strictly increasing and pairwise distinct, none is below the counter at
the start and each fits the word. -/
theorem assigned_offsets_increase_below_wrap (w : Nat) (dir : mem_dir) (ops : List mem_op)
    (h : dir.next_offset + creations ops ≤ 2 ^ w) :
    assigned_offsets_m w dir ops = List.range' dir.next_offset (creations ops) ∧
    (assigned_offsets_m w dir ops).Pairwise (· < ·) ∧ (assigned_offsets_m w dir ops).Nodup ∧
    (∀ o ∈ assigned_offsets_m w dir ops, dir.next_offset ≤ o ∧ o < 2 ^ w) := by
  have he := creation_history_offsets w ops dir h
  rw [he]
  refine ⟨rfl, List.pairwise_lt_range' _ _, List.nodup_range' _ _, ?_⟩
  intro o ho
  rw [List.mem_range'_1] at ho
  omega

/-- Witness of the amended C1: in the sample directory `a` and `b` are created, `a` is removed
and created again with the same dentry, a creation fails, and `c` is created, with words of 64
bits: the offsets given are 2, 3, 4, 5. -/
theorem assigned_offsets_increase_below_wrap_witness :
    ex_mem_root.next_offset + creations [ex_mem_create 10 100, ex_mem_create 11 101,
      mem_op.removal 100, ex_mem_create 12 100, mem_op.mknod none 102 0o100644,
      ex_mem_create 13 102] ≤ 2 ^ 64 ∧
    creation_history 64 ex_mem_root [ex_mem_create 10 100, ex_mem_create 11 101,
      mem_op.removal 100, ex_mem_create 12 100, mem_op.mknod none 102 0o100644,
      ex_mem_create 13 102] = [("a", 2), ("b", 3), ("a", 4), ("c", 5)] ∧
    (assigned_offsets_m 64 ex_mem_root [ex_mem_create 10 100, ex_mem_create 11 101,
      mem_op.removal 100, ex_mem_create 12 100, mem_op.mknod none 102 0o100644,
      ex_mem_create 13 102]).Pairwise (· < ·) :=
  ⟨by decide, by decide,
    (assigned_offsets_increase_below_wrap 64 ex_mem_root [ex_mem_create 10 100,
      ex_mem_create 11 101, mem_op.removal 100, ex_mem_create 12 100,
      mem_op.mknod none 102 0o100644, ex_mem_create 13 102] (by decide)).2.1⟩

/-- C2 (counterexample): in the sample directory with words of 64 bits. (1) After
`tmpfs_add_sub_dentry` alone, on the fresh directory with the negative dentry `a`, the dentry
has the offset 2 and is linked, but `list_find_next` at 2 returns nothing: the dentry is not
live before `shmem_mknod` instantiates it. (2) With the counter at the greatest value of the
word a creation leaves the counter at 0, not one greater, and after one more creation, which is
given the offset 0, `list_find_next` at 0 returns `a`, not the new entry. (3) When `a` is
created, removed and created again with the same dentry, the node linked by the first creation
shows the offset 4 afterwards, where it showed 2 before. -/
theorem creation_alone_not_found :
    ((tmpfs_add_sub_dentry_m 64 ex_mem_root (ex_raw 10) 100).1 = 0 ∧
      dentry2offset ((tmpfs_add_sub_dentry_m 64 ex_mem_root (ex_raw 10) 100).2.dentries 100) = 2 ∧
      (tmpfs_add_sub_dentry_m 64 ex_mem_root (ex_raw 10) 100).2.subdirs = [100] ∧
      list_find_next (dir_as_read (tmpfs_add_sub_dentry_m 64 ex_mem_root (ex_raw 10) 100).2) 2
        = none) ∧
    ((shmem_mknod_m 64 (some (ex_raw 13)) ex_mem_exhausted 103 0o100644).1 = 0 ∧
      (shmem_mknod_m 64 (some (ex_raw 13)) ex_mem_exhausted 103 0o100644).2.next_offset = 0 ∧
      creation_history 64 ex_mem_exhausted [ex_mem_create 13 103, ex_mem_create 14 104]
        = [("d", 18446744073709551615), ("e", 0)] ∧
      (list_find_next (dir_as_read (apply_mem_ops 64 ex_mem_exhausted
          [ex_mem_create 13 103, ex_mem_create 14 104])) 0).map (fun d => (d.d_name, d.d_fsdata))
        = some ("a", 2)) ∧
    ((dir_as_read (apply_mem_ops 64 ex_mem_root [ex_mem_create 10 100,
          ex_mem_create 11 101])).subdirs.map (fun d => (d.d_name, d.d_fsdata))
        = [("a", 2), ("b", 3)] ∧
      (dir_as_read (apply_mem_ops 64 ex_mem_root [ex_mem_create 10 100, ex_mem_create 11 101,
          mem_op.removal 100, ex_mem_create 12 100])).subdirs.map
          (fun d => (d.d_name, d.d_fsdata))
        = [("a", 4), ("b", 3), ("a", 4)]) := by
  decide

/-- C2 (amended): with the counter in a word of `w` bits, in every directory in memory whose
children all have offsets below `next_offset`, a successful `shmem_mknod` with a dentry that
no list node points to yet gives the dentry the offset `next_offset` had before the call,
leaves `next_offset` one greater modulo `2 ^ w` (one greater when that fits the word), links
the dentry at the tail of the list and leaves every other dentry as it was, so the earlier
children read as before; the dentry is live and keeps its name, and `list_find_next` at its
offset returns it. `tmpfs_add_sub_dentry` alone does the same to offset, counter and list, and
`list_find_next` at the offset returns the dentry exactly when it is live. -/
theorem mknod_takes_next_offset (w : Nat) (dir : mem_dir) (raw inode : shmem_inode_info)
    (a mode : Nat) (hfresh : a ∉ dir.subdirs)
    (hbelow : ∀ b ∈ dir.subdirs, (dir.dentries b).d_fsdata < dir.next_offset) :
    ((shmem_mknod_m w (some raw) dir a mode).1 = 0 ∧
      dentry2offset ((shmem_mknod_m w (some raw) dir a mode).2.dentries a) = dir.next_offset ∧
      (shmem_mknod_m w (some raw) dir a mode).2.next_offset = (dir.next_offset + 1) % 2 ^ w ∧
      (dir.next_offset + 1 < 2 ^ w →
        (shmem_mknod_m w (some raw) dir a mode).2.next_offset = dir.next_offset + 1) ∧
      (shmem_mknod_m w (some raw) dir a mode).2.subdirs = dir.subdirs ++ [a] ∧
      (∀ b, b ≠ a → (shmem_mknod_m w (some raw) dir a mode).2.dentries b = dir.dentries b) ∧
      (dir_as_read (shmem_mknod_m w (some raw) dir a mode).2).subdirs
        = (dir_as_read dir).subdirs ++ [(shmem_mknod_m w (some raw) dir a mode).2.dentries a] ∧
      simple_positive ((shmem_mknod_m w (some raw) dir a mode).2.dentries a) = true ∧
      ((shmem_mknod_m w (some raw) dir a mode).2.dentries a).d_name = (dir.dentries a).d_name ∧
      ((shmem_mknod_m w (some raw) dir a mode).2.dentries a).i_ino = raw.i_ino ∧
      list_find_next (dir_as_read (shmem_mknod_m w (some raw) dir a mode).2) dir.next_offset
        = some ((shmem_mknod_m w (some raw) dir a mode).2.dentries a)) ∧
    ((tmpfs_add_sub_dentry_m w dir inode a).1 = 0 ∧
      dentry2offset ((tmpfs_add_sub_dentry_m w dir inode a).2.dentries a) = dir.next_offset ∧
      (tmpfs_add_sub_dentry_m w dir inode a).2.next_offset = (dir.next_offset + 1) % 2 ^ w ∧
      (tmpfs_add_sub_dentry_m w dir inode a).2.subdirs = dir.subdirs ++ [a] ∧
      (∀ b, b ≠ a → (tmpfs_add_sub_dentry_m w dir inode a).2.dentries b = dir.dentries b) ∧
      list_find_next (dir_as_read (tmpfs_add_sub_dentry_m w dir inode a).2) dir.next_offset
        = (if simple_positive (dir.dentries a)
            then some ((tmpfs_add_sub_dentry_m w dir inode a).2.dentries a) else none)) := by
  have hlt : ∀ c ∈ dir.subdirs.map dir.dentries, c.d_fsdata < dir.next_offset := by
    intro c hc
    obtain ⟨b, hb, rfl⟩ := List.mem_map.1 hc
    exact hbelow b hb
  constructor
  · rw [shmem_mknod_m_ok]
    refine ⟨rfl, by simp [dentry2offset], rfl, fun h => Nat.mod_eq_of_lt h, rfl,
      fun b hb => Function.update_noteq hb _ _, ?_, by simp [simple_positive], by simp,
      by simp, ?_⟩
    · simp [dir_as_read, map_update_of_not_mem, hfresh]
    · simp only [list_find_next, dir_as_read, List.map_append, List.map_cons, List.map_nil,
        map_update_of_not_mem _ _ _ _ hfresh, Function.update_same]
      rw [list_find_next_scan_append _ _ _ hlt]
      simp [simple_positive]
  · refine ⟨rfl, by simp [tmpfs_add_sub_dentry_m, dentry2offset, d_set_fsdata], rfl, rfl,
      fun b hb => Function.update_noteq hb _ _, ?_⟩
    simp only [list_find_next, dir_as_read, tmpfs_add_sub_dentry_m, List.map_append,
      List.map_cons, List.map_nil, map_update_of_not_mem _ _ _ _ hfresh, Function.update_same]
    rw [list_find_next_scan_append _ _ _ hlt]
    simp [simple_positive, d_set_fsdata]

/-- Witness of the amended C2: the creation of `c` with the dentry at address 102 in the sample
directory in memory that holds `a` and `b`, with words of 64 bits. -/
theorem mknod_takes_next_offset_witness :
    (102 ∉ (apply_mem_ops 64 ex_mem_root [ex_mem_create 10 100, ex_mem_create 11 101]).subdirs) ∧
    (list_find_next (dir_as_read (shmem_mknod_m 64 (some (ex_raw 12))
        (apply_mem_ops 64 ex_mem_root [ex_mem_create 10 100, ex_mem_create 11 101])
        102 0o100644).2) 4).map (fun d => (d.d_name, d.d_fsdata, d.positive, d.i_ino))
      = some ("c", 4, true, 12) ∧
    (shmem_mknod_m 64 (some (ex_raw 12))
        (apply_mem_ops 64 ex_mem_root [ex_mem_create 10 100, ex_mem_create 11 101])
        102 0o100644).2.next_offset
      = ((apply_mem_ops 64 ex_mem_root
          [ex_mem_create 10 100, ex_mem_create 11 101]).next_offset + 1) % 2 ^ 64 :=
  ⟨by decide, by decide,
    (mknod_takes_next_offset 64
      (apply_mem_ops 64 ex_mem_root [ex_mem_create 10 100, ex_mem_create 11 101])
      (ex_raw 12) (ex_raw 12) 102 0o100644 (by decide) (by decide)).1.2.2.1⟩

/-- C3 (evaluation at the failing input): the sample directory holds `a` and its counter is 3
when the handle is opened; `list_dir_open` stores 2 in the handle. After `b` is created (offset
3), a `readdir` on that handle from cursor 0 hands `b` to the consumer, although its offset is
not below the counter at the time of the open. -/
theorem snapshot_bound_not_applied :
    Reachable ex_a ∧ ex_a.dir_offsets.next_offset = 3 ∧
    dir_open ex_a ex_file = some (0, { ex_file with private_data := 2 }) ∧
    (dir_readdir accept_all ex_a_then_b { ex_file with private_data := 2 }
        { pos := 0, buf := [] }).map (fun r => (r.1.pos, accepted_names r.2))
      = some (4, [(".", 0), ("..", 1), ("a", 2), ("b", 3)]) :=
  ⟨reachable_apply_ops _ _ ex_root_reachable, by decide, by decide, by decide⟩

/-- C4 (counterexample): children `a` (2), `b` (3), `c` (4) with `b` negative, cursor 3, a
consumer that accepts everything and a bound above `c`. In both variants the call emits
nothing and leaves the cursor at 3: `c` is not reached. -/
theorem tombstone_not_skipped :
    ex_abc_b_removed.subdirs.map (fun d => (d.d_name, d.d_fsdata, d.positive))
      = [("a", 2, true), ("b", 3, false), ("c", 4, true)] ∧
    (list_iterate_dir accept_all ex_abc_b_removed { pos := 3, buf := [] } 5).map
      (fun r => (r.1.pos, r.2)) = some (3, []) ∧
    (offset_iterate_dir accept_all ex_indexed_b_removed { pos := 3, buf := [] } 5).map
      (fun r => (r.1.pos, r.2)) = some (3, []) := by
  decide

/-- C4 (amended): when the entry with the smallest offset at or after the cursor is negative,
the call stops there in both variants: nothing is handed to the consumer, neither the negative
entry nor a later live one, and the cursor is unchanged. Stated for a list of children with
strictly increasing offsets and for an index with pairwise distinct offsets. -/
theorem tombstone_stops_enumeration {σ : Type} (actor : actor_t σ) (ctx : dir_context σ)
    (last_index : Nat) (e : dentry) (hneg : e.positive = false) (hx : ctx.pos ≤ e.d_fsdata) :
    (∀ dir : shmem_inode_info, (child_offsets dir).Pairwise (· < ·) → e ∈ dir.subdirs →
      (∀ c ∈ dir.subdirs, ctx.pos ≤ c.d_fsdata → e.d_fsdata ≤ c.d_fsdata) →
      list_iterate_dir actor dir ctx last_index = some (ctx, [])) ∧
    (∀ dir : shmem_inode_info, (dir.dir_offsets.mt.map dentry2offset).Nodup →
      e ∈ dir.dir_offsets.mt →
      (∀ c ∈ dir.dir_offsets.mt, ctx.pos ≤ c.d_fsdata → e.d_fsdata ≤ c.d_fsdata) →
      offset_iterate_dir actor dir ctx last_index = some (ctx, [])) := by
  constructor
  · intro dir hs he hmin
    have hf : list_find_next dir ctx.pos = none := by
      unfold list_find_next
      rw [list_find_next_scan_min _ _ e hs he hx hmin]
      simp [simple_positive, hneg]
    simp [list_iterate_dir, list_iterate_dir_loop, hf]
  · intro dir hn he hmin
    have hf := offset_find_next_negative dir.dir_offsets ctx.pos e hn he hx hmin hneg
    simp [offset_iterate_dir, offset_iterate_dir_loop, hf]

/-- Witness of the amended C4: the negative child `b` at cursor 3 in the sample directories. -/
theorem tombstone_stops_enumeration_witness :
    list_iterate_dir accept_all ex_abc_b_removed { pos := 3, buf := [] } 5
      = some ({ pos := 3, buf := [] }, []) ∧
    offset_iterate_dir accept_all ex_indexed_b_removed { pos := 3, buf := [] } 5
      = some ({ pos := 3, buf := [] }, []) :=
  have h := tombstone_stops_enumeration accept_all { pos := 3, buf := [] } 5
    { d_name := "b", d_fsdata := 3, positive := false, i_ino := 11, i_mode := 0o100644 }
    rfl (by decide)
  ⟨h.1 ex_abc_b_removed (by decide) (by decide) (by decide),
   h.2 ex_indexed_b_removed (by decide) (by decide) (by decide)⟩

/-- C5 (counterexample): the sample directory with words of 64 bits holds `a` (2), `b` (3),
`c` (4) and `z` at the greatest offset. Five successive `readdir` calls on one handle, by a
consumer that refuses every third entry offered, accept `.`, `..`, `a` and `b` a second time:
after `z` the cursor is 0 again. A run of a consumer that never refuses does not return, with
whatever budget of iterations. -/
theorem entry_accepted_twice_after_wrap :
    (readdir_calls (list_readdir_w 64 refuse_every_third ex_wrapped ex_file 20) 5
        { pos := 0, buf := 0 }).map (fun r => (r.1.pos, accepted_names r.2.flatten))
      = some (4, [(".", 0), ("..", 1), ("a", 2), ("b", 3), ("c", 4),
          ("z", 18446744073709551615), (".", 0), ("..", 1), ("a", 2), ("b", 3)]) ∧
    ∀ fuel, list_readdir_w 64 accept_all ex_wrapped ex_file fuel { pos := 0, buf := [] } = none := by
  refine ⟨by decide, fun fuel => ?_⟩
  simp [list_readdir_w, dir_emit_dots, call_actor, accept_all, list_iterate_dir_w,
    ex_wrapped_never_returns]

/-- C5 (amended): pause and resume with the cursor in a word of `w` bits, over a directory that
does not change and, for `list_readdir`, has no child at the greatest offset `2 ^ w - 1` of the
word (for `offset_readdir`: in every directory, the word having 64 bits or more). Take any
number of successive `readdir` calls on one handle with a consumer that refuses wherever it
likes, and one run from the same cursor with a consumer that never refuses. All of them return.
What the calls had accepted, followed by what a never-refusing run from the stored cursor
yields, is exactly what the single run yields; once a call has ended without a refusal the
accepted entries are all of them. No entry is accepted twice. -/
theorem pause_resume_below_wrap {σ τ : Type} (w : Nat) (actor : actor_t σ) (always : actor_t τ)
    (dir : shmem_inode_info) (f : file) (n : Nat) (ctx : dir_context σ) (b0 : τ) (fuel : Nat)
    (hal : ∀ s e, (always s e).2 = true) (hw : 2 ≤ w) (hpos : ctx.pos < 2 ^ w) :
    ((∀ c ∈ dir.subdirs, c.d_fsdata + 1 < 2 ^ w) → dir.subdirs.length < fuel →
      ∃ c logs cf full,
        readdir_calls (list_readdir_w w actor dir f fuel) n ctx = some (c, logs) ∧
        list_readdir_w w always dir f fuel { pos := ctx.pos, buf := b0 } = some (cf, full) ∧
        (∀ e ∈ full, e.2 = true) ∧
        (∀ b1 : τ, ∃ c1 rest,
          list_readdir_w w always dir f fuel { pos := c.pos, buf := b1 } = some (c1, rest) ∧
          accepted logs.flatten ++ accepted rest = accepted full) ∧
        (∀ l, logs.getLast? = some l → (∀ e ∈ l, e.2 = true) →
          accepted logs.flatten = accepted full) ∧
        (accepted logs.flatten).Nodup) ∧
    (64 ≤ w → dir.dir_offsets.mt.length < fuel →
      ∃ c logs cf full,
        readdir_calls (offset_readdir_w w actor dir f fuel) n ctx = some (c, logs) ∧
        offset_readdir_w w always dir f fuel { pos := ctx.pos, buf := b0 } = some (cf, full) ∧
        (∀ e ∈ full, e.2 = true) ∧
        (∀ b1 : τ, ∃ c1 rest,
          offset_readdir_w w always dir f fuel { pos := c.pos, buf := b1 } = some (c1, rest) ∧
          accepted logs.flatten ++ accepted rest = accepted full) ∧
        (∀ l, logs.getLast? = some l → (∀ e ∈ l, e.2 = true) →
          accepted logs.flatten = accepted full) ∧
        (accepted logs.flatten).Nodup) := by
  obtain ⟨⟨c, logs, cf, full, h1, h2, h3, h4, h5, h6⟩,
      ⟨c', logs', cf', full', g1, g2, g3, g4, g5, g6⟩⟩ :=
    pause_resume_nat actor always hal dir f n ctx b0
  refine ⟨fun hno hfuel => ?_, fun hw64 hfuel => ?_⟩
  · have heq : ∀ (ρ : Type) (a : actor_t ρ) (c0 : dir_context ρ), c0.pos < 2 ^ w →
        list_readdir_w w a dir f fuel c0 = list_readdir a dir f c0 :=
      fun ρ a c0 h => list_readdir_w_eq w hw a dir hno f fuel hfuel c0 h
    have hP : ∀ (c0 c1 : dir_context σ) (log : emit_log), c0.pos < 2 ^ w →
        list_readdir actor dir f c0 = some (c1, log) → c1.pos < 2 ^ w :=
      fun c0 c1 log h hr => Run_pos_lt _ actor (2 ^ w) (list_next_offset_lt w hw dir hno f)
        _ _ _ (list_readdir_run actor dir f c0 c1 log hr) h
    obtain ⟨e1, e2⟩ := readdir_calls_congr (fun c0 : dir_context σ => c0.pos < 2 ^ w) _ _
      (fun c0 h => heq σ actor c0 h) hP n ctx hpos
    have hc : c.pos < 2 ^ w := e2 c logs h1
    refine ⟨c, logs, cf, full, by rw [e1]; exact h1, by rw [heq τ always _ hpos]; exact h2,
      h3, ?_, h5, h6⟩
    intro b1
    obtain ⟨c1, rest, r1, r2⟩ := h4 b1
    exact ⟨c1, rest, by rw [heq τ always _ hc]; exact r1, r2⟩
  · have heq : ∀ (ρ : Type) (a : actor_t ρ) (c0 : dir_context ρ), c0.pos < 2 ^ w →
        offset_readdir_w w a dir f fuel c0 = offset_readdir a dir f c0 :=
      fun ρ a c0 h => offset_readdir_w_eq w hw64 a dir f fuel hfuel c0 h
    have hP : ∀ (c0 c1 : dir_context σ) (log : emit_log), c0.pos < 2 ^ w →
        offset_readdir actor dir f c0 = some (c1, log) → c1.pos < 2 ^ w :=
      fun c0 c1 log h hr => Run_pos_lt _ actor (2 ^ w) (offset_next_offset_lt w hw64 dir f)
        _ _ _ (offset_readdir_run actor dir f c0 c1 log hr) h
    obtain ⟨e1, e2⟩ := readdir_calls_congr (fun c0 : dir_context σ => c0.pos < 2 ^ w) _ _
      (fun c0 h => heq σ actor c0 h) hP n ctx hpos
    have hc : c'.pos < 2 ^ w := e2 c' logs' g1
    refine ⟨c', logs', cf', full', by rw [e1]; exact g1,
      by rw [heq τ always _ hpos]; exact g2, g3, ?_, g5, g6⟩
    intro b1
    obtain ⟨c1, rest, r1, r2⟩ := g4 b1
    exact ⟨c1, rest, by rw [heq τ always _ hc]; exact r1, r2⟩

/-- Witness of the amended C5: three calls on the sample directory with `a`, `b`, `c`, words of
64 bits, by a consumer that refuses every third entry offered; the third call ends without a
refusal, and what the three calls accepted is what one run of the consumer that accepts
everything yields. -/
theorem pause_resume_below_wrap_witness :
    (∀ (s : List dirent) (e : dirent), (accept_all s e).2 = true) ∧ 2 ≤ 64 ∧
    (0 : Nat) < 2 ^ 64 ∧ (∀ c ∈ ex_abc.subdirs, c.d_fsdata + 1 < 2 ^ 64) ∧
    ∃ c logs cf full,
      readdir_calls (list_readdir_w 64 refuse_every_third ex_abc ex_file 4) 3
        { pos := 0, buf := 0 } = some (c, logs) ∧
      list_readdir_w 64 accept_all ex_abc ex_file 4 { pos := 0, buf := [] } = some (cf, full) ∧
      logs.map accepted_names = [[(".", 0), ("..", 1)], [("a", 2), ("b", 3)], [("c", 4)]] ∧
      accepted logs.flatten = accepted full := by
  refine ⟨fun _ _ => rfl, by decide, by decide, by decide, ?_⟩
  obtain ⟨c, logs, cf, full, h1, h2, _, _, h5, _⟩ :=
    (pause_resume_below_wrap 64 refuse_every_third accept_all ex_abc ex_file 3
      { pos := 0, buf := 0 } [] 4 (fun _ _ => rfl) (by decide) (by decide)).1
      (by decide) (by decide)
  have hv : (readdir_calls (list_readdir_w 64 refuse_every_third ex_abc ex_file 4) 3
      { pos := 0, buf := 0 }).map (fun r => (r.2.map accepted_names,
        r.2.getLast?.map (fun l => l.all (fun e => e.2))))
      = some ([[(".", 0), ("..", 1)], [("a", 2), ("b", 3)], [("c", 4)]], some true) := by
    decide
  rw [h1] at hv
  simp only [Option.map_some', Option.some.injEq, Prod.mk.injEq] at hv
  refine ⟨c, logs, cf, full, h1, h2, hv.1, ?_⟩
  cases hl : logs.getLast? with
  | none => rw [hl] at hv; simp at hv
  | some l =>
    rw [hl] at hv
    simp only [Option.map_some', Option.some.injEq, List.all_eq_true] at hv
    exact h5 l hl (fun e he => hv.2 e he)

/-- C6 (counterexample): in the sample directory with words of 64 bits, whose child `z` has the
greatest offset, a consumer with room for one entry is offered `z` at cursor 5 and accepts it,
then refuses `a`. The call ends with the cursor at 0, which is the offset of `z` plus one
modulo `2 ^ 64` and not the offset of `z` plus one. -/
theorem cursor_wraps_after_greatest_offset :
    (list_readdir_w 64 accept_upto ex_wrapped ex_file 20 { pos := 5, buf := 1 }).map
        (fun r => (r.1.pos, r.2.map (fun e => (e.1.name, e.1.offset, e.2))))
      = some (0, [("z", 18446744073709551615, true), ("a", 2, false)]) ∧
    (18446744073709551615 + 1) % 2 ^ 64 = 0 := by
  decide

/-- C6 (amended): with the cursor in a word of `w` bits. In every directory, when a call of a
scanning loop (`list_iterate_dir`, `offset_iterate_dir`) returns, the cursor is one past the
last entry the consumer accepted, modulo `2 ^ w`, or where the call started when none was
accepted; when the call ended because the consumer refused an entry `e`, everything offered
before `e` was accepted and `e` is the entry found at the cursor the call leaves behind, so a
later call from that cursor offers `e` first. In a directory none of whose children has the
greatest offset `2 ^ w - 1` (for `offset_readdir`: in every directory, the word having 64 bits
or more) every `readdir` call returns, the cursor it leaves is the offset of the last accepted
entry plus one, and after a refusal of `e` the cursor is not past the offset of `e` and the next
`readdir` call on the unchanged directory, with any consumer, offers `e` first. -/
theorem refusal_keeps_cursor_below_wrap {σ : Type} (w : Nat) (actor : actor_t σ)
    (dir : shmem_inode_info) (f : file) (ctx : dir_context σ) (hw : 2 ≤ w)
    (hpos : ctx.pos < 2 ^ w) :
    (∀ fuel last_index c log,
      list_iterate_dir_w w actor dir fuel ctx last_index = some (c, log) →
      c.pos = cursor_after_w w ctx.pos (accepted log) ∧
      ∀ pre e, log = pre ++ [(e, false)] →
        pre = (accepted log).map (fun x => (x, true)) ∧
        (list_find_next dir (c.pos % 2 ^ w)).map dirent_of = some e ∧
        ∀ (τ : Type) (actor2 : actor_t τ) (buf2 : τ) (fuel2 : Nat) (c2 : dir_context τ)
          (log2 : emit_log),
          list_iterate_dir_w w actor2 dir fuel2 { pos := c.pos, buf := buf2 } last_index
            = some (c2, log2) → ∃ rest, log2 = (e, (actor2 buf2 e).2) :: rest) ∧
    (∀ fuel last_index c log,
      offset_iterate_dir_w w actor dir fuel ctx last_index = some (c, log) →
      c.pos = cursor_after_w w ctx.pos (accepted log) ∧
      ∀ pre e, log = pre ++ [(e, false)] →
        pre = (accepted log).map (fun x => (x, true)) ∧
        ∀ (τ : Type) (actor2 : actor_t τ) (buf2 : τ) (fuel2 : Nat) (c2 : dir_context τ)
          (log2 : emit_log),
          offset_iterate_dir_w w actor2 dir fuel2 { pos := c.pos, buf := buf2 } last_index
            = some (c2, log2) → ∃ rest, log2 = (e, (actor2 buf2 e).2) :: rest) ∧
    ((∀ c ∈ dir.subdirs, c.d_fsdata + 1 < 2 ^ w) → ∀ fuel, dir.subdirs.length < fuel →
      ∃ c log, list_readdir_w w actor dir f fuel ctx = some (c, log) ∧
        (accepted log = [] → c.pos = ctx.pos) ∧
        (∀ e, (accepted log).getLast? = some e → c.pos = e.offset + 1) ∧
        (∀ pre e, log = pre ++ [(e, false)] →
          pre = (accepted log).map (fun x => (x, true)) ∧ c.pos ≤ e.offset ∧
          ∀ (τ : Type) (actor2 : actor_t τ) (buf2 : τ), ∃ c2 rest,
            list_readdir_w w actor2 dir f fuel { pos := c.pos, buf := buf2 }
              = some (c2, (e, (actor2 buf2 e).2) :: rest))) ∧
    (64 ≤ w → ∀ fuel, dir.dir_offsets.mt.length < fuel →
      ∃ c log, offset_readdir_w w actor dir f fuel ctx = some (c, log) ∧
        (accepted log = [] → c.pos = ctx.pos) ∧
        (∀ e, (accepted log).getLast? = some e → c.pos = e.offset + 1) ∧
        (∀ pre e, log = pre ++ [(e, false)] →
          pre = (accepted log).map (fun x => (x, true)) ∧ c.pos ≤ e.offset ∧
          ∀ (τ : Type) (actor2 : actor_t τ) (buf2 : τ), ∃ c2 rest,
            offset_readdir_w w actor2 dir f fuel { pos := c.pos, buf := buf2 }
              = some (c2, (e, (actor2 buf2 e).2) :: rest))) := by
  obtain ⟨⟨c, log, h, h1, h2, h3⟩, ⟨c', log', g, g1, g2, g3⟩⟩ :=
    refusal_keeps_cursor_nat actor dir f ctx
  refine ⟨?_, ?_, fun hno fuel hfuel => ?_, fun hw64 fuel hfuel => ?_⟩
  · intro fuel last_index c0 log0 h0
    have hr := list_loop_w_run w actor dir fuel ctx c0 log0 h0
    refine ⟨Run_w_cursor w _ actor _ _ _ hr, fun pre e hlog => ?_⟩
    have hn := Run_w_reoffer w _ actor _ _ _ hr pre e hlog
    refine ⟨Run_w_accepted_last w _ actor _ _ _ hr pre e hlog, hn, ?_⟩
    intro τ actor2 buf2 fuel2 c2 log2 h2
    exact Run_w_first w _ actor2 _ _ _ (list_loop_w_run w actor2 dir fuel2 _ c2 log2 h2) e hn
  · intro fuel last_index c0 log0 h0
    have hr := offset_loop_w_run w actor dir.dir_offsets last_index fuel ctx c0 log0 h0
    refine ⟨Run_w_cursor w _ actor _ _ _ hr, fun pre e hlog => ?_⟩
    have hn := Run_w_reoffer w _ actor _ _ _ hr pre e hlog
    refine ⟨Run_w_accepted_last w _ actor _ _ _ hr pre e hlog, ?_⟩
    intro τ actor2 buf2 fuel2 c2 log2 h2
    exact Run_w_first w _ actor2 _ _ _
      (offset_loop_w_run w actor2 dir.dir_offsets last_index fuel2 _ c2 log2 h2) e hn
  · have heq : ∀ (ρ : Type) (a : actor_t ρ) (c0 : dir_context ρ), c0.pos < 2 ^ w →
        list_readdir_w w a dir f fuel c0 = list_readdir a dir f c0 :=
      fun ρ a c0 h => list_readdir_w_eq w hw a dir hno f fuel hfuel c0 h
    have hc : c.pos < 2 ^ w := Run_pos_lt _ actor (2 ^ w) (list_next_offset_lt w hw dir hno f)
      _ _ _ (list_readdir_run actor dir f ctx c log h) hpos
    refine ⟨c, log, by rw [heq σ actor ctx hpos]; exact h, h1, h2, fun pre e hlog => ?_⟩
    obtain ⟨k1, k2, k3⟩ := h3 pre e hlog
    refine ⟨k1, k2, fun τ actor2 buf2 => ?_⟩
    obtain ⟨c2, rest, hr⟩ := k3 τ actor2 buf2
    exact ⟨c2, rest, by rw [heq τ actor2 _ hc]; exact hr⟩
  · have heq : ∀ (ρ : Type) (a : actor_t ρ) (c0 : dir_context ρ), c0.pos < 2 ^ w →
        offset_readdir_w w a dir f fuel c0 = offset_readdir a dir f c0 :=
      fun ρ a c0 h => offset_readdir_w_eq w hw64 a dir f fuel hfuel c0 h
    have hc : c'.pos < 2 ^ w := Run_pos_lt _ actor (2 ^ w) (offset_next_offset_lt w hw64 dir f)
      _ _ _ (offset_readdir_run actor dir f ctx c' log' g) hpos
    refine ⟨c', log', by rw [heq σ actor ctx hpos]; exact g, g1, g2, fun pre e hlog => ?_⟩
    obtain ⟨k1, k2, k3⟩ := g3 pre e hlog
    refine ⟨k1, k2, fun τ actor2 buf2 => ?_⟩
    obtain ⟨c2, rest, hr⟩ := k3 τ actor2 buf2
    exact ⟨c2, rest, by rw [heq τ actor2 _ hc]; exact hr⟩

/-- Witness of the amended C6: on the sample directory with `a`, `b`, `c`, words of 64 bits, a
consumer with room for three entries accepts `.`, `..` and `a` and refuses `b`; the cursor is
left at 3, the offset of `b`, and the next call offers `b` first. -/
theorem refusal_keeps_cursor_below_wrap_witness :
    2 ≤ 64 ∧ (0 : Nat) < 2 ^ 64 ∧ (∀ c ∈ ex_abc.subdirs, c.d_fsdata + 1 < 2 ^ 64) ∧
    (list_readdir_w 64 accept_upto ex_abc ex_file 4 { pos := 0, buf := 3 }).map
        (fun r => (r.1.pos, r.2.map (fun e => (e.1.name, e.1.offset, e.2))))
      = some (3, [(".", 0, true), ("..", 1, true), ("a", 2, true), ("b", 3, false)]) ∧
    ∃ c2 rest, list_readdir_w 64 accept_all ex_abc ex_file 4 { pos := 3, buf := [] }
        = some (c2, (ex_dirent_b, true) :: rest) := by
  refine ⟨by decide, by decide, by decide, by decide, ?_⟩
  obtain ⟨c, log, h, -, -, h3⟩ :=
    (refusal_keeps_cursor_below_wrap 64 accept_upto ex_abc ex_file { pos := 0, buf := 3 }
      (by decide) (by decide)).2.2.1 (by decide) 4 (by decide)
  have hv : (list_readdir_w 64 accept_upto ex_abc ex_file 4 { pos := 0, buf := 3 }).map
      (fun r => (r.1.pos, r.2.getLast?)) = some (3, some (ex_dirent_b, false)) := by
    decide
  rw [h] at hv
  simp only [Option.map_some', Option.some.injEq, Prod.mk.injEq] at hv
  obtain ⟨hpos, hlast⟩ := hv
  have hlog : log = log.dropLast ++ [(ex_dirent_b, false)] :=
    (List.dropLast_append_getLast? _ hlast).symm
  obtain ⟨c2, rest, h2⟩ := (h3 _ _ hlog).2.2 (List dirent) accept_all []
  rw [hpos] at h2
  exact ⟨c2, rest, h2⟩

/-- C7 (counterexample): in the sample directory with words of 64 bits, whose child `z` has the
greatest offset, one `readdir` call from cursor 4 by a consumer with room for three entries
hands over `c` (4), `z` (18446744073709551615) and then `a` (2): the offsets do not increase,
`a` lies below the cursor the call started at, and `a`, created first, comes last. -/
theorem emitted_offsets_fall_after_wrap :
    ex_wrapped.subdirs.map (fun d => (d.d_name, d.d_fsdata))
      = [("a", 2), ("b", 3), ("c", 4), ("z", 18446744073709551615)] ∧
    (list_readdir_w 64 accept_upto ex_wrapped ex_file 20 { pos := 4, buf := 3 }).map
        (fun r => (r.1.pos, accepted_names r.2))
      = some (3, [("c", 4), ("z", 18446744073709551615), ("a", 2)]) := by
  decide

/-- C7 (amended): with counter and cursor in words of `w` bits, take a directory fresh from
`__shmem_get_inode`, laid out in memory, and any interleaving of `readdir` calls on one handle
with operations on the directory (creations, also with a dentry used before, and removals) in
which the counter does not reach the greatest value of the word: DIR_OFFSET_MIN plus the number
of successful creations is below `2 ^ w`. Every `readdir` call returns, with any budget above
the number of creations; the entries the consumer accepts have strictly increasing offsets
across all the calls, every entry offered in a call is at or after the cursor that call started
at, and the accepted children, by name and offset, form in the order they were accepted a
subsequence of the entries created, in the order of creation, each with the offset it was
given, which are DIR_OFFSET_MIN, DIR_OFFSET_MIN + 1, and so on. -/
theorem emitted_in_creation_order_below_wrap {σ : Type} (w : Nat) (actor : actor_t σ)
    (f : file) (raw dir : shmem_inode_info) (mode : Nat) (dentries : Nat → dentry)
    (ctx : dir_context σ) (steps : List mem_step) (fuel : Nat)
    (hm : mode &&& S_IFMT = S_IFDIR) (hg : __shmem_get_inode (some raw) mode = .ok dir)
    (hpos : ctx.pos < 2 ^ w)
    (hw : DIR_OFFSET_MIN + creations (steps_ops steps) < 2 ^ w)
    (hfuel : creations (steps_ops steps) < fuel) :
    ∃ dir2 c calls,
      mem_session w actor f fuel (mem_dir_of dir dentries) ctx steps = some (dir2, c, calls) ∧
      ((session_accepted calls).map (fun e => e.offset)).Pairwise (· < ·) ∧
      (∀ call ∈ calls, ∀ e ∈ call.2, call.1 ≤ e.1.offset) ∧
      (child_names (session_accepted calls)).Sublist
        (creation_history w (mem_dir_of dir dentries) (steps_ops steps)) ∧
      assigned_offsets_m w (mem_dir_of dir dentries) (steps_ops steps)
        = List.range' DIR_OFFSET_MIN (creations (steps_ops steps)) := by
  obtain ⟨-, ho, -⟩ := get_inode_dir raw mode dir hm hg
  have hn : (mem_dir_of dir dentries).next_offset = DIR_OFFSET_MIN := by
    simp [mem_dir_of, ho]
  obtain ⟨dir2, c, calls, hs, hsort, -, hcall, hin⟩ :=
    mem_session_ok w actor f fuel steps (mem_dir_of dir dentries) ctx []
      (by rw [hn]) (by rw [hn]; exact hw) (by simpa [mem_dir_of] using hfuel)
      (by simp [mem_dir_of]) (by simp) hpos
  have hoff := creation_history_offsets w (steps_ops steps) (mem_dir_of dir dentries)
    (by rw [hn]; omega)
  rw [hn] at hoff
  refine ⟨dir2, c, calls, hs, hsort, hcall, ?_, hoff⟩
  apply sublist_of_sorted_subset_key (fun e : String × Nat => e.2)
  · have : (child_names (session_accepted calls)).map (fun e : String × Nat => e.2)
        = (children_only (session_accepted calls)).map (fun e => e.offset) := by
      simp [child_names, List.map_map, Function.comp_def]
    rw [this]
    exact hsort.sublist ((List.filter_sublist _).map _)
  · unfold assigned_offsets_m at hoff
    rw [hoff]
    exact List.pairwise_lt_range' _ _
  · intro e he
    simp only [child_names, children_only, List.mem_map, List.mem_filter,
      decide_eq_true_eq] at he
    obtain ⟨x, ⟨hx, hx2⟩, rfl⟩ := he
    simpa using hin x hx hx2

/-- Witness of the amended C7: with words of 64 bits, on the sample directory, `a` is created,
the handle is read by a consumer that refuses every third entry, `a` is removed and created
again with the same dentry, `b` is created, and the handle is read twice more. -/
theorem emitted_in_creation_order_below_wrap_witness :
    (0o040755 &&& S_IFMT = S_IFDIR) ∧ __shmem_get_inode (some (ex_raw 1)) 0o040755 = .ok ex_root ∧
    (mem_session 64 refuse_every_third ex_file 4 (mem_dir_of ex_root ex_memory)
      { pos := 0, buf := 0 }
      [mem_step.op (ex_mem_create 10 100), mem_step.readdir,
       mem_step.op (mem_op.removal 100), mem_step.op (ex_mem_create 11 100),
       mem_step.op (ex_mem_create 12 101), mem_step.readdir, mem_step.readdir]).map
      (fun r => (r.2.2.map (fun c => (c.1, accepted_names c.2)),
        (dir_as_read r.1).subdirs.map (fun d => (d.d_name, d.d_fsdata))))
      = some ([(0, [(".", 0), ("..", 1)]), (2, [("a", 3), ("b", 4)]), (5, [])],
          [("a", 3), ("a", 3), ("b", 4)]) ∧
    creation_history 64 (mem_dir_of ex_root ex_memory)
      [ex_mem_create 10 100, mem_op.removal 100, ex_mem_create 11 100, ex_mem_create 12 101]
      = [("a", 2), ("a", 3), ("b", 4)] ∧
    ∃ dir2 c calls,
      mem_session 64 refuse_every_third ex_file 4 (mem_dir_of ex_root ex_memory)
        { pos := 0, buf := 0 }
        [mem_step.op (ex_mem_create 10 100), mem_step.readdir,
         mem_step.op (mem_op.removal 100), mem_step.op (ex_mem_create 11 100),
         mem_step.op (ex_mem_create 12 101), mem_step.readdir, mem_step.readdir]
        = some (dir2, c, calls) ∧
      (child_names (session_accepted calls)).Sublist
        (creation_history 64 (mem_dir_of ex_root ex_memory)
          (steps_ops [mem_step.op (ex_mem_create 10 100), mem_step.readdir,
            mem_step.op (mem_op.removal 100), mem_step.op (ex_mem_create 11 100),
            mem_step.op (ex_mem_create 12 101), mem_step.readdir, mem_step.readdir])) :=
  ⟨by decide, rfl, by decide, by decide,
    match emitted_in_creation_order_below_wrap 64 refuse_every_third ex_file (ex_raw 1) ex_root
      0o040755 ex_memory { pos := 0, buf := 0 }
      [mem_step.op (ex_mem_create 10 100), mem_step.readdir,
       mem_step.op (mem_op.removal 100), mem_step.op (ex_mem_create 11 100),
       mem_step.op (ex_mem_create 12 101), mem_step.readdir, mem_step.readdir] 4
      (by decide) rfl (by decide) (by decide) (by decide) with
    | ⟨dir2, c, calls, h1, _, _, h4, _⟩ => ⟨dir2, c, calls, h1, h4⟩⟩

/-- C8: in a directory fresh from `__shmem_get_inode` the counter is 2 and there are no
children; three successful creations in a row get the offsets 2, 3 and 4; a handle opened
afterwards and read from cursor 0 by a consumer that accepts everything yields `.` (0), `..`
(1) and the three children at 2, 3, 4 in that order, and the cursor ends at 5. -/
theorem three_children_scenario (raw dir r1 r2 r3 : shmem_inode_info) (mode m1 m2 m3 : Nat)
    (d1 d2 d3 : dentry) (f : file) (hm : mode &&& S_IFMT = S_IFDIR)
    (hg : __shmem_get_inode (some raw) mode = .ok dir) :
    dir.dir_offsets.next_offset = 2 ∧ dir.subdirs = [] ∧
    assigned_offsets dir [dir_op.mknod (some r1) d1 m1, dir_op.mknod (some r2) d2 m2,
      dir_op.mknod (some r3) d3 m3] = [2, 3, 4] ∧
    ∃ fh c log,
      dir_open (apply_ops dir [dir_op.mknod (some r1) d1 m1, dir_op.mknod (some r2) d2 m2,
        dir_op.mknod (some r3) d3 m3]) f = some (0, fh) ∧
      dir_readdir accept_all (apply_ops dir [dir_op.mknod (some r1) d1 m1,
        dir_op.mknod (some r2) d2 m2, dir_op.mknod (some r3) d3 m3]) fh { pos := 0, buf := [] }
        = some (c, log) ∧
      c.pos = 5 ∧
      log.map (fun e => (e.1.name, e.1.offset, e.2)) =
        [(".", 0, true), ("..", 1, true), (d1.d_name, 2, true), (d2.d_name, 3, true),
         (d3.d_name, 4, true)] := by
  obtain ⟨hs, ho, hf, -⟩ := get_inode_dir raw mode dir hm hg
  refine ⟨by rw [ho]; rfl, hs, ?_, ?_⟩
  · simp [assigned_offsets, apply_op, shmem_mknod_ok, linked_offsets, hs, ho, DIR_OFFSET_MIN,
      dentry2offset]
  · simp [apply_ops, apply_op, shmem_mknod_ok, dir_open, dir_readdir, hf, hs, ho,
      DIR_OFFSET_MIN, list_dir_open, list_readdir, dir_emit_dots, call_actor, accept_all,
      list_iterate_dir, list_iterate_dir_loop, list_find_next, list_find_next_scan,
      simple_positive, offset_dir_emit, dirent_of, dentry2offset]
    exact ⟨_, _, ⟨rfl, rfl⟩, rfl, rfl⟩

/-- Witness of C8: the sample directory with the regular files `a`, `b`, `c`. -/
theorem three_children_scenario_witness :
    ex_root.dir_offsets.next_offset = 2 ∧
    assigned_offsets ex_root [dir_op.mknod (some (ex_raw 10)) (ex_dentry "a") 0o100644,
      dir_op.mknod (some (ex_raw 11)) (ex_dentry "b") 0o100644,
      dir_op.mknod (some (ex_raw 12)) (ex_dentry "c") 0o100644] = [2, 3, 4] ∧
    (dir_readdir accept_all ex_abc { ex_file with private_data := 2 }
        { pos := 0, buf := [] }).map (fun r => (r.1.pos, accepted_names r.2))
      = some (5, [(".", 0), ("..", 1), ("a", 2), ("b", 3), ("c", 4)]) :=
  have h := three_children_scenario (ex_raw 1) ex_root (ex_raw 10) (ex_raw 11) (ex_raw 12)
    0o040755 0o100644 0o100644 0o100644 (ex_dentry "a") (ex_dentry "b") (ex_dentry "c") ex_file
    (by decide) rfl
  ⟨h.1, h.2.2.1, by decide⟩

/-- C9: when the inode allocator fails, `__shmem_get_inode` yields the error ENOSPC, and
`shmem_mknod`, `shmem_create` and `shmem_mkdir` return it with the parent directory exactly as
it was: counter, children, index, size and link count. -/
theorem creation_fails_without_effect (dir : shmem_inode_info) (d : dentry) (mode : Nat) :
    __shmem_get_inode none mode = .error (-ENOSPC) ∧
    shmem_mknod none dir d mode = (-ENOSPC, dir) ∧
    shmem_create none dir d mode = (-ENOSPC, dir) ∧
    shmem_mkdir none dir d mode = (-ENOSPC, dir) ∧
    assigned_offsets dir [dir_op.mknod none d mode, dir_op.create none d mode,
      dir_op.mkdir none d mode] = [] := by
  refine ⟨rfl, rfl, rfl, ?_, ?_⟩
  · simp [shmem_mkdir, shmem_mknod_none, ENOSPC]
  · simp [assigned_offsets, apply_op, shmem_create, shmem_mkdir, shmem_mknod_none, ENOSPC,
      linked_offsets]

/-- C10: when the destination of a rename is not empty, `shmem_rename2` returns the negated
ENOTEMPTY and both parent directories are exactly as before, so any enumeration of either
gives the same result as before the call. -/
theorem rename_on_nonempty_fails (uninit : Int) (old_dir new_dir : shmem_inode_info)
    (children : List dentry) (hne : simple_empty children = false) :
    shmem_rename2 uninit old_dir new_dir children = (-ENOTEMPTY, old_dir, new_dir) ∧
    ∀ (σ : Type) (actor : actor_t σ) (f : file) (ctx : dir_context σ),
      dir_readdir actor (shmem_rename2 uninit old_dir new_dir children).2.1 f ctx
        = dir_readdir actor old_dir f ctx ∧
      dir_readdir actor (shmem_rename2 uninit old_dir new_dir children).2.2 f ctx
        = dir_readdir actor new_dir f ctx := by
  refine ⟨?_, fun σ actor f ctx => ⟨rfl, rfl⟩⟩
  simp [shmem_rename2, hne]

/-- Witness of C10: renaming onto a destination that holds the live children of the sample
directory. -/
theorem rename_on_nonempty_fails_witness :
    simple_empty ex_abc.subdirs = false ∧
    shmem_rename2 0 ex_abc ex_abc ex_abc.subdirs = (-ENOTEMPTY, ex_abc, ex_abc) :=
  ⟨by decide, (rename_on_nonempty_fails 0 ex_abc ex_abc ex_abc.subdirs (by decide)).1⟩

/-- C12 (counterexample): with the counter in a word of 64 bits and `next_offset` at the
greatest value of that word, a creation whose inode allocation succeeds returns 0, not an
error, gives the new entry that greatest value as its offset and leaves `next_offset` at 0. -/
theorem exhaustion_not_surfaced :
    ex_exhausted.dir_offsets.next_offset = 2 ^ 64 - 1 ∧
    (shmem_mknod_w 64 (some (ex_raw 14)) ex_exhausted (ex_dentry "z") 0o100644).1 = 0 ∧
    (shmem_mknod_w 64 (some (ex_raw 14)) ex_exhausted (ex_dentry "z")
      0o100644).2.dir_offsets.next_offset = 0 ∧
    ((shmem_mknod_w 64 (some (ex_raw 14)) ex_exhausted (ex_dentry "z")
      0o100644).2.subdirs.map (fun d => (d.d_name, d.d_fsdata))).getLast?
      = some ("z", 18446744073709551615) := by
  decide

/-- C12 (amended): with `next_offset` in an unsigned word of `w` bits, a creation whose inode
allocation succeeds always returns 0; below the greatest value of the word it does exactly what
`shmem_mknod` over the natural numbers does (the counter grows by one), and at the greatest
value `2 ^ w - 1` the new entry gets that value as its offset and the counter wraps to 0. -/
theorem exhaustion_wraps (w : Nat) (raw dir : shmem_inode_info) (d : dentry) (mode : Nat) :
    (shmem_mknod_w w (some raw) dir d mode).1 = 0 ∧
    (dir.dir_offsets.next_offset + 1 < 2 ^ w →
      shmem_mknod_w w (some raw) dir d mode = shmem_mknod (some raw) dir d mode) ∧
    (dir.dir_offsets.next_offset = 2 ^ w - 1 →
      (shmem_mknod_w w (some raw) dir d mode).2.dir_offsets.next_offset = 0 ∧
      ∃ e, (shmem_mknod_w w (some raw) dir d mode).2.subdirs = dir.subdirs ++ [e] ∧
        dentry2offset e = 2 ^ w - 1 ∧ simple_positive e = true) := by
  refine ⟨by rw [shmem_mknod_w_ok], ?_, ?_⟩
  · intro h
    rw [shmem_mknod_w_ok, shmem_mknod_ok, Nat.mod_eq_of_lt h]
  · intro h
    rw [shmem_mknod_w_ok]
    have hpos : 0 < 2 ^ w := Nat.two_pow_pos w
    refine ⟨?_, _, rfl, ?_, rfl⟩
    · simp only [h]
      rw [Nat.sub_add_cancel hpos, Nat.mod_self]
    · simp only [dentry2offset, h]

/-- Witness of the amended C12: the sample directory at the end of a word of 64 bits. -/
theorem exhaustion_wraps_witness :
    ex_exhausted.dir_offsets.next_offset = 2 ^ 64 - 1 ∧
    (shmem_mknod_w 64 (some (ex_raw 14)) ex_exhausted (ex_dentry "z")
      0o100644).2.dir_offsets.next_offset = 0 :=
  ⟨by decide,
    ((exhaustion_wraps 64 (ex_raw 14) ex_exhausted (ex_dentry "z") 0o100644).2.2
      (by decide)).1⟩

/-- C13 (evaluation at the failing input): the children `a` (2), `b` (3), `c` (4) are held in
the list and in the index of one directory; both loops start at cursor 2 with bound 3 and a
consumer that accepts everything. `list_iterate_dir` hands over `a`, `b`, `c` and ends at
cursor 5; `offset_iterate_dir` hands over `a` only and ends at cursor 3. On the directory as
the three creations of this filesystem leave it the index is empty, and with the bound 5, the
counter of the directory, `offset_iterate_dir` hands over nothing where `list_iterate_dir`
hands over `a`, `b`, `c`. -/
theorem variants_differ_at_bound :
    ex_abc_indexed.dir_offsets.mt = ex_abc_indexed.subdirs ∧
    (list_iterate_dir accept_all ex_abc_indexed { pos := 2, buf := [] } 3).map
      (fun r => (r.1.pos, accepted_names r.2)) = some (5, [("a", 2), ("b", 3), ("c", 4)]) ∧
    (offset_iterate_dir accept_all ex_abc_indexed { pos := 2, buf := [] } 3).map
      (fun r => (r.1.pos, accepted_names r.2)) = some (3, [("a", 2)]) ∧
    Reachable ex_abc ∧ ex_abc.dir_offsets.mt = [] ∧ ex_abc.dir_offsets.next_offset = 5 ∧
    (list_iterate_dir accept_all ex_abc { pos := 2, buf := [] } 5).map
      (fun r => (r.1.pos, accepted_names r.2)) = some (5, [("a", 2), ("b", 3), ("c", 4)]) ∧
    (offset_iterate_dir accept_all ex_abc { pos := 2, buf := [] } 5).map
      (fun r => (r.1.pos, accepted_names r.2)) = some (2, []) :=
  ⟨by decide, by decide, by decide, reachable_apply_ops _ _ ex_root_reachable, by decide,
    by decide, by decide, by decide⟩

/-- C14 (evaluation at the failing input): the sample directory with `a` has its counter at
3; `offset_dir_open` stores 3 in the handle, `list_dir_open`, the open operation of every
directory of this filesystem, stores 2. In general `offset_dir_open` stores the counter of the
directory and `list_dir_open` stores 2 whatever the counter is. -/
theorem list_open_stores_constant :
    Reachable ex_a ∧ ex_a.dir_offsets.next_offset = 3 ∧
    (offset_dir_open ex_a ex_file).2.private_data = 3 ∧
    (list_dir_open ex_a ex_file).2.private_data = 2 ∧
    dir_open ex_a ex_file = some (list_dir_open ex_a ex_file) ∧
    (∀ (inode : shmem_inode_info) (f : file),
      (offset_dir_open inode f).2.private_data = inode.dir_offsets.next_offset ∧
      (list_dir_open inode f).2.private_data = 2) :=
  ⟨reachable_apply_ops _ _ ex_root_reachable, by decide, by decide, by decide, by decide,
    fun _ _ => ⟨rfl, rfl⟩⟩

/-- C15 (evaluation at the failing input): `shmem_symlink` on the sample directory succeeds
and adds BOGO_DIRENT_SIZE to the size, but assigns no offset, leaves the counter at 2 and
links nothing; an enumeration through a handle opened afterwards yields the dot entries only. -/
theorem symlink_skips_creation_protocol :
    (apply_op ex_root ex_symlink_s).1 = 0 ∧
    (apply_op ex_root ex_symlink_s).2.i_size = ex_root.i_size + BOGO_DIRENT_SIZE ∧
    (apply_op ex_root ex_symlink_s).2.dir_offsets.next_offset = 2 ∧
    (apply_op ex_root ex_symlink_s).2.subdirs = [] ∧
    assigned_offsets ex_root [ex_symlink_s] = [] ∧
    dir_open (apply_op ex_root ex_symlink_s).2 ex_file
      = some (0, { ex_file with private_data := 2 }) ∧
    (dir_readdir accept_all (apply_op ex_root ex_symlink_s).2 { ex_file with private_data := 2 }
        { pos := 0, buf := [] }).map (fun r => (r.1.pos, accepted_names r.2))
      = some (2, [(".", 0), ("..", 1)]) := by
  decide

/-- C16: for every index, cursor, bound and consumer, `offset_iterate_dir` returns, and every
entry it offered to the consumer is a live entry of the index whose offset is at or after the
starting cursor and below the bound `last_index`; when the entry that `offset_find_next`
returns at the cursor has an offset at or after the bound, the call ends with the context
unchanged and nothing offered. -/
theorem offset_enumerator_respects_bound {σ : Type} (actor : actor_t σ)
    (dir : shmem_inode_info) (ctx : dir_context σ) (last_index : Nat) :
    ∃ c log, offset_iterate_dir actor dir ctx last_index = some (c, log) ∧
      (∀ e ∈ log, ∃ d ∈ dir.dir_offsets.mt, e.1 = dirent_of d ∧ simple_positive d = true ∧
        ctx.pos ≤ dentry2offset d ∧ dentry2offset d < last_index) ∧
      (∀ d, offset_find_next dir.dir_offsets ctx.pos = some d → last_index ≤ dentry2offset d →
        c = ctx ∧ log = []) := by
  obtain ⟨⟨c, log⟩, h⟩ := offset_iterate_dir_total actor dir ctx last_index
  have hr := offset_loop_run actor dir.dir_offsets last_index _ ctx c log h
  refine ⟨c, log, h, ?_, ?_⟩
  · intro e he
    obtain ⟨p, hp, hn⟩ := Run_offered _ actor (progress_offset_loop_next _ _) _ _ _ hr e he
    obtain ⟨d, hd, h1, h2, h3, h4, -⟩ := offset_loop_next_mem _ _ _ _ hn
    exact ⟨d, hd, h1, h2, by simp only [dentry2offset]; omega, h4⟩
  · intro d hf hb
    simp only [offset_iterate_dir, offset_iterate_dir_loop, hf, hb, if_true] at h
    injection h with h
    injection h with h1 h2
    exact ⟨h1.symm, h2.symm⟩

/-- C18 (counterexample): the sample directory with words of 64 bits holds `a` (2), `b` (3),
`c` (4) and `z` at the greatest offset. With a consumer that accepts everything no budget of
iterations lets `list_iterate_dir` return: after `z` the cursor wraps to 0 and `a` is found
again. A consumer with room for 11 entries has accepted 11 entries when the call ends, in a
directory with 4 children at or after the starting cursor. -/
theorem list_enumeration_never_returns :
    ex_wrapped.subdirs.map (fun d => (d.d_name, d.d_fsdata, d.positive))
      = [("a", 2, true), ("b", 3, true), ("c", 4, true), ("z", 18446744073709551615, true)] ∧
    (∀ fuel, list_iterate_dir_w 64 accept_all ex_wrapped fuel { pos := 2, buf := [] } 5 = none) ∧
    (list_iterate_dir_w 64 accept_upto ex_wrapped 20 { pos := 2, buf := 11 } 5).map
      (fun r => (r.1.pos, (accepted r.2).length, pending ex_wrapped.subdirs 2)) = some (5, 11, 4) :=
  ⟨by decide, fun fuel => ex_wrapped_never_returns fuel _, by decide⟩

/-- C18 (amended): with the cursor in a word of `w` bits, `list_iterate_dir` returns for every
cursor and consumer in every directory none of whose children has the greatest offset
`2 ^ w - 1` of the word, and `offset_iterate_dir` returns in every directory when the word has
64 bits or more: every budget of iterations above the number of entries at or after the
starting cursor gives one and the same result. The cursor never decreases, every accepted
entry lies at or after the starting cursor and below the final one, and the number of entries
offered in the call is at most the number of entries at or after the starting cursor. -/
theorem enumeration_terminates_below_wrap {σ : Type} (w : Nat) (actor : actor_t σ)
    (dir : shmem_inode_info) (ctx : dir_context σ) (last_index : Nat)
    (hpos : ctx.pos < 2 ^ w) :
    ((∀ c ∈ dir.subdirs, c.d_fsdata + 1 < 2 ^ w) →
      ∃ c log,
        (∀ fuel, pending dir.subdirs ctx.pos < fuel →
          list_iterate_dir_w w actor dir fuel ctx last_index = some (c, log)) ∧
        log.length ≤ pending dir.subdirs ctx.pos ∧ ctx.pos ≤ c.pos ∧
        (∀ e ∈ accepted log, ctx.pos ≤ e.offset ∧ e.offset < c.pos)) ∧
    (64 ≤ w →
      ∃ c log,
        (∀ fuel, pending dir.dir_offsets.mt ctx.pos < fuel →
          offset_iterate_dir_w w actor dir fuel ctx last_index = some (c, log)) ∧
        log.length ≤ pending dir.dir_offsets.mt ctx.pos ∧ ctx.pos ≤ c.pos ∧
        (∀ e ∈ accepted log, ctx.pos ≤ e.offset ∧ e.offset < c.pos)) := by
  obtain ⟨⟨c, log, -, hn, hl, hm, ha⟩, ⟨c2, log2, -, hn2, hl2, hm2, ha2⟩⟩ :=
    enumeration_terminates_nat actor dir ctx last_index
  refine ⟨fun hno => ⟨c, log, ?_, hl, hm, ha⟩, fun hw => ⟨c2, log2, ?_, hl2, hm2, ha2⟩⟩
  · intro fuel hf
    unfold list_iterate_dir_w
    rw [list_loop_w_eq w actor dir hno fuel ctx hpos]
    exact hn fuel hf
  · intro fuel hf
    unfold offset_iterate_dir_w
    rw [offset_loop_w_eq w hw actor dir.dir_offsets last_index fuel ctx hpos]
    exact hn2 fuel hf

/-- Witness of the amended C18: the sample directory with `a`, `b`, `c` in list and index, words
of 64 bits, cursor 2 and a consumer that accepts everything. -/
theorem enumeration_terminates_below_wrap_witness :
    (2 : Nat) < 2 ^ 64 ∧
    (∃ c log, ∀ fuel, pending ex_abc_indexed.subdirs 2 < fuel →
      list_iterate_dir_w 64 accept_all ex_abc_indexed fuel { pos := 2, buf := [] } 5
        = some (c, log)) ∧
    (list_iterate_dir_w 64 accept_all ex_abc_indexed 4 { pos := 2, buf := [] } 5).map
      (fun r => (r.1.pos, accepted_names r.2)) = some (5, [("a", 2), ("b", 3), ("c", 4)]) ∧
    (offset_iterate_dir_w 64 accept_all ex_abc_indexed 4 { pos := 2, buf := [] } 5).map
      (fun r => (r.1.pos, accepted_names r.2)) = some (5, [("a", 2), ("b", 3), ("c", 4)]) :=
  ⟨by decide,
    match (enumeration_terminates_below_wrap 64 accept_all ex_abc_indexed
      { pos := 2, buf := [] } 5 (by decide)).1 (by decide) with
    | ⟨c, log, h, _⟩ => ⟨c, log, h⟩,
    by decide, by decide⟩

/-- C20 (evaluation at the failing input): with an empty destination `shmem_rename2` returns
whatever its uninitialised local `error` holds: 7 when that is 7, and the negated ENOTEMPTY
when that happens to be the value, although the destination is empty. -/
theorem rename_on_empty_returns_uninitialised :
    simple_empty [] = true ∧
    (shmem_rename2 7 ex_abc ex_abc []).1 = 7 ∧
    (shmem_rename2 (-ENOTEMPTY) ex_abc ex_abc []).1 = -ENOTEMPTY ∧
    ∀ (uninit : Int) (old_dir new_dir : shmem_inode_info) (children : List dentry),
      simple_empty children = true →
      (shmem_rename2 uninit old_dir new_dir children).1 = uninit := by
  refine ⟨by decide, by decide, by decide, ?_⟩
  intro uninit old_dir new_dir children h
  simp [shmem_rename2, h]

end Tmpfs
